import Mathlib

/-!
# Sweeper: the game engine of nightmarlin/sweeper

A shallow embedding of `game.go` (package `sweeper`), of the in-memory store
`infra/memory/store.go` and of the two mutating methods of `service.go`.

Modelling conventions.

* Go `int` values (board dimensions, coordinates, counters, the enumerations
  `GameState` and `CellState`) are integers `Int`.  The product
  `board.Height * board.Width` that `NewGame` validates against wraps around at the width
  of `int` (`wrapInt`, with the width as the argument `bits` of `NewGame`).
* The Go map `map[CellRef]Cell` is an association list `CellMap`.  `lookup` is the
  two-valued read `c, ok := m[k]`, `index` is the read `m[k]` (zero value for a missing
  key) and `assign` is the write `m[k] = c` (replace in place, or add a new entry).
* A method with a pointer receiver that mutates the game is a function returning the
  game after the call (together with the returned error, if the method has one).
* The recursion of `revealCell` and the unbounded loops of `NewGame` carry a fuel
  argument; running out of fuel is `none`.
* The number generator is a state-passing function over a world state `ω`; the
  cancellation signal of the context is a predicate on that world state.
* The engine owns its game, so there a game is a value.  The store copies game structs,
  and a copy shares its `Cells` map with the original; the store is therefore modelled
  over a memory of map objects (`GameValue`, `Maps`), one call at a time.
-/

namespace Sweeper

/-! ## Data model -/

/-- GameState is `type GameState int`. -/
abbrev GameState := Int

/-- The Game is still in progress. -/
def GameOngoing : GameState := 0
/-- The player won the Game. -/
def GameWon : GameState := 1
/-- The player lost the Game. -/
def GameLost : GameState := 2
/-- The player chose to end the Game. -/
def GameResigned : GameState := 3

/-- Board geometry and mine count. -/
structure Board where
  Width : Int
  Height : Int
  Mines : Int
deriving DecidableEq, Repr

/-- The number of cells that do not contain a mine. -/
def Board.safeCells (b : Board) : Int := (b.Width * b.Height) - b.Mines

/-- CellState is `type CellState int`. -/
abbrev CellState := Int

/-- No modifiers. -/
def CellDefault : CellState := 0
/-- Flagged as containing a mine and cannot be opened. -/
def CellFlagged : CellState := 1
/-- Marked as potentially containing a mine, but can still be opened. -/
def CellQuestioned : CellState := 2
/-- Revealed by the player. -/
def CellRevealed : CellState := 3

/-- A zero-based coordinate. -/
structure CellRef where
  Row : Int
  Column : Int
deriving DecidableEq, Repr

/-- One cell of the board. -/
structure Cell where
  ContainsMine : Bool
  NeighbouringMines : Int
  State : CellState
deriving DecidableEq, Repr

/-- The zero value `Cell{}`. -/
def Cell.zero : Cell := ⟨false, 0, CellDefault⟩

/-- The Go map `map[CellRef]Cell`, as an association list. -/
abbrev CellMap := List (CellRef × Cell)

/-- The read `c, ok := m[k]`: `none` stands for `ok = false`. -/
def lookup : CellMap → CellRef → Option Cell
  | [], _ => none
  | (k', v) :: t, k => if k' = k then some v else lookup t k

/-- The read `m[k]`: the zero cell when the key is missing. -/
def index (m : CellMap) (k : CellRef) : Cell := (lookup m k).getD Cell.zero

/-- The write `m[k] = v`: replaces the entry of `k`, or adds one. -/
def assign : CellMap → CellRef → Cell → CellMap
  | [], k, v => [(k, v)]
  | (k', v') :: t, k, v => if k' = k then (k, v) :: t else (k', v') :: assign t k v

/-- The key set of the map, in storage order. -/
def keys (m : CellMap) : List CellRef := m.map Prod.fst

/-- Identifiers (`uuid.UUID`). -/
abbrev UUID := Nat

/-- One game. -/
structure Game where
  ID : UUID
  State : GameState
  Board : Sweeper.Board
  Cells : CellMap
deriving DecidableEq, Repr

/-- The error values of the package, the formatted errors and the context error. -/
inductive Error where
  | ErrGameNotFound
  | ErrRevealed
  | ErrFlagged
  | ErrOutOfBounds
  | ErrGameFinished
  | unknownAction
  | wrap (msg : String) (inner : Error)
  | ctxErr
deriving DecidableEq, Repr

/-- The test `errors.Is e target`: `e` is `target` or wraps it. -/
def Error.Is : Error → Error → Bool
  | .wrap msg inner, target => decide (Error.wrap msg inner = target) || inner.Is target
  | e, target => decide (e = target)

/-- An IDGenerator generates globally unique IDs. -/
abbrev IDGenerator := Unit → UUID

/-- A NumberGenerator generates a number between 0 and N (exclusive); it is called with
the bound and the current world state and returns the number and the next world state. -/
abbrev NumberGenerator (ω : Type) := Int → ω → Int × ω

/-! ## Helpers of the engine -/

/-- The offsets visited by `for r := -1; r <= 1; r++ { for col := -1; col <= 1; col++`. -/
def offsets : List (Int × Int) :=
  [(-1, -1), (-1, 0), (-1, 1), (0, -1), (0, 0), (0, 1), (1, -1), (1, 0), (1, 1)]

/-- The cell reference `CellRef{Row: ref.Row + d.1, Column: ref.Column + d.2}`. -/
def CellRef.shift (ref : CellRef) (d : Int × Int) : CellRef :=
  ⟨ref.Row + d.1, ref.Column + d.2⟩

/-- Counts the number of mines in the cells surrounding the cell at `ref`. -/
def Game.countNeighbouringMines (g : Game) (ref : CellRef) : Int :=
  offsets.foldl
    (fun n d =>
      if d.1 = 0 ∧ d.2 = 0 then n
      else if (index g.Cells (ref.shift d)).ContainsMine then n + 1 else n)
    0

/-- The bounds check of a reference against the board. -/
def Game.checkBounds (g : Game) (ref : CellRef) : Bool :=
  decide (0 ≤ ref.Row) && decide (ref.Row < g.Board.Height) &&
    decide (0 ≤ ref.Column) && decide (ref.Column < g.Board.Width)

/-- A game is finished when its state is not `GameOngoing`. -/
def Game.finished (g : Game) : Bool := decide (g.State ≠ GameOngoing)

/-- The three counters of `tryWin`. -/
structure WinCounts where
  cellsFlaggedTotal : Int
  cellsFlaggedCorrect : Int
  cellsRevealed : Int
deriving DecidableEq, Repr

/-- The body of the loop `for _, c := range g.Cells` of `tryWin`. -/
def countCell (n : WinCounts) (c : Cell) : WinCounts :=
  let n1 :=
    if c.State = CellFlagged then
      let n0 := { n with cellsFlaggedTotal := n.cellsFlaggedTotal + 1 }
      if c.ContainsMine then { n0 with cellsFlaggedCorrect := n0.cellsFlaggedCorrect + 1 }
      else n0
    else n
  if c.State = CellRevealed then { n1 with cellsRevealed := n1.cellsRevealed + 1 } else n1

/-- The counters of `tryWin` after its loop. -/
def winCounts (m : CellMap) : WinCounts :=
  m.foldl (fun n e => countCell n e.2) ⟨0, 0, 0⟩

/-- Victory is obtained by revealing all non-mine squares or flagging all mines. -/
def Game.tryWin (g : Game) : Game :=
  if g.finished then g
  else
    let n := winCounts g.Cells
    if n.cellsFlaggedTotal = n.cellsFlaggedCorrect ∧ n.cellsFlaggedCorrect = g.Board.Mines then
      { g with State := GameWon }
    else if n.cellsRevealed = g.Board.safeCells then
      { g with State := GameWon }
    else g

/-- Runs a fallible step over a list, threading the game; `none` propagates. -/
def foldSteps {α : Type} (f : Game → α → Option Game) : Game → List α → Option Game
  | g, [] => some g
  | g, a :: as =>
    match f g a with
    | some g' => foldSteps f g' as
    | none => none

/-- The body of the neighbour loop of `revealCell`:
`if c, ok := g.Cells[cr]; ok && c.State != CellRevealed { g.revealCell(cr) }`,
with `rc` the recursive call. -/
def neighbourStep (rc : Game → CellRef → Option Game) (ref : CellRef) (g : Game)
    (d : Int × Int) : Option Game :=
  match lookup g.Cells (ref.shift d) with
  | some c => if c.State ≠ CellRevealed then rc g (ref.shift d) else some g
  | none => some g

/-- Reveals the cell; if the cell contains a mine, lose; if the cell has no neighbouring
mines, reveal all neighbours.  The first argument bounds the recursion depth. -/
def revealCellFuel : Nat → Game → CellRef → Option Game
  | 0, _, _ => none
  | n + 1, g, ref =>
    let c := index g.Cells ref
    if c.State = CellRevealed then some g
    else
      let c1 : Cell := { c with State := CellRevealed }
      if c1.ContainsMine then some { g with State := GameLost }
      else
        let g1 : Game := { g with Cells := assign g.Cells ref c1 }
        if c1.NeighbouringMines = 0 then
          foldSteps (neighbourStep (revealCellFuel n) ref) g1 offsets
        else some g1

/-- The method `revealCell`: the recursion run with a depth that always suffices
(see `revealCellFuel_enough`), so the second branch is never taken. -/
def Game.revealCell (g : Game) (ref : CellRef) : Game :=
  match revealCellFuel (g.Cells.length + 2) g ref with
  | some g' => g'
  | none => g

/-- UpdateCell tries to update the CellState of the Cell at CellRef to the provided one,
returning a descriptive error if the operation fails. -/
def Game.UpdateCell (g : Game) (ref : CellRef) (s : CellState) : Game × Option Error :=
  if g.finished then (g, some Error.ErrGameFinished)
  else if !g.checkBounds ref then (g, some Error.ErrOutOfBounds)
  else if s = CellDefault ∨ s = CellFlagged ∨ s = CellQuestioned then
    let c := index g.Cells ref
    if c.State = CellRevealed then (g, some Error.ErrRevealed)
    else (Game.tryWin { g with Cells := assign g.Cells ref { c with State := s } }, none)
  else if s = CellRevealed then
    if (index g.Cells ref).State = CellFlagged then (g, some Error.ErrFlagged)
    else ((g.revealCell ref).tryWin, none)
  else (g, some Error.unknownAction)

/-- End resigns an ongoing game. -/
def Game.End (g : Game) : Game × Option Error :=
  if g.finished then (g, some Error.ErrGameFinished)
  else ({ g with State := GameResigned }, none)

/-! ## Construction -/

/-- The values of `for i := range n`. -/
def rangeInt (n : Int) : List Int := (List.range n.toNat).map Int.ofNat

/-- The cell map after the two initialisation loops: one zero cell per coordinate. -/
def initCells (board : Board) : CellMap :=
  (rangeInt board.Height).foldl
    (fun m row => (rangeInt board.Width).foldl (fun m col => assign m ⟨row, col⟩ Cell.zero) m)
    []

/-- The draw `CellRef{Row: numberGen(board.Height), Column: numberGen(board.Width)}`. -/
def drawRef {ω : Type} (numberGen : NumberGenerator ω) (board : Board) (w : ω) : CellRef × ω :=
  let r := numberGen board.Height w
  let c := numberGen board.Width r.2
  (⟨r.1, c.1⟩, c.2)

/-- The inner loop of mine placement: draws until a cell without a mine is found and
puts a mine there; observes the cancellation signal before each draw. -/
def placeMine {ω : Type} (ctxDone : ω → Bool) (numberGen : NumberGenerator ω) (board : Board) :
    Nat → CellMap → ω → Option (Except Error (CellMap × ω))
  | 0, _, _ => none
  | fuel + 1, m, w =>
    if ctxDone w then some (.error Error.ctxErr)
    else
      let d := drawRef numberGen board w
      let c := index m d.1
      if c.ContainsMine then placeMine ctxDone numberGen board fuel m d.2
      else some (.ok (assign m d.1 { c with ContainsMine := true }, d.2))

/-- The outer loop `for range board.Mines`, run for `k` rounds. -/
def placeMines {ω : Type} (ctxDone : ω → Bool) (numberGen : NumberGenerator ω) (board : Board)
    (fuel : Nat) : Nat → CellMap → ω → Option (Except Error (CellMap × ω))
  | 0, m, w => some (.ok (m, w))
  | k + 1, m, w =>
    match placeMine ctxDone numberGen board fuel m w with
    | some (.ok (m', w')) => placeMines ctxDone numberGen board fuel k m' w'
    | some (.error e) => some (.error e)
    | none => none

/-- The body of the neighbour-count loop:
`c.NeighbouringMines = g.countNeighbouringMines(cr); g.Cells[cr] = c`. -/
def neighbourPassStep (g : Game) (cr : CellRef) : Game :=
  let c := index g.Cells cr
  let c1 : Cell := { c with NeighbouringMines := g.countNeighbouringMines cr }
  { g with Cells := assign g.Cells cr c1 }

/-- The neighbour-count pass `for cr, c := range g.Cells`: for every key, store the count
of neighbouring mines. -/
def neighbourPass (g : Game) : Game :=
  (keys g.Cells).foldl neighbourPassStep g

/-- The initial reveal: draws until a cell without a mine is found and reveals it. -/
def initialReveal {ω : Type} (numberGen : NumberGenerator ω) (board : Board) :
    Nat → Game → ω → Option Game
  | 0, _, _ => none
  | fuel + 1, g, w =>
    let d := drawRef numberGen board w
    if (index g.Cells d.1).ContainsMine then initialReveal numberGen board fuel g d.2
    else some (g.revealCell d.1)

/-- The value of a Go `int` expression whose mathematical result is `x`, on a target
whose `int` has `bits` bits (32 or 64): `x` reduced modulo `2^bits` into the range from
`-2^(bits-1)` up to, but not including, `2^(bits-1)`. -/
def wrapInt (bits : Nat) (x : Int) : Int :=
  (x + 2 ^ (bits - 1)) % 2 ^ bits - 2 ^ (bits - 1)

/-- NewGame validates the board, lays out the cells, places the mines, counts the
neighbours and reveals one cell.  `bits` is the width of `int` on the target: the product
`boardSize := board.Height * board.Width` wraps around at that width.  `none`: a loop did
not finish within `fuel` draws. -/
def NewGame {ω : Type} (bits fuel : Nat) (ctxDone : ω → Bool) (idGen : IDGenerator)
    (numberGen : NumberGenerator ω) (board : Board) (w : ω) : Option (Except Error Game) :=
  let boardSize := wrapInt bits (board.Height * board.Width)
  if board.Height ≤ 0 ∨ board.Width ≤ 0 then
    some (.error (.wrap "invalid board dimensions" .ErrOutOfBounds))
  else if board.Mines ≤ 0 then
    some (.error (.wrap "board must have at least 1 mine" .ErrOutOfBounds))
  else if board.Mines ≥ boardSize then
    some (.error (.wrap "board must have at least 1 free space" .ErrOutOfBounds))
  else
    let g : Game :=
      { ID := idGen (), State := GameOngoing, Board := board, Cells := initCells board }
    match placeMines ctxDone numberGen board fuel board.Mines.toNat g.Cells w with
    | none => none
    | some (.error e) => some (.error e)
    | some (.ok (m, w1)) =>
      match initialReveal numberGen board fuel (neighbourPass { g with Cells := m }) w1 with
      | none => none
      | some g' => some (.ok g')

/-! ## Specification vocabulary -/

/-- Two maps hold the same keys in the same order and corresponding cells are related
by `R`. -/
def MapRel (R : Cell → Cell → Prop) (m m' : CellMap) : Prop :=
  List.Forall₂ (fun e e' => e'.1 = e.1 ∧ R e.2 e'.2) m m'

/-- What a reveal may do to one cell: nothing, or turn a cell without a mine to
`CellRevealed`; the mine and the neighbour count stay. -/
def CellStep (c c' : Cell) : Prop :=
  c'.ContainsMine = c.ContainsMine ∧ c'.NeighbouringMines = c.NeighbouringMines ∧
    (c'.State = c.State ∨ (c'.State = CellRevealed ∧ c.ContainsMine = false))

/-- What a reveal may do to a game: cells change by `CellStep`, the board and the
identifier stay, and the state stays or becomes `GameLost`. -/
def RevealStep (g g' : Game) : Prop :=
  MapRel CellStep g.Cells g'.Cells ∧ g'.Board = g.Board ∧ g'.ID = g.ID ∧
    (g'.State = g.State ∨ g'.State = GameLost)

/-- The number of entries that are not revealed. -/
def unrevealed (m : CellMap) : Nat := m.countP (fun e => decide (e.2.State ≠ CellRevealed))

/-- The number of entries that contain a mine. -/
def mineCount (m : CellMap) : Nat := m.countP (fun e => e.2.ContainsMine)

/-- The map has exactly one entry per coordinate of the board. -/
def OneCellPerCoordinate (g : Game) : Prop :=
  (keys g.Cells).Nodup ∧ ∀ ref, ref ∈ keys g.Cells ↔ g.checkBounds ref = true

/-- A mutating call on a game: `UpdateCell(ref, s)` or `End()`. -/
inductive Call where
  | updateCell (ref : CellRef) (s : CellState)
  | endGame
deriving DecidableEq, Repr

/-- Performs one call. -/
def Call.run (g : Game) : Call → Game × Option Error
  | .updateCell ref s => g.UpdateCell ref s
  | .endGame => g.End

/-- Performs a sequence of calls, ignoring the returned errors. -/
def runCalls (g : Game) (calls : List Call) : Game :=
  calls.foldl (fun g c => (c.run g).1) g

/-- An ongoing 1x2 game with one mine, at (0,0); nothing is revealed. -/
def mineLeft : Game :=
  ⟨0, GameOngoing, ⟨2, 1, 1⟩, [(⟨0, 0⟩, ⟨true, 0, CellDefault⟩), (⟨0, 1⟩, ⟨false, 1, CellDefault⟩)]⟩

/-- The reference lies in `[0,Height) x [0,Width)`. -/
def InBounds (b : Board) (ref : CellRef) : Prop :=
  0 ≤ ref.Row ∧ ref.Row < b.Height ∧ 0 ≤ ref.Column ∧ ref.Column < b.Width

/-- A lost 1x2 game. -/
def lostGame : Game :=
  ⟨0, GameLost, ⟨2, 1, 1⟩, [(⟨0, 0⟩, ⟨true, 0, CellDefault⟩), (⟨0, 1⟩, ⟨false, 1, CellDefault⟩)]⟩

/-- The game is well formed: one cell per board coordinate, exactly `Board.Mines` mined
cells, and no mined cell is revealed. -/
def WellFormed (g : Game) : Prop :=
  OneCellPerCoordinate g ∧ (mineCount g.Cells : Int) = g.Board.Mines ∧
    ∀ ref c, lookup g.Cells ref = some c → c.ContainsMine = true → c.State ≠ CellRevealed

/-- Every cell without a mine is revealed. -/
def AllSafeRevealed (g : Game) : Prop :=
  ∀ ref c, lookup g.Cells ref = some c → c.ContainsMine = false → c.State = CellRevealed

/-- The set of flagged cells equals the set of mined cells. -/
def FlagsAreMines (g : Game) : Prop :=
  ∀ ref c, lookup g.Cells ref = some c → (c.State = CellFlagged ↔ c.ContainsMine = true)

/-- What one successful `UpdateCell` may do to a cell: the mine stays, and a cell that is
revealed afterwards was revealed before or has no mine. -/
def MoveStep (c c' : Cell) : Prop :=
  c'.ContainsMine = c.ContainsMine ∧
    (c'.State = CellRevealed → c.State = CellRevealed ∨ c.ContainsMine = false)

/-- An ongoing, well-formed 1x2 game: mine at (0,1), nothing revealed. -/
def mineRight : Game :=
  ⟨0, GameOngoing, ⟨2, 1, 1⟩, [(⟨0, 0⟩, ⟨false, 1, CellDefault⟩), (⟨0, 1⟩, ⟨true, 0, CellDefault⟩)]⟩

/-- The number generator returns values in `[0, n)` for every positive bound. -/
def InRange {ω : Type} (numberGen : NumberGenerator ω) : Prop :=
  ∀ (n : Int) (w : ω), 0 < n → 0 ≤ (numberGen n w).1 ∧ (numberGen n w).1 < n

/-- What mine placement may do to a cell: only the mine may change. -/
def MineStep (c c' : Cell) : Prop :=
  c'.NeighbouringMines = c.NeighbouringMines ∧ c'.State = c.State

/-- What the neighbour-count pass may do to a cell: only the count may change. -/
def CountStep (c c' : Cell) : Prop :=
  c'.ContainsMine = c.ContainsMine ∧ c'.State = c.State

/-- The up-to-8 grid-adjacent coordinates of a cell. -/
def neighbours (ref : CellRef) : List CellRef :=
  [⟨ref.Row - 1, ref.Column - 1⟩, ⟨ref.Row - 1, ref.Column⟩, ⟨ref.Row - 1, ref.Column + 1⟩,
    ⟨ref.Row, ref.Column - 1⟩, ⟨ref.Row, ref.Column + 1⟩,
    ⟨ref.Row + 1, ref.Column - 1⟩, ⟨ref.Row + 1, ref.Column⟩, ⟨ref.Row + 1, ref.Column + 1⟩]

/-- Whether the map holds a cell with a mine at the reference. -/
def hasMine (m : CellMap) (k : CellRef) : Bool :=
  match lookup m k with
  | some c => c.ContainsMine
  | none => false

/-- The number of grid-adjacent in-bounds cells that contain a mine; coordinates outside
the grid count as no mine. -/
def adjacentMines (g : Game) (ref : CellRef) : Nat :=
  ((neighbours ref).filter (fun k => g.checkBounds k && hasMine g.Cells k)).length

/-- No cell that has no mine and a zero neighbour count has a mine next to it. -/
def ZeroSafe (m : CellMap) : Prop :=
  ∀ k ∈ keys m, ∀ d ∈ offsets, (index m k).ContainsMine = false →
    (index m k).NeighbouringMines = 0 → (index m (k.shift d)).ContainsMine = false

/-- A number generator over a call counter: the `k`-th call with bound `n` returns
`(k / 2) mod n`. -/
def stepGen : NumberGenerator Nat := fun n k => (((k / 2 : Nat) : Int) % n, k + 1)

/-- The game `NewGame` builds on a 2x2 board with one mine from `stepGen`: the mine is at
(0,0) and the first reveal opens (1,1). -/
def newGameExample : Game :=
  ⟨7, GameOngoing, ⟨2, 2, 1⟩,
    [(⟨0, 0⟩, ⟨true, 0, CellDefault⟩), (⟨0, 1⟩, ⟨false, 1, CellDefault⟩),
      (⟨1, 0⟩, ⟨false, 1, CellDefault⟩), (⟨1, 1⟩, ⟨false, 1, CellRevealed⟩)]⟩

/-- The cell `b` is reachable from `a` by a chain of grid-adjacent cells of the game that
are not revealed, in which every cell before the last has `NeighbouringMines = 0`. -/
inductive Chain (g : Game) (a : CellRef) : CellRef → Prop
  | start (c : Cell) :
      lookup g.Cells a = some c → c.State ≠ CellRevealed → Chain g a a
  | next (b x : CellRef) (cb cx : Cell) :
      Chain g a b → lookup g.Cells b = some cb → cb.NeighbouringMines = 0 →
      x ∈ neighbours b → lookup g.Cells x = some cx → cx.State ≠ CellRevealed → Chain g a x

/-- A 1x3 game whose middle cell holds a mine and has neighbour count 0, next to a
mine-free cell (0,0) with neighbour count 0. -/
def mineBetween : Game :=
  ⟨0, GameOngoing, ⟨3, 1, 1⟩,
    [(⟨0, 0⟩, ⟨false, 0, CellDefault⟩), (⟨0, 1⟩, ⟨true, 0, CellDefault⟩),
      (⟨0, 2⟩, ⟨false, 1, CellDefault⟩)]⟩

/-- A 1x3 game with a mine at (0,2) and true neighbour counts. -/
def mineFar : Game :=
  ⟨0, GameOngoing, ⟨3, 1, 1⟩,
    [(⟨0, 0⟩, ⟨false, 0, CellDefault⟩), (⟨0, 1⟩, ⟨false, 1, CellDefault⟩),
      (⟨0, 2⟩, ⟨true, 0, CellDefault⟩)]⟩

/-- Every cell whose state changed between `g` and `g'` and whose neighbour count is 0 has
all its grid neighbours in the map revealed in `g'`. -/
def Closed (g g' : Game) : Prop :=
  ∀ b, (index g'.Cells b).State ≠ (index g.Cells b).State →
    (index g.Cells b).NeighbouringMines = 0 →
    ∀ nb ∈ neighbours b, nb ∈ keys g.Cells → (index g'.Cells nb).State = CellRevealed

/-- The map with an entry for `ref`: a missing key is added with the zero cell, which is
what the read `g.Cells[ref]` yields for it. -/
def withKey (m : CellMap) (ref : CellRef) : CellMap :=
  if ref ∈ keys m then m else m ++ [(ref, Cell.zero)]

/-- The fields of a cell that no call changes: the mine and the neighbour count. -/
def FieldStep (c c' : Cell) : Prop :=
  c'.ContainsMine = c.ContainsMine ∧ c'.NeighbouringMines = c.NeighbouringMines

/-- The game `newGameExample` after flagging (0,1), a safe cell, and (0,0), the mine. -/
def twoFlags : Game :=
  ⟨7, GameOngoing, ⟨2, 2, 1⟩,
    [(⟨0, 0⟩, ⟨true, 0, CellFlagged⟩), (⟨0, 1⟩, ⟨false, 1, CellFlagged⟩),
      (⟨1, 0⟩, ⟨false, 1, CellDefault⟩), (⟨1, 1⟩, ⟨false, 1, CellRevealed⟩)]⟩

/-- The game `NewGame` builds on a 1x4 board with one mine from `stepGen`: the mine is at
(0,0) and the first reveal opens (0,1). -/
def rowGame : Game :=
  ⟨7, GameOngoing, ⟨4, 1, 1⟩,
    [(⟨0, 0⟩, ⟨true, 0, CellDefault⟩), (⟨0, 1⟩, ⟨false, 1, CellRevealed⟩),
      (⟨0, 2⟩, ⟨false, 0, CellDefault⟩), (⟨0, 3⟩, ⟨false, 0, CellDefault⟩)]⟩

/-- A 3x3 board with 2 mines, at (0,0) and (2,2), before the neighbour-count pass. -/
def cornerMines : Game :=
  ⟨0, GameOngoing, ⟨3, 3, 2⟩,
    [(⟨0, 0⟩, ⟨true, 0, CellDefault⟩), (⟨0, 1⟩, ⟨false, 0, CellDefault⟩),
      (⟨0, 2⟩, ⟨false, 0, CellDefault⟩), (⟨1, 0⟩, ⟨false, 0, CellDefault⟩),
      (⟨1, 1⟩, ⟨false, 0, CellDefault⟩), (⟨1, 2⟩, ⟨false, 0, CellDefault⟩),
      (⟨2, 0⟩, ⟨false, 0, CellDefault⟩), (⟨2, 1⟩, ⟨false, 0, CellDefault⟩),
      (⟨2, 2⟩, ⟨true, 0, CellDefault⟩)]⟩

/-- The ongoing 3x3 game with 2 mines at (0,0) and (2,2) and neighbour counts computed by
`countNeighbouringMines`. -/
def cornerGame : Game := neighbourPass cornerMines

/-! ## The in-memory store (`infra/memory/store.go`) and the service (`service.go`)

A Go map is a reference: copying the struct `sweeper.Game` copies the reference held in its
field `Cells`, not the map.  The store is therefore modelled over a memory of map objects.
Calls are modelled one at a time: each holds the lock of the store from entry to return. -/

/-- A reference to a map object. -/
abbrev MapRef := Nat

/-- The Go value of type `sweeper.Game`: the field `Cells` holds a reference. -/
structure GameValue where
  ID : UUID
  State : GameState
  Board : Sweeper.Board
  Cells : MapRef
deriving DecidableEq, Repr

/-- The map objects in memory, by reference. -/
abbrev Maps := List (MapRef × CellMap)

/-- The map object behind a reference (the nil map when there is none). -/
def readMap : Maps → MapRef → CellMap
  | [], _ => []
  | (r', m) :: t, r => if r' = r then m else readMap t r

/-- Replaces the contents of the map object behind a reference. -/
def writeMap : Maps → MapRef → CellMap → Maps
  | [], r, m => [(r, m)]
  | (r', m') :: t, r, m => if r' = r then (r, m) :: t else (r', m') :: writeMap t r m

/-- The store: its table `s map[uuid.UUID]sweeper.Game`, together with the memory that
holds the map objects. -/
structure Store where
  s : List (UUID × GameValue)
  maps : Maps
deriving DecidableEq, Repr

/-- The read `g, ok := s.s[gameID]`. -/
def tableFind : List (UUID × GameValue) → UUID → Option GameValue
  | [], _ => none
  | (k', v) :: t, k => if k' = k then some v else tableFind t k

/-- The write `s.s[gameID] = v`. -/
def tableAssign : List (UUID × GameValue) → UUID → GameValue → List (UUID × GameValue)
  | [], k, v => [(k, v)]
  | (k', v') :: t, k, v => if k' = k then (k, v) :: t else (k', v') :: tableAssign t k v

/-- The game a caller sees through a pointer to a game value. -/
def Store.deref (st : Store) (v : GameValue) : Game :=
  ⟨v.ID, v.State, v.Board, readMap st.maps v.Cells⟩

/-- NewStore: the empty store. -/
def NewStore : Store := ⟨[], []⟩

/-- SaveGame: `s.s[g.ID] = *g`. -/
def Store.SaveGame (st : Store) (g : GameValue) : Store × Option Error :=
  ({ st with s := tableAssign st.s g.ID g }, none)

/-- The unlocked read `getGame`: a pointer to a copy of the stored value, or
`ErrGameNotFound`. -/
def Store.getGame (st : Store) (gameID : UUID) : Except Error GameValue :=
  match tableFind st.s gameID with
  | some g => .ok g
  | none => .error Error.ErrGameNotFound

/-- GetGame: `getGame` under the read lock. -/
def Store.GetGame (st : Store) (gameID : UUID) : Except Error GameValue :=
  st.getGame gameID

/-- The game `GetGame` shows to its caller, if any. -/
def Store.shown (st : Store) (gameID : UUID) : Option Game :=
  match st.GetGame gameID with
  | .ok v => some (st.deref v)
  | .error _ => none

/-- A GameMutator: it is handed a pointer to a game value and may assign its fields and
write the map objects in memory; it returns the value, the memory and its error. -/
abbrev GameMutator := GameValue → Maps → GameValue × Maps × Option Error

/-- MutateGame: reads a copy of the stored value, runs the mutator on it, and stores the
copy back only if the mutator returned no error. -/
def Store.MutateGame (st : Store) (gameID : UUID) (mutator : GameMutator) :
    Store × Except Error GameValue :=
  match st.getGame gameID with
  | .error err => (st, .error err)
  | .ok g =>
    match mutator g st.maps with
    | (_, maps', some err) => ({ st with maps := maps' }, .error (.wrap "error in mutator" err))
    | (g', maps', none) => ({ s := tableAssign st.s gameID g', maps := maps' }, .ok g')

/-- A method of `*Game` as a mutator: it works on the map object in place and assigns the
other fields of the value it is handed. -/
def inPlace (f : Game → Game × Option Error) : GameMutator := fun v maps =>
  let r := f ⟨v.ID, v.State, v.Board, readMap maps v.Cells⟩
  (⟨r.1.ID, r.1.State, r.1.Board, v.Cells⟩, writeMap maps v.Cells r.1.Cells, r.2)

/-- Service.EndGame: `MutateGame` with the mutator `g.End()`. -/
def Service.EndGame (st : Store) (gameID : UUID) : Store × Except Error GameValue :=
  st.MutateGame gameID (inPlace Game.End)

/-- Service.MakeMove: `MutateGame` with the mutator `g.UpdateCell(ref, toState)`. -/
def Service.MakeMove (st : Store) (gameID : UUID) (ref : CellRef) (toState : CellState) :
    Store × Except Error GameValue :=
  st.MutateGame gameID (inPlace (fun g => g.UpdateCell ref toState))

/-- The store that holds `newGameExample` under its id 7, its cells in map object 0. -/
def storeExample : Store :=
  ⟨[(7, ⟨7, GameOngoing, ⟨2, 2, 1⟩, 0⟩)], [(0, newGameExample.Cells)]⟩

/-- A mutator that flags the cell (0,1) of the game it is handed and then fails:
`c := g.Cells[ref]; c.State = CellFlagged; g.Cells[ref] = c; return ErrFlagged`. -/
def flagThenFail : GameMutator := fun v maps =>
  let c := index (readMap maps v.Cells) ⟨0, 1⟩
  let c1 : Cell := { c with State := CellFlagged }
  (v, writeMap maps v.Cells (assign (readMap maps v.Cells) ⟨0, 1⟩ c1), some Error.ErrFlagged)

/-- The number of grid-adjacent cells of the map that contain a mine. -/
def minedNeighbours (m : CellMap) (k : CellRef) : Nat :=
  ((neighbours k).filter (fun nb => hasMine m nb)).length

/-- Every cell's `NeighbouringMines` is the true number of its adjacent mined cells. -/
def TrueCounts (g : Game) : Prop :=
  ∀ k c, lookup g.Cells k = some c → c.NeighbouringMines = (minedNeighbours g.Cells k : Nat)

/-- What one successful `UpdateCell` may do to a cell, as far as winning is concerned: the
mine stays, a revealed cell stays revealed, and a cell that is revealed afterwards was
revealed before or has no mine. -/
def WinStep (c c' : Cell) : Prop :=
  c'.ContainsMine = c.ContainsMine ∧
    (c'.State = CellRevealed → c.State = CellRevealed ∨ c.ContainsMine = false) ∧
    (c.State = CellRevealed → c'.State = CellRevealed)

/-- The game `NewGame` builds on a 1x2 board with one mine from `stepGen`: the mine is at
(0,0) and the first reveal opens (0,1), the only safe cell. -/
def pairGame : Game :=
  ⟨7, GameOngoing, ⟨2, 1, 1⟩,
    [(⟨0, 0⟩, ⟨true, 0, CellDefault⟩), (⟨0, 1⟩, ⟨false, 1, CellRevealed⟩)]⟩

/-! ## The text view (`cmd/cli/render.go`) -/

namespace sweeperv1

/-- Modelled from the spec: the generated enum `sweeperv1.GameState` is not among the
sources; its named values are the ones `transformer.go` and `render.go` use, and
`GAME_STATE_UNKNOWN` stands for every other value. -/
inductive GameState where
  | GAME_STATE_UNKNOWN
  | ONGOING
  | WON
  | LOST
  | RESIGNED
deriving DecidableEq, Repr

/-- Modelled from the spec: the generated message `sweeperv1.Board` is not among the
sources; its three `int32` fields are read by `render.go` and set by `transformer.go`. -/
structure Board where
  Height : Int
  Width : Int
  Mines : Int
deriving DecidableEq, Repr

/-- Modelled from the spec: the generated one-of `RevealedCell.Value` is not among the
sources; it is `RevealedCell_Clear` with the `NeighbouringMines` of its
`ClearRevealedCell`, `RevealedCell_Mine`, or not set. -/
inductive RevealedValue where
  | unset
  | Clear (NeighbouringMines : Int)
  | Mine
deriving DecidableEq, Repr

/-- Modelled from the spec: the generated one-of `Cell.State` is not among the sources;
it is one of the four wrappers the type switch of `renderGame` names (`Cell_Revealed`
carries the `Value` of its `RevealedCell`), or not set. -/
inductive CellState where
  | unset
  | Unrevealed
  | Flagged
  | Questioned
  | Revealed (Value : RevealedValue)
deriving DecidableEq, Repr

/-- Modelled from the spec: the generated message `sweeperv1.Cell` is not among the
sources; `Row` and `Column` are `int32` fields, `State` is the one-of above. -/
structure Cell where
  Row : Int
  Column : Int
  State : CellState
deriving DecidableEq, Repr

/-- Modelled from the spec: the generated message `sweeperv1.Game` is not among the
sources; `Id` is a string, `Board` a (non-nil) board, `Cells` a slice of (non-nil)
cells. -/
structure Game where
  Id : String
  State : GameState
  Board : Board
  Cells : List Cell
deriving DecidableEq, Repr

end sweeperv1

/-- The rune `' '`. -/
def renderCellEmpty : Char := ' '
/-- The rune `'!'`. -/
def renderCellFlagged : Char := '!'
/-- The rune `'?'`. -/
def renderCellQuestion : Char := '?'
/-- The rune U+2573, the cross. -/
def renderCellMine : Char := '╳'
/-- The rune U+00BF. -/
def renderCellUnknown : Char := '¿'
/-- The rune U+2502. -/
def renderHeaderDividerVertical : Char := '│'
/-- The rune U+2500. -/
def renderHeaderDividerHorizontal : Char := '─'
/-- The rune U+253C. -/
def renderHeaderDividerJoint : Char := '┼'
/-- The rune U+254E. -/
def renderStandardDividerVertical : Char := '╎'
/-- The rune U+254C. -/
def renderStandardDividerHorizontal : Char := '╌'
/-- The rune U+2022, the bullet. -/
def renderStandardDividerJoint : Char := '•'

/-- The digit of `i` when `0 <= i && i <= 9` (`'0' + i`), else `renderCellUnknown`. -/
def runeFromInt (i : Int) : Char :=
  if 0 ≤ i ∧ i ≤ 9 then Char.ofNat (48 + i.toNat) else renderCellUnknown

/-- The text of a game state. -/
def gameStateToString : sweeperv1.GameState → String
  | .ONGOING => "Ongoing."
  | .WON => "You won!"
  | .LOST => "You lost."
  | .RESIGNED => "You resigned."
  | .GAME_STATE_UNKNOWN => "Unknown State"

/-- The loop of `printN` with `n` rounds left: each round appends `c` to `s`. -/
def printNLoop (c : Char) : Nat → String → String
  | 0, s => s
  | n + 1, s => printNLoop c n (s ++ String.singleton c)

/-- The rune `c` repeated `n` times (`for range n`; nothing for `n <= 0`). -/
def printN (c : Char) (n : Int) : String := printNLoop c n.toNat ""

/-- Go's `len(s)`: the number of bytes of the UTF-8 text. -/
def len (s : String) : Int := s.utf8ByteSize

/-- The loop `for len(s) < l { s = " " + s }` of `pad`, at most `n` rounds. -/
def padLoop : Nat → String → Int → String
  | 0, s, _ => s
  | n + 1, s, l => if len s < l then padLoop n (" " ++ s) l else s

/-- Left-pads `s` with blanks up to `l` bytes. Each round adds one byte, so `l` rounds
are enough for the loop to end by its own test. -/
def pad (s : String) (l : Int) : String := padLoop l.toNat s l

/-- Go's `strconv.Itoa`. -/
def Itoa (i : Int) : String := toString i

/-- An `io.Writer`: the text written so far, the number of `Write` calls made, and for
each call number the error that call returns, if any. -/
structure Writer where
  out : String
  calls : Nat
  fault : Nat → Option Error

/-- One `fmt.Fprintf`/`fmt.Fprintln` call, which hands the formatted text to the writer
in a single `Write`; a failing call adds nothing. -/
def Writer.Write (w : Writer) (s : String) : Writer × Option Error :=
  match w.fault w.calls with
  | some e => ({ w with calls := w.calls + 1 }, some e)
  | none => ({ w with out := w.out ++ s, calls := w.calls + 1 }, none)

/-- A sequence of print calls, each followed by `if err != nil { return err }`. -/
def Writer.writeAll (w : Writer) : List String → Writer × Option Error
  | [] => (w, none)
  | s :: rest =>
    match w.Write s with
    | (w', some e) => (w', some e)
    | (w', none) => w'.writeAll rest

/-- A writer that never fails and has nothing written yet, as `os.Stdout` in the
example. -/
def Stdout : Writer := ⟨"", 0, fun _ => none⟩

/-- The grid `cells` after the two `make` loops: `Height` rows of `Width` zero runes.
`none` is the run-time panic of `make` with a negative length. -/
def makeCells (board : sweeperv1.Board) : Option (List (List Char)) :=
  if board.Height < 0 then none
  else if 0 < board.Height ∧ board.Width < 0 then none
  else some (List.replicate board.Height.toNat (List.replicate board.Width.toNat (Char.ofNat 0)))

/-- The rune chosen for a cell by the type switch of `renderGame`. -/
def cellRune (c : sweeperv1.Cell) : Char :=
  match c.State with
  | .Unrevealed => renderCellEmpty
  | .Questioned => renderCellQuestion
  | .Flagged => renderCellFlagged
  | .Revealed (.Clear n) => runeFromInt n
  | .Revealed .Mine => renderCellMine
  | _ => renderCellUnknown

/-- The assignment `cells[row][col] = r`; `none` is the index-out-of-range panic. -/
def setCell (cells : List (List Char)) (row col : Int) (r : Char) : Option (List (List Char)) :=
  if row < 0 ∨ col < 0 then none
  else
    match cells.get? row.toNat with
    | none => none
    | some line =>
      if col.toNat < line.length then some (cells.set row.toNat (line.set col.toNat r))
      else none

/-- The loop `for _, c := range g.Cells`, from cell number `k` on: the context is tested
before each cell (`ctxDone k` says it is done at the test of cell `k`), then the cell's
rune is stored and a flagged cell is counted. -/
def accumulate (ctxDone : Nat → Bool) :
    List sweeperv1.Cell → Nat → List (List Char) → Int →
      Option (Except Error (List (List Char) × Int))
  | [], _, cells, flaggedCells => some (.ok (cells, flaggedCells))
  | c :: rest, k, cells, flaggedCells =>
    if ctxDone k then some (.error Error.ctxErr)
    else
      match setCell cells c.Row c.Column (cellRune c) with
      | none => none
      | some cells' =>
        accumulate ctxDone rest (k + 1) cells'
          (if c.State = .Flagged then flaggedCells + 1 else flaggedCells)

/-- The text of the first print call, `"Game '%s'\n%s\t%d/%d\n"`. -/
def headerText (g : sweeperv1.Game) (flaggedCells : Int) : String :=
  "Game '" ++ g.Id ++ "'\n" ++ gameStateToString g.State ++ "\t" ++ Itoa flaggedCells ++ "/" ++
    Itoa g.Board.Mines ++ "\n"

/-- The texts of the print calls for the column titles. -/
def titleChunks (g : sweeperv1.Game) (rowNameWidth colWidth : Int) : List String :=
  [" " ++ pad " " rowNameWidth] ++
    (rangeInt g.Board.Width).map
      (fun col =>
        " " ++ String.singleton renderHeaderDividerVertical ++ " " ++ pad (Itoa (col + 1)) colWidth) ++
    ["\n"]

/-- The texts of the print calls for board row `rowNum`: the divider line, the row number
and the cells of `row`. -/
def rowChunks (g : sweeperv1.Game) (rowNameWidth colWidth : Int) (rowNum : Nat)
    (row : List Char) : List String :=
  let horizDiv :=
    if rowNum = 0 then renderHeaderDividerHorizontal else renderStandardDividerHorizontal
  let join := if rowNum = 0 then renderHeaderDividerJoint else renderStandardDividerJoint
  [printN renderHeaderDividerHorizontal (rowNameWidth + 2)] ++
    (rangeInt g.Board.Width).map
      (fun colNum =>
        String.singleton (if colNum = 0 then renderHeaderDividerJoint else join) ++
          printN horizDiv (colWidth + 2)) ++
    ["\n " ++ pad (Itoa (rowNum + 1)) rowNameWidth] ++
    row.enum.map
      (fun p =>
        " " ++
          String.singleton
            (if p.1 = 0 then renderHeaderDividerVertical else renderStandardDividerVertical) ++
          " " ++ pad (String.singleton p.2) colWidth) ++
    ["\n"]

/-- The texts of all print calls of `renderGame` in order, one element per call. -/
def renderChunks (g : sweeperv1.Game) (cells : List (List Char)) (flaggedCells : Int) :
    List String :=
  let rowNameWidth := len (Itoa (g.Board.Height + 1))
  let colWidth := len (Itoa (g.Board.Width + 1))
  [headerText g flaggedCells] ++ titleChunks g rowNameWidth colWidth ++
    (cells.enum.map (fun p => rowChunks g rowNameWidth colWidth p.1 p.2)).flatten

/-- The function `renderGame(ctx, w, g)`: the writer afterwards and the returned error.
`none` is a run-time panic (negative board size, or a cell outside the grid). -/
def renderGame (ctxDone : Nat → Bool) (w : Writer) (g : sweeperv1.Game) :
    Option (Writer × Option Error) :=
  match makeCells g.Board with
  | none => none
  | some cells0 =>
    match accumulate ctxDone g.Cells 0 cells0 0 with
    | none => none
    | some (.error e) => some (w, some e)
    | some (.ok (cells, flaggedCells)) => some (w.writeAll (renderChunks g cells flaggedCells))

/-- The game of `Example_renderGame`: a lost 3x3 game with 2 mines, one flagged cell and
a revealed mine. -/
def exampleGame : sweeperv1.Game :=
  { Id := "0_example_game"
    State := .LOST
    Board := { Height := 3, Width := 3, Mines := 2 }
    Cells :=
      [⟨0, 0, .Revealed (.Clear 0)⟩, ⟨0, 1, .Unrevealed⟩, ⟨0, 2, .Flagged⟩,
        ⟨1, 0, .Revealed (.Clear 1)⟩, ⟨1, 1, .Questioned⟩, ⟨1, 2, .Unrevealed⟩,
        ⟨2, 0, .Revealed .Mine⟩, ⟨2, 1, .Unrevealed⟩, ⟨2, 2, .Unrevealed⟩] }

/-- The lines of the `// Output:` comment of `Example_renderGame`, as the test runner
reads them: without the comment marker and the blank after it, and without blanks at the
end of a line. -/
def exampleOutputLines : List String :=
  ["Game '0_example_game'",
    "You lost.\t• 1/2",
    "   │ 1 │ 2 │ 3",
    "───┼───┼───┼───",
    " 1 │ 0 ╎   ╎ !",
    "───┼╌╌╌•╌╌╌•╌╌╌",
    " 2 │ 1 ╎ ? ╎",
    "───┼╌╌╌•╌╌╌•╌╌╌",
    " 3 │ ╳ ╎   ╎"]

/-- The lines `renderGame` writes for `exampleGame`, each ended by a line feed in the
output. -/
def exampleRenderedLines : List String :=
  ["Game '0_example_game'",
    "You lost.\t1/2",
    "   │ 1 │ 2 │ 3",
    "───┼───┼───┼───",
    " 1 │ 0 ╎   ╎ !",
    "───┼╌╌╌•╌╌╌•╌╌╌",
    " 2 │ 1 ╎ ? ╎  ",
    "───┼╌╌╌•╌╌╌•╌╌╌",
    " 3 │ ╳ ╎   ╎  "]

/-- The text made of the given lines, each followed by a line feed. -/
def unlines (ls : List String) : String := ls.foldl (fun s l => s ++ l ++ "\n") ""

/-- The white space `strings.TrimSpace` removes, among the characters below U+0100. -/
def isSpace (c : Char) : Bool :=
  c = ' ' || c = '\t' || c = '\n' || c = '\r' || c = Char.ofNat 11 || c = Char.ofNat 12 ||
    c = Char.ofNat 133 || c = Char.ofNat 160

/-- Go's `strings.TrimSpace`, which the example runner applies to the output and to the
`Output` comment before it compares them. -/
def TrimSpace (s : String) : String :=
  String.mk ((s.toList.dropWhile isSpace).reverse.dropWhile isSpace).reverse

/-- A board of 2^32 by 2^32 cells with one mine: its number of cells, 2^64, does not fit
a 64-bit `int`. -/
def bigBoard : Board := ⟨4294967296, 4294967296, 1⟩

/-- A board of 2^16 by 2^16 cells with one mine: its number of cells, 2^32, does not fit
a 32-bit `int`. -/
def bigBoard32 : Board := ⟨65536, 65536, 1⟩

/-! ## The cell map -/

theorem lookup_assign_self (m : CellMap) (k : CellRef) (v : Cell) :
    lookup (assign m k v) k = some v := by
  induction m with
  | nil => simp [assign, lookup]
  | cons e t ih =>
    obtain ⟨k', v'⟩ := e
    by_cases h : k' = k
    · simp [assign, lookup, h]
    · simp [assign, lookup, h, ih]

theorem lookup_assign_ne (m : CellMap) (k k' : CellRef) (v : Cell) (h : k ≠ k') :
    lookup (assign m k v) k' = lookup m k' := by
  induction m with
  | nil => simp [assign, lookup, h]
  | cons e t ih =>
    obtain ⟨k0, v0⟩ := e
    by_cases h0 : k0 = k
    · subst h0
      simp [assign, lookup, h]
    · by_cases h1 : k0 = k'
      · subst h1
        simp [assign, lookup, h0]
      · simp [assign, lookup, h0, h1, ih]

theorem index_assign_self (m : CellMap) (k : CellRef) (v : Cell) :
    index (assign m k v) k = v := by
  simp [index, lookup_assign_self]

theorem index_assign_ne (m : CellMap) (k k' : CellRef) (v : Cell) (h : k ≠ k') :
    index (assign m k v) k' = index m k' := by
  simp [index, lookup_assign_ne m k k' v h]

theorem lookup_eq_none_iff (m : CellMap) (k : CellRef) :
    lookup m k = none ↔ k ∉ keys m := by
  induction m with
  | nil => simp [lookup, keys]
  | cons e t ih =>
    obtain ⟨k0, v0⟩ := e
    by_cases h0 : k0 = k
    · simp [lookup, keys, h0]
    · have h1 : ¬ k = k0 := fun h => h0 h.symm
      simp only [keys] at ih
      simp [lookup, keys, h0, h1, ih]

theorem lookup_some_mem_keys {m : CellMap} {k : CellRef} {c : Cell}
    (h : lookup m k = some c) : k ∈ keys m := by
  by_contra hk
  rw [(lookup_eq_none_iff m k).mpr hk] at h
  cases h

theorem lookup_of_mem_keys {m : CellMap} {k : CellRef} (h : k ∈ keys m) :
    lookup m k = some (index m k) := by
  cases hl : lookup m k with
  | none => exact absurd h ((lookup_eq_none_iff m k).mp hl)
  | some c => simp [index, hl]

theorem lookup_mem {m : CellMap} {k : CellRef} {c : Cell} (h : lookup m k = some c) :
    (k, c) ∈ m := by
  induction m with
  | nil => simp [lookup] at h
  | cons e t ih =>
    obtain ⟨k0, v0⟩ := e
    by_cases h0 : k0 = k
    · simp [lookup, h0] at h
      simp [h0, h]
    · simp [lookup, h0] at h
      exact List.mem_cons_of_mem _ (ih h)

theorem mem_lookup_of_nodup {m : CellMap} {k : CellRef} {c : Cell} (hn : (keys m).Nodup)
    (h : (k, c) ∈ m) : lookup m k = some c := by
  induction m with
  | nil => simp at h
  | cons e t ih =>
    obtain ⟨k0, v0⟩ := e
    simp only [keys, List.map_cons, List.nodup_cons] at hn
    rcases List.mem_cons.mp h with h1 | h1
    · cases h1
      simp [lookup]
    · have hk : k ∈ t.map Prod.fst := List.mem_map.mpr ⟨(k, c), h1, rfl⟩
      have h0 : k0 ≠ k := fun e => hn.1 (e ▸ hk)
      simp [lookup, h0]
      exact ih hn.2 h1

theorem keys_assign_of_mem {m : CellMap} {k : CellRef} (v : Cell) (h : k ∈ keys m) :
    keys (assign m k v) = keys m := by
  induction m with
  | nil => simp [keys] at h
  | cons e t ih =>
    obtain ⟨k0, v0⟩ := e
    by_cases h0 : k0 = k
    · simp [assign, keys, h0]
    · have h1 : k ∈ keys t := by
        simp only [keys, List.map_cons, List.mem_cons] at h
        rcases h with h | h
        · exact absurd h.symm h0
        · exact h
      have := ih h1
      simp only [keys] at this
      simp [assign, keys, h0, this]

theorem keys_assign_of_not_mem {m : CellMap} {k : CellRef} (v : Cell) (h : k ∉ keys m) :
    assign m k v = m ++ [(k, v)] := by
  induction m with
  | nil => simp [assign]
  | cons e t ih =>
    obtain ⟨k0, v0⟩ := e
    simp only [keys, List.map_cons, List.mem_cons, not_or] at h
    have h0 : ¬ k0 = k := fun e => h.1 e.symm
    simp [assign, h0]
    exact ih h.2

/-! ## Related maps -/

theorem mapRel_refl {R : Cell → Cell → Prop} (hR : ∀ c, R c c) (m : CellMap) :
    MapRel R m m := by
  induction m with
  | nil => exact List.Forall₂.nil
  | cons e t ih => exact List.Forall₂.cons ⟨rfl, hR _⟩ ih

theorem mapRel_trans {R : Cell → Cell → Prop} (hR : ∀ a b c, R a b → R b c → R a c)
    {m m' m'' : CellMap} (h1 : MapRel R m m') (h2 : MapRel R m' m'') : MapRel R m m'' := by
  unfold MapRel at *
  induction h1 generalizing m'' with
  | nil => cases h2; exact List.Forall₂.nil
  | cons hab _ ih =>
    cases h2 with
    | cons hbc hrest =>
      exact List.Forall₂.cons ⟨hbc.1.trans hab.1, hR _ _ _ hab.2 hbc.2⟩ (ih hrest)

theorem mapRel_mono {R R' : Cell → Cell → Prop} (hR : ∀ c c', R c c' → R' c c')
    {m m' : CellMap} (h : MapRel R m m') : MapRel R' m m' := by
  unfold MapRel at *
  induction h with
  | nil => exact List.Forall₂.nil
  | cons hab _ ih => exact List.Forall₂.cons ⟨hab.1, hR _ _ hab.2⟩ ih

theorem mapRel_keys_eq {R : Cell → Cell → Prop} {m m' : CellMap} (h : MapRel R m m') :
    keys m' = keys m := by
  unfold MapRel at h
  induction h with
  | nil => rfl
  | cons hab _ ih =>
    simp only [keys, List.map_cons] at ih ⊢
    rw [hab.1, ih]

theorem mapRel_length_eq {R : Cell → Cell → Prop} {m m' : CellMap} (h : MapRel R m m') :
    m'.length = m.length := by
  have := congrArg List.length (mapRel_keys_eq h)
  simpa [keys] using this

theorem mapRel_lookup {R : Cell → Cell → Prop} {m m' : CellMap} (h : MapRel R m m')
    (k : CellRef) :
    (lookup m k = none ∧ lookup m' k = none) ∨
      ∃ c c', lookup m k = some c ∧ lookup m' k = some c' ∧ R c c' := by
  unfold MapRel at h
  induction h with
  | nil => left; simp [lookup]
  | @cons a b l l' hab _ ih =>
    obtain ⟨ka, va⟩ := a
    obtain ⟨kb, vb⟩ := b
    obtain ⟨hk, hr⟩ := hab
    simp only at hk hr
    subst hk
    by_cases h0 : kb = k
    · right
      exact ⟨va, vb, by simp [lookup, h0], by simp [lookup, h0], hr⟩
    · simpa [lookup, h0] using ih

theorem mapRel_index {R : Cell → Cell → Prop} (hR : ∀ c, R c c) {m m' : CellMap}
    (h : MapRel R m m') (k : CellRef) : R (index m k) (index m' k) := by
  rcases mapRel_lookup h k with ⟨h1, h2⟩ | ⟨c, c', h1, h2, hr⟩
  · simp [index, h1, h2, hR]
  · simpa [index, h1, h2] using hr

theorem mapRel_assign {R : Cell → Cell → Prop} (hR : ∀ c, R c c) {m : CellMap}
    {k : CellRef} {v : Cell} (hk : k ∈ keys m) (hv : R (index m k) v) :
    MapRel R m (assign m k v) := by
  induction m with
  | nil => simp [keys] at hk
  | cons e t ih =>
    obtain ⟨k0, v0⟩ := e
    by_cases h0 : k0 = k
    · subst h0
      have hv' : R v0 v := by simpa [index, lookup] using hv
      simp only [assign, if_true]
      exact List.Forall₂.cons ⟨rfl, hv'⟩ (mapRel_refl hR t)
    · have hk' : k ∈ keys t := by
        simp only [keys, List.map_cons, List.mem_cons] at hk
        rcases hk with hk | hk
        · exact absurd hk.symm h0
        · exact hk
      have hv' : R (index t k) v := by simpa [index, lookup, h0] using hv
      simp only [assign, h0, if_false]
      exact List.Forall₂.cons ⟨rfl, hR _⟩ (ih hk' hv')

theorem mapRel_countP_eq {R : Cell → Cell → Prop} (p : Cell → Bool)
    (hp : ∀ c c', R c c' → p c' = p c) {m m' : CellMap} (h : MapRel R m m') :
    m'.countP (fun e => p e.2) = m.countP (fun e => p e.2) := by
  unfold MapRel at h
  induction h with
  | nil => rfl
  | cons hab _ ih =>
    simp only [List.countP_cons, ih, hp _ _ hab.2]

theorem mapRel_countP_le {R : Cell → Cell → Prop} (p : Cell → Bool)
    (hp : ∀ c c', R c c' → p c' = true → p c = true) {m m' : CellMap} (h : MapRel R m m') :
    m'.countP (fun e => p e.2) ≤ m.countP (fun e => p e.2) := by
  unfold MapRel at h
  induction h with
  | nil => exact le_refl _
  | @cons a b l l' hab _ ih =>
    simp only [List.countP_cons]
    have hle : (if p b.2 = true then 1 else 0) ≤ (if p a.2 = true then 1 else 0) := by
      by_cases hb : p b.2 = true
      · simp [hb, hp _ _ hab.2 hb]
      · simp [hb]
    omega

theorem cellStep_refl (c : Cell) : CellStep c c := ⟨rfl, rfl, Or.inl rfl⟩

theorem cellStep_trans (a b c : Cell) (h1 : CellStep a b) (h2 : CellStep b c) :
    CellStep a c := by
  obtain ⟨m1, n1, s1⟩ := h1
  obtain ⟨m2, n2, s2⟩ := h2
  refine ⟨m2.trans m1, n2.trans n1, ?_⟩
  rcases s2 with s2 | ⟨s2, hm⟩
  · rcases s1 with s1 | ⟨s1, hm1⟩
    · exact Or.inl (s2.trans s1)
    · exact Or.inr ⟨s2.trans s1, hm1⟩
  · exact Or.inr ⟨s2, by rw [← m1]; exact hm⟩

theorem revealStep_refl (g : Game) : RevealStep g g :=
  ⟨mapRel_refl cellStep_refl _, rfl, rfl, Or.inl rfl⟩

theorem revealStep_trans {a b c : Game} (h1 : RevealStep a b) (h2 : RevealStep b c) :
    RevealStep a c := by
  obtain ⟨c1, b1, i1, s1⟩ := h1
  obtain ⟨c2, b2, i2, s2⟩ := h2
  refine ⟨mapRel_trans cellStep_trans c1 c2, b2.trans b1, i2.trans i1, ?_⟩
  rcases s2 with s2 | s2
  · rcases s1 with s1 | s1
    · exact Or.inl (s2.trans s1)
    · exact Or.inr (s2.trans s1)
  · exact Or.inr s2

/-! ## Reveal propagation: frame and termination -/

theorem foldSteps_inv {α : Type} (I : Game → Prop) (f : Game → α → Option Game)
    (l : List α) (hstep : ∀ g a g', a ∈ l → I g → f g a = some g' → I g') :
    ∀ g g', I g → foldSteps f g l = some g' → I g' := by
  induction l with
  | nil =>
    intro g g' hI h
    simp only [foldSteps, Option.some.injEq] at h
    exact h ▸ hI
  | cons a t ih =>
    intro g g' hI h
    simp only [foldSteps] at h
    cases hf : f g a with
    | none => simp [hf] at h
    | some g1 =>
      simp only [hf] at h
      exact ih (fun g a g' ha => hstep g a g' (List.mem_cons_of_mem _ ha)) g1 g'
        (hstep g a g1 (List.mem_cons_self _ _) hI hf) h

theorem foldSteps_total {α : Type} (I : Game → Prop) (f : Game → α → Option Game)
    (l : List α) (hstep : ∀ g a, a ∈ l → I g → ∃ g', f g a = some g' ∧ I g') :
    ∀ g, I g → ∃ g', foldSteps f g l = some g' ∧ I g' := by
  induction l with
  | nil =>
    intro g hI
    exact ⟨g, rfl, hI⟩
  | cons a t ih =>
    intro g hI
    obtain ⟨g1, hf, hI1⟩ := hstep g a (List.mem_cons_self _ _) hI
    obtain ⟨g2, h2, hI2⟩ := ih (fun g a ha => hstep g a (List.mem_cons_of_mem _ ha)) g1 hI1
    exact ⟨g2, by simp [foldSteps, hf, h2], hI2⟩

theorem revealCellFuel_succ (n : Nat) (g : Game) (ref : CellRef) :
    revealCellFuel (n + 1) g ref =
      if (index g.Cells ref).State = CellRevealed then some g
      else if (index g.Cells ref).ContainsMine = true then some { g with State := GameLost }
      else if (index g.Cells ref).NeighbouringMines = 0 then
        foldSteps (neighbourStep (revealCellFuel n) ref)
          { g with Cells := assign g.Cells ref { index g.Cells ref with State := CellRevealed } }
          offsets
      else
        some { g with Cells := assign g.Cells ref { index g.Cells ref with State := CellRevealed } } := by
  simp only [revealCellFuel]

theorem revealStep_assign {g : Game} {ref : CellRef} (hk : ref ∈ keys g.Cells)
    (hm : (index g.Cells ref).ContainsMine = false) :
    RevealStep g
      { g with Cells := assign g.Cells ref { index g.Cells ref with State := CellRevealed } } :=
  ⟨mapRel_assign cellStep_refl hk ⟨rfl, rfl, Or.inr ⟨rfl, hm⟩⟩, rfl, rfl, Or.inl rfl⟩

theorem revealCellFuel_step (n : Nat) :
    ∀ (g : Game) (ref : CellRef) (g' : Game), ref ∈ keys g.Cells →
      revealCellFuel n g ref = some g' → RevealStep g g' := by
  induction n with
  | zero =>
    intro g ref g' _ h
    simp [revealCellFuel] at h
  | succ n ih =>
    intro g ref g' hk h
    rw [revealCellFuel_succ] at h
    split at h
    · cases h
      exact revealStep_refl g
    · split at h
      · cases h
        exact ⟨mapRel_refl cellStep_refl _, rfl, rfl, Or.inr rfl⟩
      · rename_i hm
        have hm' : (index g.Cells ref).ContainsMine = false := by simpa using hm
        have h1 := revealStep_assign hk hm'
        split at h
        · refine foldSteps_inv (fun x => RevealStep g x) _ offsets ?_ _ g' h1 h
          intro x d x' _ hx hstep
          simp only [neighbourStep] at hstep
          split at hstep
          · rename_i c hc
            split at hstep
            · exact revealStep_trans hx (ih x _ x' (lookup_some_mem_keys hc) hstep)
            · cases hstep
              exact hx
          · cases hstep
            exact hx
        · cases h
          exact h1

theorem countP_assign (q : Cell → Bool) {m : CellMap} {k : CellRef} (v : Cell)
    (hk : k ∈ keys m) :
    (assign m k v).countP (fun e => q e.2) + (if q (index m k) = true then 1 else 0) =
      m.countP (fun e => q e.2) + (if q v = true then 1 else 0) := by
  induction m with
  | nil => simp [keys] at hk
  | cons e t ih =>
    obtain ⟨k0, v0⟩ := e
    by_cases h0 : k0 = k
    · subst h0
      simp only [assign, if_true, index, lookup, Option.getD_some, List.countP_cons]
      omega
    · have hk' : k ∈ keys t := by
        simp only [keys, List.map_cons, List.mem_cons] at hk
        rcases hk with hk | hk
        · exact absurd hk.symm h0
        · exact hk
      have := ih hk'
      simp only [index, lookup, h0, if_false] at this ⊢
      simp only [assign, h0, if_false, List.countP_cons]
      omega

theorem revealStep_unrevealed_le {g g' : Game} (h : RevealStep g g') :
    unrevealed g'.Cells ≤ unrevealed g.Cells := by
  refine mapRel_countP_le (fun c => decide (c.State ≠ CellRevealed)) ?_ h.1
  intro c c' hs hc
  rcases hs.2.2 with hs | ⟨hs, _⟩
  · simpa [hs] using hc
  · simp [hs] at hc

theorem unrevealed_assign_revealed {m : CellMap} {k : CellRef} (v : Cell) (hk : k ∈ keys m)
    (hs : ¬ (index m k).State = CellRevealed) (hv : v.State = CellRevealed) :
    unrevealed (assign m k v) + 1 = unrevealed m := by
  have := countP_assign (fun c => decide (c.State ≠ CellRevealed)) v hk
  unfold unrevealed
  split_ifs at this with h1 h2 h2
  · simp [hv] at h2
  · exact this
  · simp [hs] at h1
  · simp [hs] at h1

theorem foldNeighbours_total (n : Nat)
    (ih : ∀ (g : Game) (ref : CellRef), ref ∈ keys g.Cells → unrevealed g.Cells + 1 ≤ n →
      ∃ g', revealCellFuel n g ref = some g')
    (g1 : Game) (ref : CellRef)
    (h1 : unrevealed g1.Cells + 1 ≤ n ∨ unrevealed g1.Cells = 0) :
    ∃ g', foldSteps (neighbourStep (revealCellFuel n) ref) g1 offsets = some g' := by
  have hstep : ∀ (x : Game) (d : Int × Int), d ∈ offsets →
      (unrevealed x.Cells + 1 ≤ n ∨ unrevealed x.Cells = 0) →
      ∃ x', neighbourStep (revealCellFuel n) ref x d = some x' ∧
        (unrevealed x'.Cells + 1 ≤ n ∨ unrevealed x'.Cells = 0) := by
    intro x d _ hx
    simp only [neighbourStep]
    split
    · rename_i c hc
      split
      · rename_i hs
        have hmem := lookup_mem hc
        have hpos : 0 < unrevealed x.Cells := by
          unfold unrevealed
          exact List.countP_pos_iff.mpr ⟨_, hmem, by simpa using hs⟩
        have hx' : unrevealed x.Cells + 1 ≤ n := by
          rcases hx with hx | hx
          · exact hx
          · omega
        obtain ⟨x', hx1⟩ := ih x _ (lookup_some_mem_keys hc) hx'
        have hle := revealStep_unrevealed_le (revealCellFuel_step n x _ x' (lookup_some_mem_keys hc) hx1)
        exact ⟨x', hx1, Or.inl (by omega)⟩
      · exact ⟨x, rfl, hx⟩
    · exact ⟨x, rfl, hx⟩
  obtain ⟨g', hg', _⟩ := foldSteps_total _ _ offsets hstep g1 h1
  exact ⟨g', hg'⟩

theorem revealCellFuel_total_mem (n : Nat) :
    ∀ (g : Game) (ref : CellRef), ref ∈ keys g.Cells → unrevealed g.Cells + 1 ≤ n →
      ∃ g', revealCellFuel n g ref = some g' := by
  induction n with
  | zero =>
    intro g ref _ h
    omega
  | succ n ih =>
    intro g ref hk hn
    rw [revealCellFuel_succ]
    split
    · exact ⟨_, rfl⟩
    · rename_i hs
      split
      · exact ⟨_, rfl⟩
      · split
        · apply foldNeighbours_total n ih
          have := unrevealed_assign_revealed
            { index g.Cells ref with State := CellRevealed } hk hs rfl
          left
          show unrevealed (assign g.Cells ref _) + 1 ≤ n
          omega
        · exact ⟨_, rfl⟩

theorem revealCellFuel_total (n : Nat) (g : Game) (ref : CellRef)
    (hn : unrevealed g.Cells + 2 ≤ n) : ∃ g', revealCellFuel n g ref = some g' := by
  by_cases hk : ref ∈ keys g.Cells
  · exact revealCellFuel_total_mem n g ref hk (by omega)
  · obtain ⟨k, rfl⟩ : ∃ k, n = k + 1 := ⟨n - 1, by omega⟩
    rw [revealCellFuel_succ]
    split
    · exact ⟨_, rfl⟩
    · split
      · exact ⟨_, rfl⟩
      · split
        · apply foldNeighbours_total k (revealCellFuel_total_mem k)
          left
          simp only [keys_assign_of_not_mem _ hk, unrevealed, List.countP_append] at hn ⊢
          simp
          simp at hn
          omega
        · exact ⟨_, rfl⟩

/-- The recursion depth `len(g.Cells) + 2` used by `Game.revealCell` always suffices. -/
theorem revealCellFuel_enough (g : Game) (ref : CellRef) :
    revealCellFuel (g.Cells.length + 2) g ref = some (g.revealCell ref) := by
  have hle : unrevealed g.Cells ≤ g.Cells.length := List.countP_le_length _
  obtain ⟨g', h⟩ := revealCellFuel_total (g.Cells.length + 2) g ref (by omega)
  simp [Game.revealCell, h]

theorem revealCell_step (g : Game) (ref : CellRef) (hk : ref ∈ keys g.Cells) :
    RevealStep g (g.revealCell ref) :=
  revealCellFuel_step _ g ref _ hk (revealCellFuel_enough g ref)

/-! ## Cell actions -/

theorem tryWin_of_finished {g : Game} (h : g.State ≠ GameOngoing) : g.tryWin = g := by
  simp [Game.tryWin, Game.finished, h]

theorem finished_of_ongoing {g : Game} (h : g.State = GameOngoing) : g.finished = false := by
  simp [Game.finished, h]

theorem revealCell_mine (g : Game) (ref : CellRef)
    (hm : (index g.Cells ref).ContainsMine = true)
    (hr : (index g.Cells ref).State ≠ CellRevealed) :
    g.revealCell ref = { g with State := GameLost } := by
  have h := revealCellFuel_enough g ref
  rw [revealCellFuel_succ, if_neg hr, if_pos hm] at h
  exact (Option.some.inj h).symm

theorem updateCell_finished {g : Game} (h : g.State ≠ GameOngoing) (ref : CellRef)
    (s : CellState) : g.UpdateCell ref s = (g, some Error.ErrGameFinished) := by
  simp [Game.UpdateCell, Game.finished, h]

theorem updateCell_outOfBounds {g : Game} (h : g.State = GameOngoing) {ref : CellRef}
    (hb : g.checkBounds ref = false) (s : CellState) :
    g.UpdateCell ref s = (g, some Error.ErrOutOfBounds) := by
  simp [Game.UpdateCell, Game.finished, h, hb]

theorem updateCell_mark {g : Game} (h : g.State = GameOngoing) {ref : CellRef}
    (hb : g.checkBounds ref = true) {s : CellState}
    (hs : s = CellDefault ∨ s = CellFlagged ∨ s = CellQuestioned) :
    g.UpdateCell ref s =
      if (index g.Cells ref).State = CellRevealed then (g, some Error.ErrRevealed)
      else (Game.tryWin { g with Cells := assign g.Cells ref { index g.Cells ref with State := s } },
        none) := by
  unfold Game.UpdateCell
  rw [finished_of_ongoing h, hb]
  simp only [Bool.false_eq_true, if_false, Bool.not_true, if_pos hs]

theorem updateCell_reveal {g : Game} (h : g.State = GameOngoing) {ref : CellRef}
    (hb : g.checkBounds ref = true) :
    g.UpdateCell ref CellRevealed =
      if (index g.Cells ref).State = CellFlagged then (g, some Error.ErrFlagged)
      else ((g.revealCell ref).tryWin, none) := by
  unfold Game.UpdateCell
  rw [finished_of_ongoing h, hb]
  have hs : ¬ (CellRevealed = CellDefault ∨ CellRevealed = CellFlagged ∨
      CellRevealed = CellQuestioned) := by decide
  simp only [Bool.false_eq_true, if_false, Bool.not_true, if_neg hs, if_true]

theorem updateCell_unknown {g : Game} (h : g.State = GameOngoing) {ref : CellRef}
    (hb : g.checkBounds ref = true) {s : CellState}
    (hs : ¬ (s = CellDefault ∨ s = CellFlagged ∨ s = CellQuestioned)) (hr : s ≠ CellRevealed) :
    g.UpdateCell ref s = (g, some Error.unknownAction) := by
  unfold Game.UpdateCell
  rw [finished_of_ongoing h, hb]
  simp only [Bool.false_eq_true, if_false, Bool.not_true, if_neg hs, if_neg hr]

/-- C3: on an ongoing game, revealing an in-bounds mined cell that is neither flagged nor
revealed returns no error, sets the state to `GameLost` (so not `GameWon`) and leaves every
other cell as it was. -/
theorem updateCell_reveal_mine (g : Game) (ref : CellRef)
    (hOn : g.State = GameOngoing) (hb : g.checkBounds ref = true)
    (hm : (index g.Cells ref).ContainsMine = true)
    (hf : (index g.Cells ref).State ≠ CellFlagged)
    (hr : (index g.Cells ref).State ≠ CellRevealed) :
    (g.UpdateCell ref CellRevealed).2 = none ∧
      (g.UpdateCell ref CellRevealed).1.State = GameLost ∧
      (g.UpdateCell ref CellRevealed).1.State ≠ GameWon ∧
      (∀ k, k ≠ ref → lookup (g.UpdateCell ref CellRevealed).1.Cells k = lookup g.Cells k) ∧
      keys (g.UpdateCell ref CellRevealed).1.Cells = keys g.Cells := by
  have hlost : ({ g with State := GameLost } : Game).State ≠ GameOngoing := by
    simp [GameLost, GameOngoing]
  have hu : g.UpdateCell ref CellRevealed = ({ g with State := GameLost }, none) := by
    rw [updateCell_reveal hOn hb, if_neg hf, revealCell_mine g ref hm hr,
      tryWin_of_finished hlost]
  rw [hu]
  simp [GameLost, GameWon]

theorem updateCell_reveal_mine_witness :
    mineLeft.State = GameOngoing ∧ mineLeft.checkBounds ⟨0, 0⟩ = true ∧
      (mineLeft.UpdateCell ⟨0, 0⟩ CellRevealed).2 = none ∧
      (mineLeft.UpdateCell ⟨0, 0⟩ CellRevealed).1.State = GameLost ∧
      (mineLeft.UpdateCell ⟨0, 0⟩ CellRevealed).1.State ≠ GameWon ∧
      (∀ k, k ≠ ⟨0, 0⟩ →
        lookup (mineLeft.UpdateCell ⟨0, 0⟩ CellRevealed).1.Cells k = lookup mineLeft.Cells k) ∧
      keys (mineLeft.UpdateCell ⟨0, 0⟩ CellRevealed).1.Cells = keys mineLeft.Cells :=
  ⟨by decide, by decide,
    updateCell_reveal_mine mineLeft ⟨0, 0⟩ (by decide) (by decide) (by decide) (by decide)
      (by decide)⟩

theorem checkBounds_iff (g : Game) (ref : CellRef) :
    g.checkBounds ref = true ↔ InBounds g.Board ref := by
  simp [Game.checkBounds, InBounds, and_assoc]

theorem checkBounds_false_iff (g : Game) (ref : CellRef) :
    g.checkBounds ref = false ↔ ¬ InBounds g.Board ref := by
  rw [← checkBounds_iff]
  simp

/-- C9: on an ongoing game and for a requested state among the four defined ones,
`UpdateCell` returns `ErrOutOfBounds` exactly when the reference is out of bounds; in bounds
and for `Default`, `Flagged`, `Questioned` it returns `ErrRevealed` exactly when the target
cell is revealed; in bounds and for `Revealed` it returns `ErrFlagged` exactly when the
target cell is flagged; and it returns no error exactly in the remaining cases. -/
theorem updateCell_error_cases (g : Game) (ref : CellRef) (s : CellState)
    (hOn : g.State = GameOngoing)
    (hs : s = CellDefault ∨ s = CellFlagged ∨ s = CellQuestioned ∨ s = CellRevealed) :
    ((g.UpdateCell ref s).2 = some Error.ErrOutOfBounds ↔ ¬ InBounds g.Board ref) ∧
      (InBounds g.Board ref → s ≠ CellRevealed →
        ((g.UpdateCell ref s).2 = some Error.ErrRevealed ↔
          (index g.Cells ref).State = CellRevealed)) ∧
      (InBounds g.Board ref → s = CellRevealed →
        ((g.UpdateCell ref s).2 = some Error.ErrFlagged ↔
          (index g.Cells ref).State = CellFlagged)) ∧
      ((g.UpdateCell ref s).2 = none ↔
        InBounds g.Board ref ∧
          ¬ (s ≠ CellRevealed ∧ (index g.Cells ref).State = CellRevealed) ∧
          ¬ (s = CellRevealed ∧ (index g.Cells ref).State = CellFlagged)) := by
  by_cases hb : g.checkBounds ref = true
  · have hin : InBounds g.Board ref := (checkBounds_iff g ref).mp hb
    by_cases hr : s = CellRevealed
    · subst hr
      rw [updateCell_reveal hOn hb]
      by_cases hf : (index g.Cells ref).State = CellFlagged
      · simp [hf, hin]
      · simp [hf, hin]
    · have hm : s = CellDefault ∨ s = CellFlagged ∨ s = CellQuestioned := by
        rcases hs with h | h | h | h
        · exact Or.inl h
        · exact Or.inr (Or.inl h)
        · exact Or.inr (Or.inr h)
        · exact absurd h hr
      rw [updateCell_mark hOn hb hm]
      by_cases hv : (index g.Cells ref).State = CellRevealed
      · simp [hv, hin, hr]
      · simp [hv, hin, hr]
  · have hb' : g.checkBounds ref = false := by simpa using hb
    have hout : ¬ InBounds g.Board ref := (checkBounds_false_iff g ref).mp hb'
    rw [updateCell_outOfBounds hOn hb' s]
    simp [hout]

theorem updateCell_error_cases_witness :
    mineLeft.State = GameOngoing ∧
      (((mineLeft.UpdateCell ⟨0, 5⟩ CellFlagged).2 = some Error.ErrOutOfBounds ↔
          ¬ InBounds mineLeft.Board ⟨0, 5⟩) ∧
        (InBounds mineLeft.Board ⟨0, 5⟩ → CellFlagged ≠ CellRevealed →
          ((mineLeft.UpdateCell ⟨0, 5⟩ CellFlagged).2 = some Error.ErrRevealed ↔
            (index mineLeft.Cells ⟨0, 5⟩).State = CellRevealed)) ∧
        (InBounds mineLeft.Board ⟨0, 5⟩ → CellFlagged = CellRevealed →
          ((mineLeft.UpdateCell ⟨0, 5⟩ CellFlagged).2 = some Error.ErrFlagged ↔
            (index mineLeft.Cells ⟨0, 5⟩).State = CellFlagged)) ∧
        ((mineLeft.UpdateCell ⟨0, 5⟩ CellFlagged).2 = none ↔
          InBounds mineLeft.Board ⟨0, 5⟩ ∧
            ¬ (CellFlagged ≠ CellRevealed ∧ (index mineLeft.Cells ⟨0, 5⟩).State = CellRevealed) ∧
            ¬ (CellFlagged = CellRevealed ∧
              (index mineLeft.Cells ⟨0, 5⟩).State = CellFlagged))) :=
  ⟨by decide, updateCell_error_cases mineLeft ⟨0, 5⟩ CellFlagged (by decide) (by decide)⟩

theorem end_finished {g : Game} (h : g.State ≠ GameOngoing) :
    g.End = (g, some Error.ErrGameFinished) := by
  simp [Game.End, Game.finished, h]

theorem runCalls_finished {g : Game} (h : g.State ≠ GameOngoing) (calls : List Call) :
    runCalls g calls = g := by
  induction calls with
  | nil => rfl
  | cons c t ih =>
    have hc : (c.run g).1 = g := by
      cases c with
      | updateCell ref s => simp [Call.run, updateCell_finished h]
      | endGame => simp [Call.run, end_finished h]
    simp only [runCalls, List.foldl_cons, hc] at ih ⊢
    exact ih

/-- C10: on a game that is won, lost or resigned, every `UpdateCell` call and every `End`
call returns `ErrGameFinished` and leaves the whole game (state and cells) unchanged; hence
no sequence of such calls changes the game. -/
theorem finished_game_is_frozen (g : Game)
    (h : g.State = GameWon ∨ g.State = GameLost ∨ g.State = GameResigned) :
    (∀ ref s, g.UpdateCell ref s = (g, some Error.ErrGameFinished)) ∧
      g.End = (g, some Error.ErrGameFinished) ∧
      (∀ calls, runCalls g calls = g) ∧
      (∀ (calls : List Call) (c : Call),
        (c.run (runCalls g calls)).2 = some Error.ErrGameFinished) := by
  have hne : g.State ≠ GameOngoing := by
    rcases h with h | h | h <;> rw [h] <;> decide
  refine ⟨fun ref s => updateCell_finished hne ref s, end_finished hne,
    fun calls => runCalls_finished hne calls, ?_⟩
  intro calls c
  rw [runCalls_finished hne calls]
  cases c with
  | updateCell ref s => simp [Call.run, updateCell_finished hne]
  | endGame => simp [Call.run, end_finished hne]

theorem finished_game_is_frozen_witness :
    (lostGame.State = GameWon ∨ lostGame.State = GameLost ∨ lostGame.State = GameResigned) ∧
      (∀ ref s, lostGame.UpdateCell ref s = (lostGame, some Error.ErrGameFinished)) ∧
      lostGame.End = (lostGame, some Error.ErrGameFinished) ∧
      (∀ calls, runCalls lostGame calls = lostGame) ∧
      (∀ (calls : List Call) (c : Call),
        (c.run (runCalls lostGame calls)).2 = some Error.ErrGameFinished) :=
  ⟨by decide, finished_game_is_frozen lostGame (by decide)⟩

/-! ## Construction: validation -/

theorem placeMine_error {ω : Type} (ctxDone : ω → Bool) (numberGen : NumberGenerator ω)
    (board : Board) (fuel : Nat) :
    ∀ (m : CellMap) (w : ω) (e : Error),
      placeMine ctxDone numberGen board fuel m w = some (.error e) → e = Error.ctxErr := by
  induction fuel with
  | zero =>
    intro m w e h
    simp [placeMine] at h
  | succ n ih =>
    intro m w e h
    simp only [placeMine] at h
    split at h
    · simp only [Option.some.injEq, Except.error.injEq] at h
      exact h.symm
    · split at h
      · exact ih _ _ _ h
      · simp at h

theorem placeMines_error {ω : Type} (ctxDone : ω → Bool) (numberGen : NumberGenerator ω)
    (board : Board) (fuel : Nat) (k : Nat) :
    ∀ (m : CellMap) (w : ω) (e : Error),
      placeMines ctxDone numberGen board fuel k m w = some (.error e) → e = Error.ctxErr := by
  induction k with
  | zero =>
    intro m w e h
    simp [placeMines] at h
  | succ k ih =>
    intro m w e h
    simp only [placeMines] at h
    split at h
    · exact ih _ _ _ h
    · rename_i e' he
      simp only [Option.some.injEq, Except.error.injEq] at h
      subst h
      exact placeMine_error ctxDone numberGen board fuel _ _ _ he
    · simp at h

/-- A wrapped product of a non-negative value is never above the value itself. -/
theorem wrapInt_le (bits : Nat) (x : Int) (hx : 0 ≤ x) : wrapInt bits x ≤ x := by
  unfold wrapInt
  have hh : (0 : Int) < 2 ^ (bits - 1) := by positivity
  have hm : (0 : Int) < 2 ^ bits := by positivity
  have h1 := Int.emod_add_ediv (x + 2 ^ (bits - 1)) (2 ^ bits)
  have h2 : 0 ≤ (x + 2 ^ (bits - 1)) / 2 ^ bits := Int.ediv_nonneg (by linarith) (le_of_lt hm)
  have h3 : 0 ≤ 2 ^ bits * ((x + 2 ^ (bits - 1)) / 2 ^ bits) := mul_nonneg (le_of_lt hm) h2
  linarith

/-- A value of the non-negative half of the `int` range is not changed by the wrap. -/
theorem wrapInt_eq (bits : Nat) (x : Int) (hb : 0 < bits) (hx : 0 ≤ x)
    (hlt : x < 2 ^ (bits - 1)) : wrapInt bits x = x := by
  obtain ⟨k, rfl⟩ := Nat.exists_eq_succ_of_ne_zero (Nat.pos_iff_ne_zero.mp hb)
  simp only [Nat.succ_eq_add_one, Nat.add_sub_cancel] at hlt
  unfold wrapInt
  simp only [Nat.succ_eq_add_one, Nat.add_sub_cancel]
  have hh : (0 : Int) < 2 ^ k := by positivity
  have hp : (2 : Int) ^ (k + 1) = 2 ^ k + 2 ^ k := by ring
  rw [Int.emod_eq_of_lt (by linarith) (by rw [hp]; linarith)]
  ring

theorem newGame_valid {ω : Type} (bits fuel : Nat) (ctxDone : ω → Bool) (idGen : IDGenerator)
    (numberGen : NumberGenerator ω) (board : Board) (w : ω)
    (hH : 0 < board.Height) (hW : 0 < board.Width) (hM : 0 < board.Mines)
    (hF : board.Mines < wrapInt bits (board.Height * board.Width)) :
    NewGame bits fuel ctxDone idGen numberGen board w =
      match placeMines ctxDone numberGen board fuel board.Mines.toNat (initCells board) w with
      | none => none
      | some (.error e) => some (.error e)
      | some (.ok (m, w1)) =>
        match initialReveal numberGen board fuel
          (neighbourPass ⟨idGen (), GameOngoing, board, m⟩) w1 with
        | none => none
        | some g' => some (.ok g') := by
  have h1 : ¬ (board.Height ≤ 0 ∨ board.Width ≤ 0) := by omega
  have h2 : ¬ board.Mines ≤ 0 := by omega
  have h3 : ¬ board.Mines ≥ wrapInt bits (board.Height * board.Width) := not_le.mpr hF
  simp only [NewGame, if_neg h1, if_neg h2, if_neg h3]

/-- Whatever the width of `int`: a board with `Height <= 0` or `Width <= 0` or
`Mines <= 0` or `Mines >= Width*Height` is rejected with an error wrapping
`ErrOutOfBounds`, the same error whatever the fuel, the context, the generator and the
world state are. -/
theorem newGame_rejects {ω : Type} (bits : Nat) (idGen : IDGenerator) (board : Board)
    (h : board.Height ≤ 0 ∨ board.Width ≤ 0 ∨ board.Mines ≤ 0 ∨
      board.Mines ≥ board.Width * board.Height) :
    ∃ e, e.Is Error.ErrOutOfBounds = true ∧
      ∀ (fuel : Nat) (ctxDone : ω → Bool) (numberGen : NumberGenerator ω) (w : ω),
        NewGame bits fuel ctxDone idGen numberGen board w = some (.error e) := by
  by_cases h1 : board.Height ≤ 0 ∨ board.Width ≤ 0
  · exact ⟨.wrap "invalid board dimensions" .ErrOutOfBounds, by simp [Error.Is],
      fun _ _ _ _ => by simp only [NewGame, if_pos h1]⟩
  · by_cases h2 : board.Mines ≤ 0
    · exact ⟨.wrap "board must have at least 1 mine" .ErrOutOfBounds, by simp [Error.Is],
        fun _ _ _ _ => by simp only [NewGame, if_neg h1, if_pos h2]⟩
    · have hge : board.Mines ≥ board.Height * board.Width := by
        rw [mul_comm]
        rcases h with h | h | h | h
        · exact absurd (Or.inl h) h1
        · exact absurd (Or.inr h) h1
        · exact absurd h h2
        · exact h
      have hpos : 0 ≤ board.Height * board.Width :=
        mul_nonneg (by omega) (by omega)
      have h3 : board.Mines ≥ wrapInt bits (board.Height * board.Width) :=
        le_trans (wrapInt_le bits _ hpos) hge
      exact ⟨.wrap "board must have at least 1 free space" .ErrOutOfBounds,
        by simp [Error.Is],
        fun _ _ _ _ => by simp only [NewGame, if_neg h1, if_neg h2, if_pos h3]⟩

/-- C7 (as stated) fails where the product `Height * Width` overflows `int`.  With a
64-bit `int` the board of 2^32 by 2^32 cells with one mine has positive dimensions, a
mine, and fewer mines than cells, yet `boardSize` wraps to 0 and `NewGame` rejects the
board for having no free space; with a 32-bit `int` the same happens for 2^16 by 2^16. -/
theorem newGame_rejects_wrapped_board :
    ¬ (bigBoard.Height ≤ 0 ∨ bigBoard.Width ≤ 0 ∨ bigBoard.Mines ≤ 0 ∨
        bigBoard.Mines ≥ bigBoard.Width * bigBoard.Height) ∧
      wrapInt 64 (bigBoard.Height * bigBoard.Width) = 0 ∧
      NewGame 64 5 (fun _ => false) (fun _ => 7) stepGen bigBoard 0 =
        some (.error (.wrap "board must have at least 1 free space" .ErrOutOfBounds)) ∧
      ¬ (bigBoard32.Height ≤ 0 ∨ bigBoard32.Width ≤ 0 ∨ bigBoard32.Mines ≤ 0 ∨
        bigBoard32.Mines ≥ bigBoard32.Width * bigBoard32.Height) ∧
      NewGame 32 5 (fun _ => false) (fun _ => 7) stepGen bigBoard32 0 =
        some (.error (.wrap "board must have at least 1 free space" .ErrOutOfBounds)) ∧
      (Error.wrap "board must have at least 1 free space" .ErrOutOfBounds).Is
        Error.ErrOutOfBounds = true := by
  refine ⟨by decide, by decide, by rfl, by decide, by rfl, by decide⟩

/-- C7: for a board whose product `Width * Height` does not overflow `int` (it is below
`2^(bits-1)` for an `int` of `bits` bits), `NewGame` rejects the board with an error
wrapping `ErrOutOfBounds` if and only if `Height <= 0` or `Width <= 0` or `Mines <= 0` or
`Mines >= Width*Height`; the rejection happens before any draw (the same error whatever
the fuel, the context, the generator and the world state are); a 1x2 board with 2 mines
is rejected for having no free space. -/
theorem newGame_rejects_iff {ω : Type} (bits fuel : Nat) (ctxDone : ω → Bool) (idGen : IDGenerator)
    (numberGen : NumberGenerator ω) (board : Board) (w : ω)
    (hfit : board.Width * board.Height < 2 ^ (bits - 1)) :
    ((∃ e, NewGame bits fuel ctxDone idGen numberGen board w = some (.error e) ∧
          e.Is Error.ErrOutOfBounds = true) ↔
        (board.Height ≤ 0 ∨ board.Width ≤ 0 ∨ board.Mines ≤ 0 ∨
          board.Mines ≥ board.Width * board.Height)) ∧
      ((board.Height ≤ 0 ∨ board.Width ≤ 0 ∨ board.Mines ≤ 0 ∨
          board.Mines ≥ board.Width * board.Height) →
        ∃ e, e.Is Error.ErrOutOfBounds = true ∧
          ∀ (fuel' : Nat) (ctxDone' : ω → Bool) (numberGen' : NumberGenerator ω) (w' : ω),
            NewGame bits fuel' ctxDone' idGen numberGen' board w' = some (.error e)) ∧
      NewGame bits fuel ctxDone idGen numberGen ⟨2, 1, 2⟩ w =
        some (.error (.wrap "board must have at least 1 free space" .ErrOutOfBounds)) := by
  refine ⟨⟨?_, ?_⟩, newGame_rejects bits idGen board, ?_⟩
  · rintro ⟨e, he, his⟩
    by_contra hc
    have hH : 0 < board.Height := by omega
    have hW : 0 < board.Width := by omega
    have hM : 0 < board.Mines := by omega
    have hpos : 0 < board.Height * board.Width := mul_pos hH hW
    have hb : 0 < bits := by
      rcases Nat.eq_zero_or_pos bits with h0 | h0
      · subst h0
        simp only [Nat.zero_sub, pow_zero] at hfit
        rw [mul_comm] at hfit
        omega
      · exact h0
    have hw : wrapInt bits (board.Height * board.Width) = board.Height * board.Width :=
      wrapInt_eq bits _ hb (le_of_lt hpos) (by rw [mul_comm]; exact hfit)
    have hF : board.Mines < wrapInt bits (board.Height * board.Width) := by
      rw [hw, mul_comm]
      omega
    rw [newGame_valid bits fuel ctxDone idGen numberGen board w hH hW hM hF] at he
    split at he
    · simp at he
    · rename_i e' hp
      simp only [Option.some.injEq, Except.error.injEq] at he
      subst he
      rw [placeMines_error _ _ _ _ _ _ _ _ hp] at his
      simp [Error.Is] at his
    · split at he <;> simp at he
  · intro h
    obtain ⟨e, he, hall⟩ := newGame_rejects bits idGen board h
    exact ⟨e, hall fuel ctxDone numberGen w, he⟩
  · have h3 : (2 : Int) ≥ wrapInt bits (1 * 2) := wrapInt_le bits _ (by decide)
    simp only [NewGame]
    rw [if_neg (by decide), if_neg (by decide), if_pos h3]

theorem newGame_rejects_iff_witness :
    (⟨2, 1, 2⟩ : Board).Width * (⟨2, 1, 2⟩ : Board).Height < 2 ^ (64 - 1) ∧
      ((∃ e, NewGame 64 5 (fun _ => false) (fun _ => 7) stepGen ⟨2, 1, 2⟩ 0 = some (.error e) ∧
          e.Is Error.ErrOutOfBounds = true) ↔
        ((⟨2, 1, 2⟩ : Board).Height ≤ 0 ∨ (⟨2, 1, 2⟩ : Board).Width ≤ 0 ∨
          (⟨2, 1, 2⟩ : Board).Mines ≤ 0 ∨
          (⟨2, 1, 2⟩ : Board).Mines ≥ (⟨2, 1, 2⟩ : Board).Width * (⟨2, 1, 2⟩ : Board).Height)) :=
  ⟨by decide,
    (newGame_rejects_iff 64 5 (fun _ => false) (fun _ => 7) stepGen ⟨2, 1, 2⟩ 0 (by decide)).1⟩

/-! ## Win evaluation -/

theorem countP_le_of_imp {α : Type} (l : List α) (p q : α → Bool)
    (h : ∀ x ∈ l, p x = true → q x = true) : l.countP p ≤ l.countP q := by
  induction l with
  | nil => simp
  | cons a t ih =>
    have ht := ih (fun x hx => h x (List.mem_cons_of_mem _ hx))
    have ha := h a (List.mem_cons_self _ _)
    simp only [List.countP_cons]
    have : (if p a = true then 1 else 0) ≤ (if q a = true then 1 else 0) := by
      by_cases hp : p a = true
      · simp [hp, ha hp]
      · simp [hp]
    omega

theorem countP_eq_iff_of_imp {α : Type} (l : List α) (p q : α → Bool)
    (h : ∀ x ∈ l, p x = true → q x = true) :
    l.countP p = l.countP q ↔ ∀ x ∈ l, q x = true → p x = true := by
  induction l with
  | nil => simp
  | cons a t ih =>
    have ht : ∀ x ∈ t, p x = true → q x = true := fun x hx => h x (List.mem_cons_of_mem _ hx)
    have hle := countP_le_of_imp t p q ht
    have ha := h a (List.mem_cons_self _ _)
    have iht := ih ht
    simp only [List.countP_cons, List.mem_cons, forall_eq_or_imp]
    by_cases hq : q a = true
    · by_cases hp : p a = true
      · rw [if_pos hp, if_pos hq]
        constructor
        · intro h
          exact ⟨fun _ => hp, iht.mp (by omega)⟩
        · intro h
          have := iht.mpr h.2
          omega
      · rw [if_neg hp, if_pos hq]
        constructor
        · intro h
          omega
        · intro h
          exact absurd (h.1 hq) hp
    · have hp : ¬ p a = true := fun hp => hq (ha hp)
      rw [if_neg hp, if_neg hq]
      constructor
      · intro h
        exact ⟨fun h' => absurd h' hq, iht.mp (by omega)⟩
      · intro h
        have := iht.mpr h.2
        omega

theorem countCell_eq (n : WinCounts) (c : Cell) :
    countCell n c =
      ⟨n.cellsFlaggedTotal + (if c.State = CellFlagged then 1 else 0),
        n.cellsFlaggedCorrect +
          (if (decide (c.State = CellFlagged) && c.ContainsMine) = true then 1 else 0),
        n.cellsRevealed + (if c.State = CellRevealed then 1 else 0)⟩ := by
  have hne : CellFlagged ≠ CellRevealed := by decide
  have hne' : ¬ CellRevealed = CellFlagged := by decide
  obtain ⟨mine, nm, st⟩ := c
  by_cases hf : st = CellFlagged
  · subst hf
    cases mine <;> simp [countCell, hne]
  · by_cases hr : st = CellRevealed
    · subst hr
      simp [countCell, hne']
    · simp [countCell, hf, hr]

theorem winCounts_fold (m : CellMap) (n : WinCounts) :
    m.foldl (fun n e => countCell n e.2) n =
      ⟨n.cellsFlaggedTotal + (m.countP (fun e => decide (e.2.State = CellFlagged)) : Nat),
        n.cellsFlaggedCorrect +
          (m.countP (fun e => decide (e.2.State = CellFlagged) && e.2.ContainsMine) : Nat),
        n.cellsRevealed + (m.countP (fun e => decide (e.2.State = CellRevealed)) : Nat)⟩ := by
  induction m generalizing n with
  | nil => simp
  | cons e t ih =>
    rw [List.foldl_cons, ih, countCell_eq]
    simp only [List.countP_cons, WinCounts.mk.injEq, decide_eq_true_eq, Nat.cast_add]
    refine ⟨?_, ?_, ?_⟩
    · split
      · simp
        ring
      · simp
    · split
      · simp
        ring
      · simp
    · split
      · simp
        ring
      · simp

theorem winCounts_eq (m : CellMap) :
    winCounts m =
      ⟨(m.countP (fun e => decide (e.2.State = CellFlagged)) : Nat),
        (m.countP (fun e => decide (e.2.State = CellFlagged) && e.2.ContainsMine) : Nat),
        (m.countP (fun e => decide (e.2.State = CellRevealed)) : Nat)⟩ := by
  rw [winCounts, winCounts_fold]
  simp

theorem length_eq_of_box {l : List CellRef} {b : Board} (hn : l.Nodup)
    (hmem : ∀ ref, ref ∈ l ↔ InBounds b ref) (hH : 0 ≤ b.Height) (hW : 0 ≤ b.Width) :
    (l.length : Int) = b.Width * b.Height := by
  have hinj : Function.Injective (fun p : Int × Int => (⟨p.1, p.2⟩ : CellRef)) := by
    intro p q h
    simp only [CellRef.mk.injEq] at h
    exact Prod.ext h.1 h.2
  have hset : l.toFinset =
      ((Finset.Ico (0 : Int) b.Height) ×ˢ (Finset.Ico (0 : Int) b.Width)).image
        (fun p => (⟨p.1, p.2⟩ : CellRef)) := by
    ext ref
    simp only [List.mem_toFinset, hmem, InBounds, Finset.mem_image, Finset.mem_product,
      Finset.mem_Ico, Prod.exists]
    constructor
    · intro h
      exact ⟨ref.Row, ref.Column, ⟨⟨h.1, h.2.1⟩, ⟨h.2.2.1, h.2.2.2⟩⟩, rfl⟩
    · rintro ⟨r, c, ⟨⟨h1, h2⟩, ⟨h3, h4⟩⟩, rfl⟩
      exact ⟨h1, h2, h3, h4⟩
  have hcard := congrArg Finset.card hset
  rw [List.toFinset_card_of_nodup hn, Finset.card_image_of_injective _ hinj,
    Finset.card_product, Int.card_Ico, Int.card_Ico] at hcard
  rw [hcard]
  push_cast
  simp only [sub_zero, Int.toNat_of_nonneg hH, Int.toNat_of_nonneg hW]
  ring

theorem forall_mem_iff_lookup {m : CellMap} (hn : (keys m).Nodup) (P : Cell → Prop) :
    (∀ e ∈ m, P e.2) ↔ ∀ ref c, lookup m ref = some c → P c := by
  constructor
  · intro h ref c hl
    exact h (ref, c) (lookup_mem hl)
  · intro h e he
    exact h e.1 e.2 (mem_lookup_of_nodup hn he)

theorem tryWin_cells (g : Game) : g.tryWin.Cells = g.Cells := by
  unfold Game.tryWin
  split
  · rfl
  · simp only
    split
    · rfl
    · split <;> rfl

theorem tryWin_board (g : Game) : g.tryWin.Board = g.Board := by
  unfold Game.tryWin
  split
  · rfl
  · simp only
    split
    · rfl
    · split <;> rfl

theorem tryWin_state_ongoing (g : Game) (hOn : g.State = GameOngoing) :
    g.tryWin.State =
      if ((winCounts g.Cells).cellsFlaggedTotal = (winCounts g.Cells).cellsFlaggedCorrect ∧
            (winCounts g.Cells).cellsFlaggedCorrect = g.Board.Mines) ∨
          (winCounts g.Cells).cellsRevealed = g.Board.safeCells then GameWon
      else GameOngoing := by
  unfold Game.tryWin
  rw [finished_of_ongoing hOn]
  simp only [Bool.false_eq_true, if_false]
  by_cases hA : (winCounts g.Cells).cellsFlaggedTotal = (winCounts g.Cells).cellsFlaggedCorrect ∧
      (winCounts g.Cells).cellsFlaggedCorrect = g.Board.Mines
  · rw [if_pos hA, if_pos (Or.inl hA)]
  · rw [if_neg hA]
    by_cases hB : (winCounts g.Cells).cellsRevealed = g.Board.safeCells
    · rw [if_pos hB, if_pos (Or.inr hB)]
    · rw [if_neg hB, if_neg (by tauto), hOn]

theorem flagged_counts_iff {g : Game} (hn : (keys g.Cells).Nodup)
    (hmines : (mineCount g.Cells : Int) = g.Board.Mines) :
    ((winCounts g.Cells).cellsFlaggedTotal = (winCounts g.Cells).cellsFlaggedCorrect ∧
        (winCounts g.Cells).cellsFlaggedCorrect = g.Board.Mines) ↔ FlagsAreMines g := by
  rw [winCounts_eq, ← hmines]
  simp only [Nat.cast_inj, mineCount]
  have h1 := countP_eq_iff_of_imp g.Cells
    (fun e => decide (e.2.State = CellFlagged) && e.2.ContainsMine)
    (fun e => decide (e.2.State = CellFlagged)) (by intro x _ hx; simp at hx ⊢; exact hx.1)
  have h2 := countP_eq_iff_of_imp g.Cells
    (fun e => decide (e.2.State = CellFlagged) && e.2.ContainsMine)
    (fun e => e.2.ContainsMine) (by intro x _ hx; simp at hx ⊢; exact hx.2)
  rw [eq_comm, h1, h2]
  unfold FlagsAreMines
  rw [← forall_mem_iff_lookup hn (fun c => c.State = CellFlagged ↔ c.ContainsMine = true)]
  constructor
  · rintro ⟨ha, hb⟩ e he
    constructor
    · intro hf
      have := ha e he (by simpa using hf)
      simp at this
      exact this.2
    · intro hm
      have := hb e he hm
      simp at this
      exact this.1
  · intro h
    constructor
    · intro e he hf
      have hf' : e.2.State = CellFlagged := by simpa using hf
      simp [hf', (h e he).mp hf']
    · intro e he hm
      simp [hm, (h e he).mpr hm]

theorem revealed_count_iff {g : Game} (hn : (keys g.Cells).Nodup)
    (hlen : (g.Cells.length : Int) = g.Board.Width * g.Board.Height)
    (hmines : (mineCount g.Cells : Int) = g.Board.Mines)
    (hrm : ∀ ref c, lookup g.Cells ref = some c → c.ContainsMine = true →
      c.State ≠ CellRevealed) :
    (winCounts g.Cells).cellsRevealed = g.Board.safeCells ↔ AllSafeRevealed g := by
  rw [winCounts_eq]
  simp only [Board.safeCells, ← hmines, ← hlen, mineCount]
  have hsplit := List.length_eq_countP_add_countP (fun e : CellRef × Cell => e.2.ContainsMine)
    g.Cells
  have hrm' : ∀ e ∈ g.Cells, decide (e.2.State = CellRevealed) = true →
      (!e.2.ContainsMine) = true := by
    intro e he hr
    have hr' : e.2.State = CellRevealed := by simpa using hr
    cases hm : e.2.ContainsMine with
    | false => rfl
    | true => exact absurd hr' ((forall_mem_iff_lookup hn
        (fun c => c.ContainsMine = true → c.State ≠ CellRevealed)).mpr hrm e he hm)
  have h1 := countP_eq_iff_of_imp g.Cells (fun e => decide (e.2.State = CellRevealed))
    (fun e => !e.2.ContainsMine) hrm'
  have hiff : List.countP (fun e => decide (e.2.State = CellRevealed)) g.Cells =
      List.countP (fun e => !e.2.ContainsMine) g.Cells ↔ AllSafeRevealed g := by
    rw [h1]
    unfold AllSafeRevealed
    rw [← forall_mem_iff_lookup hn (fun c => c.ContainsMine = false → c.State = CellRevealed)]
    constructor
    · intro h e he hm
      simpa using h e he (by simp [hm])
    · intro h e he hm
      have hm' : e.2.ContainsMine = false := by simpa using hm
      simpa using h e he hm'
  rw [← hiff]
  have hnot : List.countP (fun e : CellRef × Cell => !e.2.ContainsMine) g.Cells =
      List.countP (fun e => ¬ (e.2.ContainsMine = true)) g.Cells := by
    congr 1
    funext e
    simp
  rw [hnot]
  constructor
  · intro h
    have : (g.Cells.length : Int) =
        (List.countP (fun e => e.2.ContainsMine) g.Cells : Nat) +
          (List.countP (fun e => ¬ (e.2.ContainsMine = true)) g.Cells : Nat) := by
      exact_mod_cast hsplit
    omega
  · intro h
    rw [h]
    have : (g.Cells.length : Int) =
        (List.countP (fun e => e.2.ContainsMine) g.Cells : Nat) +
          (List.countP (fun e => ¬ (e.2.ContainsMine = true)) g.Cells : Nat) := by
      exact_mod_cast hsplit
    omega

theorem moveStep_refl (c : Cell) : MoveStep c c := ⟨rfl, fun h => Or.inl h⟩

theorem moveStep_of_cellStep (c c' : Cell) (h : CellStep c c') : MoveStep c c' := by
  refine ⟨h.1, fun hr => ?_⟩
  rcases h.2.2 with hs | ⟨_, hm⟩
  · exact Or.inl (hs ▸ hr)
  · exact Or.inr hm

theorem updateCell_ok_cases {g : Game} {ref : CellRef} {s : CellState}
    (hOn : g.State = GameOngoing)
    (hkeys : ∀ k, g.checkBounds k = true → k ∈ keys g.Cells)
    (hok : (g.UpdateCell ref s).2 = none) :
    g.checkBounds ref = true ∧
      ∃ g1 : Game, (g.UpdateCell ref s).1 = g1.tryWin ∧ MapRel MoveStep g.Cells g1.Cells ∧
        g1.Board = g.Board ∧ (g1.State = GameOngoing ∨ g1.State = GameLost) := by
  by_cases hb : g.checkBounds ref = true
  · refine ⟨hb, ?_⟩
    have hk := hkeys ref hb
    by_cases hm : s = CellDefault ∨ s = CellFlagged ∨ s = CellQuestioned
    · rw [updateCell_mark hOn hb hm] at hok ⊢
      by_cases hv : (index g.Cells ref).State = CellRevealed
      · simp [hv] at hok
      · rw [if_neg hv]
        refine ⟨_, rfl, ?_, rfl, Or.inl hOn⟩
        refine mapRel_assign moveStep_refl hk ⟨rfl, fun hr => ?_⟩
        simp only at hr
        rcases hm with h | h | h <;> rw [h] at hr <;> exact absurd hr (by decide)
    · by_cases hr : s = CellRevealed
      · subst hr
        rw [updateCell_reveal hOn hb] at hok ⊢
        by_cases hf : (index g.Cells ref).State = CellFlagged
        · simp [hf] at hok
        · rw [if_neg hf]
          have hstep := revealCell_step g ref hk
          refine ⟨_, rfl, mapRel_mono moveStep_of_cellStep hstep.1, hstep.2.1, ?_⟩
          rcases hstep.2.2.2 with h | h
          · exact Or.inl (h.trans hOn)
          · exact Or.inr h
      · rw [updateCell_unknown hOn hb hm hr] at hok
        simp at hok
  · have hb' : g.checkBounds ref = false := by simpa using hb
    rw [updateCell_outOfBounds hOn hb' s] at hok
    simp at hok

/-- C1: on an ongoing well-formed game, an `UpdateCell` call that returns no error and does
not reveal a mine (the state does not become `GameLost`) ends in `GameWon` if and only if
afterwards every cell without a mine is revealed or the flagged cells are exactly the mined
cells; otherwise the state stays `GameOngoing`.  In particular the state is not `GameWon`
while some mine is unflagged and some safe cell is unrevealed. -/
theorem updateCell_won_iff (g : Game) (ref : CellRef) (s : CellState)
    (hOn : g.State = GameOngoing) (hwf : WellFormed g)
    (hok : (g.UpdateCell ref s).2 = none)
    (hnm : (g.UpdateCell ref s).1.State ≠ GameLost) :
    ((g.UpdateCell ref s).1.State = GameWon ↔
        AllSafeRevealed (g.UpdateCell ref s).1 ∨ FlagsAreMines (g.UpdateCell ref s).1) ∧
      (¬ (AllSafeRevealed (g.UpdateCell ref s).1 ∨ FlagsAreMines (g.UpdateCell ref s).1) →
        (g.UpdateCell ref s).1.State = GameOngoing) ∧
      ((∃ k c, lookup (g.UpdateCell ref s).1.Cells k = some c ∧ c.ContainsMine = true ∧
            c.State ≠ CellFlagged) →
        (∃ k c, lookup (g.UpdateCell ref s).1.Cells k = some c ∧ c.ContainsMine = false ∧
            c.State ≠ CellRevealed) →
        (g.UpdateCell ref s).1.State ≠ GameWon) := by
  obtain ⟨⟨hnodup, hmem⟩, hmines, hrm⟩ := hwf
  obtain ⟨hb, g1, hg1, hrel, hboard, hstate⟩ :=
    updateCell_ok_cases hOn (fun k hk => (hmem k).mpr hk) hok
  have hOn1 : g1.State = GameOngoing := by
    rcases hstate with h | h
    · exact h
    · exfalso
      apply hnm
      rw [hg1, tryWin_of_finished (by rw [h]; decide), h]
  have hin : InBounds g.Board ref := (checkBounds_iff g ref).mp hb
  have hkeys1 : keys g1.Cells = keys g.Cells := mapRel_keys_eq hrel
  have hnodup1 : (keys g1.Cells).Nodup := hkeys1 ▸ hnodup
  have hlen : (g.Cells.length : Int) = g.Board.Width * g.Board.Height := by
    have := length_eq_of_box hnodup (fun k => (hmem k).trans (checkBounds_iff g k))
      (by have := hin.1; have := hin.2.1; omega) (by have := hin.2.2.1; have := hin.2.2.2; omega)
    simpa [keys] using this
  have hlen1 : (g1.Cells.length : Int) = g1.Board.Width * g1.Board.Height := by
    rw [mapRel_length_eq hrel, hboard]
    exact hlen
  have hmines1 : (mineCount g1.Cells : Int) = g1.Board.Mines := by
    rw [hboard, ← hmines]
    unfold mineCount
    rw [mapRel_countP_eq (fun c => c.ContainsMine) (fun c c' h => h.1) hrel]
  have hrm1 : ∀ k c, lookup g1.Cells k = some c → c.ContainsMine = true →
      c.State ≠ CellRevealed := by
    intro k c' hl hm hr
    rcases mapRel_lookup hrel k with ⟨_, h2⟩ | ⟨c, c'', h1, h2, hstep⟩
    · rw [h2] at hl
      cases hl
    · rw [h2] at hl
      cases hl
      rcases hstep.2 hr with h | h
      · exact hrm k c h1 (hstep.1 ▸ hm) h
      · rw [← hstep.1, hm] at h
        cases h
  have hA := flagged_counts_iff hnodup1 hmines1
  have hB := revealed_count_iff hnodup1 hlen1 hmines1 hrm1
  have hsafe : AllSafeRevealed (g.UpdateCell ref s).1 ↔ AllSafeRevealed g1 := by
    unfold AllSafeRevealed
    rw [hg1, tryWin_cells]
  have hflag : FlagsAreMines (g.UpdateCell ref s).1 ↔ FlagsAreMines g1 := by
    unfold FlagsAreMines
    rw [hg1, tryWin_cells]
  have hst := tryWin_state_ongoing g1 hOn1
  rw [← hg1] at hst
  have hiff : (g.UpdateCell ref s).1.State = GameWon ↔
      AllSafeRevealed (g.UpdateCell ref s).1 ∨ FlagsAreMines (g.UpdateCell ref s).1 := by
    rw [hsafe, hflag, ← hA, ← hB, hst]
    constructor
    · intro h
      split at h
      · rename_i hc
        exact hc.symm
      · exact absurd h (by decide)
    · intro h
      rw [if_pos h.symm]
  refine ⟨hiff, ?_, ?_⟩
  · intro hno
    rw [hsafe, hflag, ← hA, ← hB] at hno
    rw [hst, if_neg (fun h => hno h.symm)]
  · rintro ⟨k, c, hl, hm, hf⟩ ⟨k', c', hl', hm', hr'⟩ hwon
    rcases hiff.mp hwon with h | h
    · exact hr' (h k' c' hl' hm')
    · exact hf ((h k c hl).mpr hm)

theorem mineRight_wellFormed : WellFormed mineRight := by
  have hn : (keys mineRight.Cells).Nodup := by decide
  refine ⟨⟨hn, ?_⟩, by decide, ?_⟩
  · intro ref
    obtain ⟨r, c⟩ := ref
    simp only [mineRight, keys, List.map_cons, List.map_nil, List.mem_cons, CellRef.mk.injEq,
      List.mem_nil_iff, or_false, Game.checkBounds, Bool.and_eq_true, decide_eq_true_eq]
    omega
  · exact (forall_mem_iff_lookup hn
      (fun c => c.ContainsMine = true → c.State ≠ CellRevealed)).mp (by decide)

theorem updateCell_won_iff_witness :
    mineRight.State = GameOngoing ∧ WellFormed mineRight ∧
      (mineRight.UpdateCell ⟨0, 0⟩ CellRevealed).2 = none ∧
      (mineRight.UpdateCell ⟨0, 0⟩ CellRevealed).1.State ≠ GameLost ∧
      (mineRight.UpdateCell ⟨0, 0⟩ CellRevealed).1.State = GameWon ∧
      (((mineRight.UpdateCell ⟨0, 0⟩ CellRevealed).1.State = GameWon ↔
          AllSafeRevealed (mineRight.UpdateCell ⟨0, 0⟩ CellRevealed).1 ∨
            FlagsAreMines (mineRight.UpdateCell ⟨0, 0⟩ CellRevealed).1) ∧
        (¬ (AllSafeRevealed (mineRight.UpdateCell ⟨0, 0⟩ CellRevealed).1 ∨
            FlagsAreMines (mineRight.UpdateCell ⟨0, 0⟩ CellRevealed).1) →
          (mineRight.UpdateCell ⟨0, 0⟩ CellRevealed).1.State = GameOngoing) ∧
        ((∃ k c, lookup (mineRight.UpdateCell ⟨0, 0⟩ CellRevealed).1.Cells k = some c ∧
              c.ContainsMine = true ∧ c.State ≠ CellFlagged) →
          (∃ k c, lookup (mineRight.UpdateCell ⟨0, 0⟩ CellRevealed).1.Cells k = some c ∧
              c.ContainsMine = false ∧ c.State ≠ CellRevealed) →
          (mineRight.UpdateCell ⟨0, 0⟩ CellRevealed).1.State ≠ GameWon)) :=
  ⟨by decide, mineRight_wellFormed, by decide, by decide, by decide,
    updateCell_won_iff mineRight ⟨0, 0⟩ CellRevealed (by decide) mineRight_wellFormed
      (by decide) (by decide)⟩

/-! ## Construction: the cell layout -/

theorem mem_keys_assign (m : CellMap) (k k' : CellRef) (v : Cell) :
    k' ∈ keys (assign m k v) ↔ k' = k ∨ k' ∈ keys m := by
  by_cases hk : k ∈ keys m
  · rw [keys_assign_of_mem v hk]
    constructor
    · exact Or.inr
    · rintro (h | h)
      · exact h ▸ hk
      · exact h
  · rw [keys_assign_of_not_mem v hk]
    simp only [keys, List.map_append, List.map_cons, List.map_nil, List.mem_append,
      List.mem_singleton]
    tauto

theorem nodup_keys_assign {m : CellMap} (k : CellRef) (v : Cell) (h : (keys m).Nodup) :
    (keys (assign m k v)).Nodup := by
  by_cases hk : k ∈ keys m
  · rw [keys_assign_of_mem v hk]
    exact h
  · rw [keys_assign_of_not_mem v hk]
    simp only [keys, List.map_append, List.map_cons, List.map_nil]
    refine List.Nodup.append h (List.nodup_singleton k) ?_
    intro x hx hx'
    rw [List.mem_singleton] at hx'
    exact hk (hx' ▸ hx)

theorem forall_mem_assign {m : CellMap} (k : CellRef) (v : Cell) (P : Cell → Prop)
    (h : ∀ e ∈ m, P e.2) (hv : P v) : ∀ e ∈ assign m k v, P e.2 := by
  induction m with
  | nil =>
    intro e he
    simp only [assign, List.mem_singleton] at he
    rw [he]
    exact hv
  | cons a t ih =>
    obtain ⟨k0, v0⟩ := a
    intro e he
    by_cases h0 : k0 = k
    · simp only [assign, h0, if_true, List.mem_cons] at he
      rcases he with he | he
      · rw [he]
        exact hv
      · exact h e (List.mem_cons_of_mem _ he)
    · simp only [assign, h0, if_false, List.mem_cons] at he
      rcases he with he | he
      · rw [he]
        exact h _ (List.mem_cons_self _ _)
      · exact ih (fun e he => h e (List.mem_cons_of_mem _ he)) e he

theorem mem_rangeInt (n i : Int) : i ∈ rangeInt n ↔ 0 ≤ i ∧ i < n := by
  simp only [rangeInt, List.mem_map, List.mem_range]
  constructor
  · rintro ⟨a, ha, rfl⟩
    have : (a : Int) < n.toNat := by exact_mod_cast ha
    constructor
    · exact Int.ofNat_nonneg a
    · have h2 : ((n.toNat : Nat) : Int) = max n 0 := Int.toNat_eq_max n
      simp only [Int.ofNat_eq_coe]
      omega
  · rintro ⟨h0, h1⟩
    refine ⟨i.toNat, ?_, ?_⟩
    · omega
    · simp only [Int.ofNat_eq_coe]
      omega

theorem initRow_spec (row : Int) (cols : List Int) :
    ∀ m : CellMap, (keys m).Nodup → (∀ e ∈ m, e.2 = Cell.zero) →
      (keys (cols.foldl (fun m col => assign m ⟨row, col⟩ Cell.zero) m)).Nodup ∧
        (∀ e ∈ cols.foldl (fun m col => assign m ⟨row, col⟩ Cell.zero) m, e.2 = Cell.zero) ∧
        ∀ k, k ∈ keys (cols.foldl (fun m col => assign m ⟨row, col⟩ Cell.zero) m) ↔
          k ∈ keys m ∨ ∃ col ∈ cols, k = ⟨row, col⟩ := by
  induction cols with
  | nil =>
    intro m hn hz
    exact ⟨hn, hz, fun k => by simp⟩
  | cons c t ih =>
    intro m hn hz
    simp only [List.foldl_cons]
    obtain ⟨h1, h2, h3⟩ := ih (assign m ⟨row, c⟩ Cell.zero) (nodup_keys_assign _ _ hn)
      (forall_mem_assign _ _ (fun c => c = Cell.zero) hz rfl)
    refine ⟨h1, h2, fun k => ?_⟩
    rw [h3, mem_keys_assign]
    simp only [List.mem_cons, exists_eq_or_imp]
    tauto

theorem initCells_fold_spec (cols : List Int) (rows : List Int) :
    ∀ m : CellMap, (keys m).Nodup → (∀ e ∈ m, e.2 = Cell.zero) →
      (keys (rows.foldl
        (fun m row => cols.foldl (fun m col => assign m ⟨row, col⟩ Cell.zero) m) m)).Nodup ∧
        (∀ e ∈ rows.foldl
          (fun m row => cols.foldl (fun m col => assign m ⟨row, col⟩ Cell.zero) m) m,
          e.2 = Cell.zero) ∧
        ∀ k, k ∈ keys (rows.foldl
            (fun m row => cols.foldl (fun m col => assign m ⟨row, col⟩ Cell.zero) m) m) ↔
          k ∈ keys m ∨ ∃ row ∈ rows, ∃ col ∈ cols, k = ⟨row, col⟩ := by
  induction rows with
  | nil =>
    intro m hn hz
    exact ⟨hn, hz, fun k => by simp⟩
  | cons r t ih =>
    intro m hn hz
    simp only [List.foldl_cons]
    obtain ⟨a1, a2, a3⟩ := initRow_spec r cols m hn hz
    obtain ⟨h1, h2, h3⟩ := ih _ a1 a2
    refine ⟨h1, h2, fun k => ?_⟩
    rw [h3, a3]
    simp only [List.mem_cons, exists_eq_or_imp, or_assoc]

theorem initCells_spec (board : Board) :
    (keys (initCells board)).Nodup ∧ (∀ e ∈ initCells board, e.2 = Cell.zero) ∧
      ∀ k, k ∈ keys (initCells board) ↔ InBounds board k := by
  obtain ⟨h1, h2, h3⟩ := initCells_fold_spec (rangeInt board.Width) (rangeInt board.Height) []
    (by simp [keys]) (by simp)
  refine ⟨h1, h2, fun k => ?_⟩
  unfold initCells
  rw [h3]
  simp only [keys, List.map_nil, List.not_mem_nil, false_or, mem_rangeInt, InBounds]
  constructor
  · rintro ⟨row, hr, col, hc, rfl⟩
    exact ⟨hr.1, hr.2, hc.1, hc.2⟩
  · intro h
    exact ⟨k.Row, ⟨h.1, h.2.1⟩, k.Column, ⟨h.2.2.1, h.2.2.2⟩, rfl⟩

/-! ## Construction: mines, neighbour counts, first reveal -/

theorem mapRel_forall {R : Cell → Cell → Prop} (P : Cell → Prop)
    (hP : ∀ c c', R c c' → P c → P c') {m m' : CellMap} (h : MapRel R m m')
    (hm : ∀ e ∈ m, P e.2) : ∀ e ∈ m', P e.2 := by
  unfold MapRel at h
  induction h with
  | nil =>
    intro e he
    simp at he
  | cons hab _ ih =>
    intro e he
    rcases List.mem_cons.mp he with he | he
    · rw [he]
      exact hP _ _ hab.2 (hm _ (List.mem_cons_self _ _))
    · exact ih (fun e he => hm e (List.mem_cons_of_mem _ he)) e he

theorem drawRef_inBounds {ω : Type} {numberGen : NumberGenerator ω} (hr : InRange numberGen)
    {board : Board} (hH : 0 < board.Height) (hW : 0 < board.Width) (w : ω) :
    InBounds board (drawRef numberGen board w).1 := by
  have h1 := hr board.Height w hH
  have h2 := hr board.Width (numberGen board.Height w).2 hW
  exact ⟨h1.1, h1.2, h2.1, h2.2⟩

theorem mineStep_refl (c : Cell) : MineStep c c := ⟨rfl, rfl⟩

theorem mineStep_trans (a b c : Cell) (h1 : MineStep a b) (h2 : MineStep b c) : MineStep a c :=
  ⟨h2.1.trans h1.1, h2.2.trans h1.2⟩

theorem placeMine_spec {ω : Type} (ctxDone : ω → Bool) {numberGen : NumberGenerator ω}
    (hr : InRange numberGen) {board : Board} (hH : 0 < board.Height) (hW : 0 < board.Width)
    (fuel : Nat) :
    ∀ (m : CellMap) (w : ω) (m' : CellMap) (w' : ω),
      (∀ k, InBounds board k → k ∈ keys m) →
      placeMine ctxDone numberGen board fuel m w = some (.ok (m', w')) →
      MapRel MineStep m m' ∧ mineCount m' = mineCount m + 1 := by
  induction fuel with
  | zero =>
    intro m w m' w' _ h
    simp [placeMine] at h
  | succ n ih =>
    intro m w m' w' hk h
    simp only [placeMine] at h
    split at h
    · simp at h
    · split at h
      · exact ih _ _ _ _ hk h
      · rename_i hm
        simp only [Option.some.injEq, Except.ok.injEq, Prod.mk.injEq] at h
        obtain ⟨rfl, _⟩ := h
        have hmem := hk _ (drawRef_inBounds hr hH hW w)
        refine ⟨mapRel_assign mineStep_refl hmem ⟨rfl, rfl⟩, ?_⟩
        have hc := countP_assign (fun c => c.ContainsMine)
          { index m (drawRef numberGen board w).1 with ContainsMine := true } hmem
        rw [if_neg hm, if_pos rfl] at hc
        exact hc

theorem placeMines_spec {ω : Type} (ctxDone : ω → Bool) {numberGen : NumberGenerator ω}
    (hr : InRange numberGen) {board : Board} (hH : 0 < board.Height) (hW : 0 < board.Width)
    (fuel : Nat) (k : Nat) :
    ∀ (m : CellMap) (w : ω) (m' : CellMap) (w' : ω),
      (∀ k, InBounds board k → k ∈ keys m) →
      placeMines ctxDone numberGen board fuel k m w = some (.ok (m', w')) →
      MapRel MineStep m m' ∧ mineCount m' = mineCount m + k := by
  induction k with
  | zero =>
    intro m w m' w' _ h
    simp only [placeMines, Option.some.injEq, Except.ok.injEq, Prod.mk.injEq] at h
    obtain ⟨rfl, _⟩ := h
    exact ⟨mapRel_refl mineStep_refl m, rfl⟩
  | succ k ih =>
    intro m w m' w' hk h
    simp only [placeMines] at h
    split at h
    · rename_i m1 w1 h1
      obtain ⟨r1, c1⟩ := placeMine_spec ctxDone hr hH hW fuel m w m1 w1 hk h1
      have hk1 : ∀ k, InBounds board k → k ∈ keys m1 := by
        intro k hb
        rw [mapRel_keys_eq r1]
        exact hk k hb
      obtain ⟨r2, c2⟩ := ih m1 w1 m' w' hk1 h
      exact ⟨mapRel_trans mineStep_trans r1 r2, by omega⟩
    · simp at h
    · simp at h

theorem countNeighbouringMines_congr (g g' : Game)
    (h : ∀ k, (index g'.Cells k).ContainsMine = (index g.Cells k).ContainsMine)
    (ref : CellRef) : g'.countNeighbouringMines ref = g.countNeighbouringMines ref := by
  simp only [Game.countNeighbouringMines, h]

theorem countStep_refl (c : Cell) : CountStep c c := ⟨rfl, rfl⟩

theorem countStep_trans (a b c : Cell) (h1 : CountStep a b) (h2 : CountStep b c) :
    CountStep a c :=
  ⟨h2.1.trans h1.1, h2.2.trans h1.2⟩

theorem neighbourPass_fold (g0 : Game) (ks : List CellRef) :
    ∀ g : Game, MapRel CountStep g0.Cells g.Cells →
      g.State = g0.State ∧ g.Board = g0.Board ∧ g.ID = g0.ID →
      (∀ k ∈ ks, k ∈ keys g0.Cells) →
      MapRel CountStep g0.Cells (ks.foldl neighbourPassStep g).Cells ∧
        ((ks.foldl neighbourPassStep g).State = g0.State ∧
          (ks.foldl neighbourPassStep g).Board = g0.Board ∧
          (ks.foldl neighbourPassStep g).ID = g0.ID) ∧
        ∀ k, (k ∈ ks ∨ (index g.Cells k).NeighbouringMines = g0.countNeighbouringMines k) →
          (index (ks.foldl neighbourPassStep g).Cells k).NeighbouringMines =
            g0.countNeighbouringMines k := by
  induction ks with
  | nil =>
    intro g hrel hfr _
    refine ⟨hrel, hfr, fun k hk => ?_⟩
    rcases hk with hk | hk
    · simp at hk
    · exact hk
  | cons a t ih =>
    intro g hrel hfr hks
    simp only [List.foldl_cons]
    have ha : a ∈ keys g.Cells := by
      rw [mapRel_keys_eq hrel]
      exact hks a (List.mem_cons_self _ _)
    have hcount : g.countNeighbouringMines a = g0.countNeighbouringMines a :=
      countNeighbouringMines_congr g0 g (fun k => (mapRel_index countStep_refl hrel k).1) a
    have hrel1 : MapRel CountStep g0.Cells (neighbourPassStep g a).Cells :=
      mapRel_trans countStep_trans hrel (mapRel_assign countStep_refl ha ⟨rfl, rfl⟩)
    obtain ⟨r, f, c⟩ := ih (neighbourPassStep g a) hrel1 hfr
      (fun k hk => hks k (List.mem_cons_of_mem _ hk))
    refine ⟨r, f, fun k hk => c k ?_⟩
    by_cases hka : a = k
    · subst hka
      right
      simp only [neighbourPassStep, index_assign_self]
      exact hcount
    · rcases hk with hk | hk
      · rcases List.mem_cons.mp hk with hk | hk
        · exact absurd hk.symm hka
        · exact Or.inl hk
      · right
        simp only [neighbourPassStep, index_assign_ne _ _ _ _ hka]
        exact hk

theorem neighbourPass_spec (g : Game) :
    MapRel CountStep g.Cells (neighbourPass g).Cells ∧
      ((neighbourPass g).State = g.State ∧ (neighbourPass g).Board = g.Board ∧
        (neighbourPass g).ID = g.ID) ∧
      ∀ k, k ∈ keys g.Cells →
        (index (neighbourPass g).Cells k).NeighbouringMines = g.countNeighbouringMines k := by
  obtain ⟨r, f, c⟩ := neighbourPass_fold g (keys g.Cells) g (mapRel_refl countStep_refl _)
    ⟨rfl, rfl, rfl⟩ (fun k hk => hk)
  exact ⟨r, f, fun k hk => c k (Or.inl hk)⟩

theorem initialReveal_spec {ω : Type} {numberGen : NumberGenerator ω} (hr : InRange numberGen)
    {board : Board} (hH : 0 < board.Height) (hW : 0 < board.Width) (fuel : Nat) :
    ∀ (g : Game) (w : ω) (g' : Game), initialReveal numberGen board fuel g w = some g' →
      ∃ ref, InBounds board ref ∧ (index g.Cells ref).ContainsMine = false ∧
        g' = g.revealCell ref := by
  induction fuel with
  | zero =>
    intro g w g' h
    simp [initialReveal] at h
  | succ n ih =>
    intro g w g' h
    simp only [initialReveal] at h
    split at h
    · exact ih _ _ _ h
    · rename_i hm
      simp only [Option.some.injEq] at h
      exact ⟨_, drawRef_inBounds hr hH hW w, by simpa using hm, h.symm⟩

theorem mineCount_zero {m : CellMap} (h : ∀ e ∈ m, e.2 = Cell.zero) : mineCount m = 0 := by
  unfold mineCount
  rw [List.countP_eq_zero]
  intro e he
  rw [h e he]
  simp [Cell.zero]

/-- The game `NewGame` hands to the first reveal, and the cell it reveals. -/
theorem newGame_ok {ω : Type} {bits fuel : Nat} {ctxDone : ω → Bool} {idGen : IDGenerator}
    {numberGen : NumberGenerator ω} {board : Board} {w : ω} {g' : Game}
    (hr : InRange numberGen)
    (h : NewGame bits fuel ctxDone idGen numberGen board w = some (.ok g')) :
    (0 < board.Height ∧ 0 < board.Width ∧ 0 < board.Mines ∧
        board.Mines < board.Height * board.Width) ∧
      ∃ (g2 : Game) (ref : CellRef), g' = g2.revealCell ref ∧ InBounds board ref ∧
        (index g2.Cells ref).ContainsMine = false ∧
        (g2.State = GameOngoing ∧ g2.Board = board ∧ g2.ID = idGen ()) ∧
        (keys g2.Cells).Nodup ∧ (∀ k, k ∈ keys g2.Cells ↔ InBounds board k) ∧
        (mineCount g2.Cells : Int) = board.Mines ∧
        (∀ e ∈ g2.Cells, e.2.State = CellDefault) ∧
        ∀ k, k ∈ keys g2.Cells →
          (index g2.Cells k).NeighbouringMines = g2.countNeighbouringMines k := by
  have hvalid : 0 < board.Height ∧ 0 < board.Width ∧ 0 < board.Mines ∧
      board.Mines < board.Height * board.Width := by
    by_contra hc
    by_cases h1 : board.Height ≤ 0 ∨ board.Width ≤ 0
    · simp [NewGame, if_pos h1] at h
    · by_cases h2 : board.Mines ≤ 0
      · simp [NewGame, if_neg h1, if_pos h2] at h
      · by_cases h3 : board.Mines ≥ wrapInt bits (board.Height * board.Width)
        · simp [NewGame, if_neg h1, if_neg h2, if_pos h3] at h
        · apply hc
          have hle := wrapInt_le bits (board.Height * board.Width)
            (mul_nonneg (by omega) (by omega))
          omega
  have hF : board.Mines < wrapInt bits (board.Height * board.Width) := by
    by_contra h3
    have h1 : ¬ (board.Height ≤ 0 ∨ board.Width ≤ 0) := by omega
    have h2 : ¬ board.Mines ≤ 0 := by omega
    simp [NewGame, if_neg h1, if_neg h2, if_pos (not_lt.mp h3)] at h
  refine ⟨hvalid, ?_⟩
  obtain ⟨hH, hW, hM, _⟩ := hvalid
  rw [newGame_valid bits fuel ctxDone idGen numberGen board w hH hW hM hF] at h
  obtain ⟨i1, i2, i3⟩ := initCells_spec board
  split at h
  · simp at h
  · simp at h
  · rename_i m w1 hp
    obtain ⟨p1, p2⟩ := placeMines_spec ctxDone hr hH hW fuel _ _ w m w1
      (fun k hk => (i3 k).mpr hk) hp
    obtain ⟨n1, ⟨n2, n3, n4⟩, n5⟩ := neighbourPass_spec ⟨idGen (), GameOngoing, board, m⟩
    split at h
    · simp at h
    · rename_i g3 hi
      simp only [Option.some.injEq, Except.ok.injEq] at h
      subst h
      obtain ⟨ref, hb, hm, hg⟩ := initialReveal_spec hr hH hW fuel _ _ _ hi
      have hkeys : keys (neighbourPass ⟨idGen (), GameOngoing, board, m⟩).Cells =
          keys (initCells board) := by
        rw [mapRel_keys_eq n1]
        exact mapRel_keys_eq p1
      refine ⟨_, ref, hg, hb, hm, ⟨n2, n3, n4⟩, hkeys ▸ i1, fun k => by rw [hkeys]; exact i3 k,
        ?_, ?_, ?_⟩
      · unfold mineCount
        rw [mapRel_countP_eq (fun c => c.ContainsMine) (fun c c' h => h.1) n1]
        have := mineCount_zero i2
        unfold mineCount at p2 this
        rw [p2, this]
        simp only [zero_add]
        exact Int.toNat_of_nonneg (le_of_lt hM)
      · apply mapRel_forall (fun c => c.State = CellDefault) (fun c c' h hc => h.2.trans hc) n1
        apply mapRel_forall (fun c => c.State = CellDefault) (fun c c' h hc => h.2.trans hc) p1
        intro e he
        rw [i2 e he]
        rfl
      · intro k hk
        rw [n5 k (by rw [← mapRel_keys_eq n1]; exact hk)]
        exact (countNeighbouringMines_congr _ _
          (fun k => (mapRel_index countStep_refl n1 k).1) k).symm

theorem stepGen_inRange : InRange stepGen := by
  intro n w hn
  exact ⟨Int.emod_nonneg _ (ne_of_gt hn), Int.emod_lt_of_pos _ hn⟩

theorem newGame_example :
    NewGame 64 5 (fun _ => false) (fun _ => 7) stepGen ⟨2, 2, 1⟩ 0 = some (.ok newGameExample) := by
  rfl

/-- C4: evaluation at the failing input.  `newGameExample` is the ongoing game `NewGame`
returns for a 2x2 board with one mine; its cell (0,0) is an in-bounds, unflagged mine.
After `UpdateCell((0,0), CellRevealed)` the game is lost, yet the cell stored at (0,0) is
still in state `CellDefault`, not `CellRevealed`. -/
theorem updateCell_reveal_mine_not_stored :
    NewGame 64 5 (fun _ => false) (fun _ => 7) stepGen ⟨2, 2, 1⟩ 0 = some (.ok newGameExample) ∧
      newGameExample.State = GameOngoing ∧ newGameExample.checkBounds ⟨0, 0⟩ = true ∧
      (index newGameExample.Cells ⟨0, 0⟩).ContainsMine = true ∧
      (index newGameExample.Cells ⟨0, 0⟩).State = CellDefault ∧
      (newGameExample.UpdateCell ⟨0, 0⟩ CellRevealed).2 = none ∧
      (newGameExample.UpdateCell ⟨0, 0⟩ CellRevealed).1.State = GameLost ∧
      lookup (newGameExample.UpdateCell ⟨0, 0⟩ CellRevealed).1.Cells ⟨0, 0⟩ =
        some ⟨true, 0, CellDefault⟩ ∧
      (index (newGameExample.UpdateCell ⟨0, 0⟩ CellRevealed).1.Cells ⟨0, 0⟩).State ≠
        CellRevealed :=
  ⟨rfl, by decide, by decide, by decide, by decide, by decide, by decide, by decide, by decide⟩

/-- C5: a game returned by `NewGame` under an in-range number generator has exactly
`Width*Height` cells, one per coordinate of `[0,Height) x [0,Width)`, and exactly
`Board.Mines` of them contain a mine (the board is valid whenever a game is returned). -/
theorem newGame_cells {ω : Type} (bits fuel : Nat) (ctxDone : ω → Bool) (idGen : IDGenerator)
    (numberGen : NumberGenerator ω) (board : Board) (w : ω) (g' : Game)
    (hr : InRange numberGen)
    (h : NewGame bits fuel ctxDone idGen numberGen board w = some (.ok g')) :
    g'.Board = board ∧ (g'.Cells.length : Int) = board.Width * board.Height ∧
      (keys g'.Cells).Nodup ∧ (∀ k, k ∈ keys g'.Cells ↔ InBounds board k) ∧
      (mineCount g'.Cells : Int) = board.Mines := by
  obtain ⟨⟨hH, hW, _, _⟩, g2, ref, hg, hb, _, ⟨_, hbd, _⟩, hn, hk, hm, _, _⟩ := newGame_ok hr h
  have hstep : RevealStep g2 g' := hg ▸ revealCell_step g2 ref ((hk ref).mpr hb)
  have hkeys := mapRel_keys_eq hstep.1
  have hlen := length_eq_of_box hn hk (le_of_lt hH) (le_of_lt hW)
  refine ⟨hstep.2.1.trans hbd, ?_, hkeys ▸ hn, fun k => by rw [hkeys]; exact hk k, ?_⟩
  · rw [mapRel_length_eq hstep.1]
    simpa [keys] using hlen
  · unfold mineCount at hm ⊢
    rw [mapRel_countP_eq (fun c => c.ContainsMine) (fun c c' h => h.1) hstep.1]
    exact hm

theorem newGame_cells_witness :
    InRange stepGen ∧
      NewGame 64 5 (fun _ => false) (fun _ => 7) stepGen ⟨2, 2, 1⟩ 0 = some (.ok newGameExample) ∧
      newGameExample.Board = ⟨2, 2, 1⟩ ∧
      (newGameExample.Cells.length : Int) = (⟨2, 2, 1⟩ : Board).Width * (⟨2, 2, 1⟩ : Board).Height ∧
      (keys newGameExample.Cells).Nodup ∧
      (∀ k, k ∈ keys newGameExample.Cells ↔ InBounds ⟨2, 2, 1⟩ k) ∧
      (mineCount newGameExample.Cells : Int) = (⟨2, 2, 1⟩ : Board).Mines :=
  ⟨stepGen_inRange, newGame_example,
    newGame_cells 64 5 (fun _ => false) (fun _ => 7) stepGen ⟨2, 2, 1⟩ 0 newGameExample
      stepGen_inRange newGame_example⟩

/-! ## Neighbour counts -/

theorem foldl_count {α : Type} (skip p : α → Bool) (l : List α) :
    ∀ n0 : Int,
      l.foldl (fun n d => if skip d = true then n else if p d = true then n + 1 else n) n0 =
        n0 + (l.countP (fun d => !skip d && p d) : Nat) := by
  induction l with
  | nil =>
    intro n0
    simp
  | cons a t ih =>
    intro n0
    rw [List.foldl_cons, ih, List.countP_cons]
    cases hs : skip a <;> cases hp : p a <;> simp
    ring

theorem countNeighbouringMines_eq_countP (g : Game) (ref : CellRef) :
    g.countNeighbouringMines ref =
      (offsets.countP (fun d => !decide (d.1 = 0 ∧ d.2 = 0) &&
        (index g.Cells (ref.shift d)).ContainsMine) : Nat) := by
  have h := foldl_count (fun d : Int × Int => decide (d.1 = 0 ∧ d.2 = 0))
    (fun d => (index g.Cells (ref.shift d)).ContainsMine) offsets 0
  simp only [decide_eq_true_eq, zero_add] at h
  exact h

theorem countNeighbouringMines_eq_neighbours (g : Game) (ref : CellRef) :
    g.countNeighbouringMines ref =
      ((neighbours ref).countP (fun k => (index g.Cells k).ContainsMine) : Nat) := by
  rw [countNeighbouringMines_eq_countP]
  simp [offsets, neighbours, CellRef.shift, List.countP_cons, sub_eq_add_neg]

theorem index_mine_eq_hasMine (m : CellMap) (k : CellRef) :
    (index m k).ContainsMine = hasMine m k := by
  unfold index hasMine
  cases lookup m k <;> simp [Cell.zero]

theorem countNeighbouringMines_eq_adjacentMines (g : Game)
    (hk : ∀ k, k ∈ keys g.Cells → g.checkBounds k = true) (ref : CellRef) :
    g.countNeighbouringMines ref = (adjacentMines g ref : Nat) := by
  rw [countNeighbouringMines_eq_neighbours, adjacentMines, List.countP_eq_length_filter]
  congr 3
  funext k
  rw [index_mine_eq_hasMine]
  cases hl : lookup g.Cells k with
  | none => simp [hasMine, hl]
  | some c => simp [hk k (lookup_some_mem_keys hl)]

theorem adjacentMines_le (g : Game) (ref : CellRef) : adjacentMines g ref ≤ 8 := by
  unfold adjacentMines
  exact (List.length_filter_le _ _).trans (by simp [neighbours])

/-- C6: in a game returned by `NewGame` under an in-range number generator, the
`NeighbouringMines` of every cell is the number of its grid-adjacent in-bounds cells that
contain a mine, so it is between 0 and 8. -/
theorem newGame_neighbouringMines {ω : Type} (bits fuel : Nat) (ctxDone : ω → Bool)
    (idGen : IDGenerator) (numberGen : NumberGenerator ω) (board : Board) (w : ω) (g' : Game)
    (hr : InRange numberGen)
    (h : NewGame bits fuel ctxDone idGen numberGen board w = some (.ok g')) :
    ∀ ref c, lookup g'.Cells ref = some c →
      c.NeighbouringMines = (adjacentMines g' ref : Nat) ∧
        0 ≤ c.NeighbouringMines ∧ c.NeighbouringMines ≤ 8 := by
  obtain ⟨_, g2, ref0, hg, hb, _, ⟨_, hbd, _⟩, _, hk, _, _, hnm⟩ := newGame_ok hr h
  have hstep : RevealStep g2 g' := hg ▸ revealCell_step g2 ref0 ((hk ref0).mpr hb)
  have hkeys := mapRel_keys_eq hstep.1
  have hbounds : ∀ k, k ∈ keys g'.Cells → g'.checkBounds k = true := by
    intro k hmem
    rw [checkBounds_iff, hstep.2.1, hbd]
    rw [hkeys] at hmem
    exact (hk k).mp hmem
  intro ref c hl
  have hmem : ref ∈ keys g2.Cells := hkeys ▸ lookup_some_mem_keys hl
  have hidx : index g'.Cells ref = c := by simp [index, hl]
  have hrel := mapRel_index cellStep_refl hstep.1
  have heq : c.NeighbouringMines = (adjacentMines g' ref : Nat) := by
    rw [← hidx, (hrel ref).2.1, hnm ref hmem,
      ← countNeighbouringMines_congr g2 g' (fun k => (hrel k).1) ref,
      countNeighbouringMines_eq_adjacentMines g' hbounds]
  have hle := adjacentMines_le g' ref
  refine ⟨heq, ?_, ?_⟩ <;> rw [heq] <;> omega

theorem newGame_neighbouringMines_witness :
    InRange stepGen ∧
      NewGame 64 5 (fun _ => false) (fun _ => 7) stepGen ⟨2, 2, 1⟩ 0 = some (.ok newGameExample) ∧
      ∀ ref c, lookup newGameExample.Cells ref = some c →
        c.NeighbouringMines = (adjacentMines newGameExample ref : Nat) ∧
          0 ≤ c.NeighbouringMines ∧ c.NeighbouringMines ≤ 8 :=
  ⟨stepGen_inRange, newGame_example,
    newGame_neighbouringMines 64 5 (fun _ => false) (fun _ => 7) stepGen ⟨2, 2, 1⟩ 0
      newGameExample stepGen_inRange newGame_example⟩

/-! ## The first reveal never hits a mine -/

theorem neighbourFold_step (n : Nat) (g1 : Game) (ref : CellRef) (g' : Game)
    (h : foldSteps (neighbourStep (revealCellFuel n) ref) g1 offsets = some g') :
    RevealStep g1 g' := by
  refine foldSteps_inv (fun x => RevealStep g1 x) _ offsets ?_ _ g' (revealStep_refl g1) h
  intro x d x' _ hx hstep
  simp only [neighbourStep] at hstep
  split at hstep
  · rename_i c hc
    split at hstep
    · exact revealStep_trans hx (revealCellFuel_step n x _ x' (lookup_some_mem_keys hc) hstep)
    · cases hstep
      exact hx
  · cases hstep
    exact hx

theorem zeroSafe_of_counts (g : Game)
    (h : ∀ k, k ∈ keys g.Cells →
      (index g.Cells k).NeighbouringMines = g.countNeighbouringMines k) :
    ZeroSafe g.Cells := by
  intro k hk d hd hm hz
  rw [h k hk, countNeighbouringMines_eq_countP] at hz
  have hz' : offsets.countP (fun d => !decide (d.1 = 0 ∧ d.2 = 0) &&
      (index g.Cells (k.shift d)).ContainsMine) = 0 := by exact_mod_cast hz
  rw [List.countP_eq_zero] at hz'
  have := hz' d hd
  by_cases h0 : d.1 = 0 ∧ d.2 = 0
  · have hs : k.shift d = k := by
      obtain ⟨r, c⟩ := k
      simp [CellRef.shift, h0.1, h0.2]
    rw [hs]
    exact hm
  · simpa [h0] using this

theorem zeroSafe_mapRel {m m' : CellMap} (hrel : MapRel CellStep m m') (h : ZeroSafe m) :
    ZeroSafe m' := by
  have hidx := mapRel_index cellStep_refl hrel
  intro k hk d hd hm hz
  rw [(hidx _).1]
  rw [(hidx k).1] at hm
  rw [(hidx k).2.1] at hz
  rw [mapRel_keys_eq hrel] at hk
  exact h k hk d hd hm hz

theorem revealCellFuel_safe (n : Nat) :
    ∀ (g : Game) (ref : CellRef) (g' : Game), ZeroSafe g.Cells → ref ∈ keys g.Cells →
      (index g.Cells ref).ContainsMine = false →
      revealCellFuel n g ref = some g' → g'.State = g.State := by
  induction n with
  | zero =>
    intro g ref g' _ _ _ h
    simp [revealCellFuel] at h
  | succ n ih =>
    intro g ref g' hz hk hm h
    rw [revealCellFuel_succ] at h
    split at h
    · cases h
      rfl
    · rw [if_neg (by simp [hm])] at h
      have h1 := revealStep_assign hk hm
      split at h
      · rename_i hnm
        have hinv := foldSteps_inv (fun x => RevealStep g x ∧ x.State = g.State) _ offsets ?_
          _ g' ⟨h1, rfl⟩ h
        · exact hinv.2
        · intro x d x' hd hx hstep
          simp only [neighbourStep] at hstep
          split at hstep
          · rename_i c hc
            split at hstep
            · have hmem := lookup_some_mem_keys hc
              have hmine : (index x.Cells (ref.shift d)).ContainsMine = false := by
                rw [(mapRel_index cellStep_refl hx.1.1 _).1]
                exact hz ref hk d hd hm hnm
              exact ⟨revealStep_trans hx.1 (revealCellFuel_step n x _ x' hmem hstep),
                (ih x _ x' (zeroSafe_mapRel hx.1.1 hz) hmem hmine hstep).trans hx.2⟩
            · cases hstep
              exact hx
          · cases hstep
            exact hx
      · cases h
        rfl

theorem revealCell_target (g : Game) (ref : CellRef)
    (hm : (index g.Cells ref).ContainsMine = false) :
    (index (g.revealCell ref).Cells ref).State = CellRevealed := by
  have h := revealCellFuel_enough g ref
  rw [revealCellFuel_succ] at h
  split at h
  · rename_i hr
    rw [← Option.some.inj h]
    exact hr
  · rw [if_neg (by simp [hm])] at h
    have hidx : (index (assign g.Cells ref
        { index g.Cells ref with State := CellRevealed }) ref).State = CellRevealed := by
      rw [index_assign_self]
    split at h
    · have hstep := neighbourFold_step _ _ _ _ h
      rcases (mapRel_index cellStep_refl hstep.1 ref).2.2 with hs | hs
      · rw [hs]
        exact hidx
      · exact hs.1
    · rw [← Option.some.inj h]
      exact hidx

/-- C8: a game returned by `NewGame` under an in-range number generator is ongoing, has at
least one revealed cell, and none of its revealed cells contains a mine. -/
theorem newGame_started {ω : Type} (bits fuel : Nat) (ctxDone : ω → Bool) (idGen : IDGenerator)
    (numberGen : NumberGenerator ω) (board : Board) (w : ω) (g' : Game)
    (hr : InRange numberGen)
    (h : NewGame bits fuel ctxDone idGen numberGen board w = some (.ok g')) :
    g'.State = GameOngoing ∧
      (∃ ref c, lookup g'.Cells ref = some c ∧ c.State = CellRevealed) ∧
      ∀ ref c, lookup g'.Cells ref = some c → c.State = CellRevealed →
        c.ContainsMine = false := by
  obtain ⟨_, g2, ref0, hg, hb, hm0, ⟨hst, _, _⟩, hn, hk, _, hdef, hnm⟩ := newGame_ok hr h
  have hmem0 : ref0 ∈ keys g2.Cells := (hk ref0).mpr hb
  have hstep : RevealStep g2 g' := hg ▸ revealCell_step g2 ref0 hmem0
  have hkeys := mapRel_keys_eq hstep.1
  refine ⟨?_, ?_, ?_⟩
  · rw [hg, ← hst]
    exact revealCellFuel_safe _ g2 ref0 _ (zeroSafe_of_counts g2 hnm) hmem0 hm0
      (revealCellFuel_enough g2 ref0)
  · refine ⟨ref0, index g'.Cells ref0, lookup_of_mem_keys (hkeys ▸ hmem0), ?_⟩
    rw [hg]
    exact revealCell_target g2 ref0 hm0
  · intro ref c' hl hrev
    rcases mapRel_lookup hstep.1 ref with ⟨_, h2⟩ | ⟨c, c'', h1, h2, hcs⟩
    · rw [h2] at hl
      cases hl
    · rw [h2] at hl
      cases hl
      rcases hcs.2.2 with hs | hs
      · have hd := hdef _ (lookup_mem h1)
        simp only at hd
        rw [hs, hd] at hrev
        exact absurd hrev (by decide)
      · rw [hcs.1]
        exact hs.2

theorem newGame_started_witness :
    InRange stepGen ∧
      NewGame 64 5 (fun _ => false) (fun _ => 7) stepGen ⟨2, 2, 1⟩ 0 = some (.ok newGameExample) ∧
      newGameExample.State = GameOngoing ∧
      (∃ ref c, lookup newGameExample.Cells ref = some c ∧ c.State = CellRevealed) ∧
      ∀ ref c, lookup newGameExample.Cells ref = some c → c.State = CellRevealed →
        c.ContainsMine = false :=
  ⟨stepGen_inRange, newGame_example,
    newGame_started 64 5 (fun _ => false) (fun _ => 7) stepGen ⟨2, 2, 1⟩ 0 newGameExample
      stepGen_inRange newGame_example⟩

/-! ## Reveal propagation: the flood fill -/

theorem shift_mem_neighbours (ref : CellRef) (d : Int × Int) (hd : d ∈ offsets)
    (h0 : ref.shift d ≠ ref) : ref.shift d ∈ neighbours ref := by
  obtain ⟨r, c⟩ := ref
  simp only [offsets, List.mem_cons, List.mem_nil_iff, or_false] at hd
  rcases hd with rfl | rfl | rfl | rfl | rfl | rfl | rfl | rfl | rfl <;>
    simp [CellRef.shift, neighbours, sub_eq_add_neg] at h0 ⊢

theorem neighbours_eq_shift (ref nb : CellRef) (h : nb ∈ neighbours ref) :
    ∃ d ∈ offsets, nb = ref.shift d := by
  obtain ⟨r, c⟩ := ref
  simp only [neighbours, List.mem_cons, List.mem_nil_iff, or_false] at h
  rcases h with rfl | rfl | rfl | rfl | rfl | rfl | rfl | rfl
  · exact ⟨(-1, -1), by simp [offsets], by simp [CellRef.shift, sub_eq_add_neg]⟩
  · exact ⟨(-1, 0), by simp [offsets], by simp [CellRef.shift, sub_eq_add_neg]⟩
  · exact ⟨(-1, 1), by simp [offsets], by simp [CellRef.shift, sub_eq_add_neg]⟩
  · exact ⟨(0, -1), by simp [offsets], by simp [CellRef.shift, sub_eq_add_neg]⟩
  · exact ⟨(0, 1), by simp [offsets], by simp [CellRef.shift, sub_eq_add_neg]⟩
  · exact ⟨(1, -1), by simp [offsets], by simp [CellRef.shift, sub_eq_add_neg]⟩
  · exact ⟨(1, 0), by simp [offsets], by simp [CellRef.shift, sub_eq_add_neg]⟩
  · exact ⟨(1, 1), by simp [offsets], by simp [CellRef.shift, sub_eq_add_neg]⟩

theorem chain_unrevealed {g : Game} {a b : CellRef} (h : Chain g a b) :
    ∃ c, lookup g.Cells b = some c ∧ c.State ≠ CellRevealed := by
  cases h with
  | start c hl hs => exact ⟨c, hl, hs⟩
  | next m x cb cx _ _ _ _ hl hs => exact ⟨cx, hl, hs⟩

theorem chain_trans {g : Game} {a b c : CellRef} (h1 : Chain g a b) (h2 : Chain g b c) :
    Chain g a c := by
  induction h2 with
  | start _ _ _ => exact h1
  | next m x cb cx _ hlb hz hadj hlx hs ih =>
    exact Chain.next m x cb cx ih hlb hz hadj hlx hs

theorem revealStep_unrevealed {g x : Game} (h : RevealStep g x) {k : CellRef} {c' : Cell}
    (hl : lookup x.Cells k = some c') (hs : c'.State ≠ CellRevealed) :
    ∃ c, lookup g.Cells k = some c ∧ c.State ≠ CellRevealed ∧
      c.NeighbouringMines = c'.NeighbouringMines := by
  rcases mapRel_lookup h.1 k with ⟨_, h2⟩ | ⟨c, c'', h1, h2, hcs⟩
  · rw [h2] at hl
    cases hl
  · rw [h2] at hl
    cases hl
    refine ⟨c, h1, ?_, hcs.2.1.symm⟩
    rcases hcs.2.2 with h | h
    · rw [← h]
      exact hs
    · exact absurd h.1 hs

theorem revealStep_lookup_some {g x : Game} (h : RevealStep g x) {k : CellRef} {c' : Cell}
    (hl : lookup x.Cells k = some c') :
    ∃ c, lookup g.Cells k = some c ∧ c.NeighbouringMines = c'.NeighbouringMines := by
  rcases mapRel_lookup h.1 k with ⟨_, h2⟩ | ⟨c, c'', h1, h2, hcs⟩
  · rw [h2] at hl
    cases hl
  · rw [h2] at hl
    cases hl
    exact ⟨c, h1, hcs.2.1.symm⟩

theorem chain_mono {g x : Game} (h : RevealStep g x) {a b : CellRef} (hc : Chain x a b) :
    Chain g a b := by
  induction hc with
  | start c hl hs =>
    obtain ⟨c0, hl0, hs0, _⟩ := revealStep_unrevealed h hl hs
    exact Chain.start c0 hl0 hs0
  | next m y cb cx _ hlb hz hadj hlx hs ih =>
    obtain ⟨cb0, hlb0, hnm⟩ := revealStep_lookup_some h hlb
    obtain ⟨cx0, hlx0, hs0, _⟩ := revealStep_unrevealed h hlx hs
    exact Chain.next m y cb0 cx0 ih hlb0 (hnm.trans hz) hadj hlx0 hs0

theorem revealStep_revealed {x x' : Game} (h : RevealStep x x') {k : CellRef}
    (hk : (index x.Cells k).State = CellRevealed) :
    (index x'.Cells k).State = CellRevealed := by
  rcases (mapRel_index cellStep_refl h.1 k).2.2 with hs | hs
  · exact hs.trans hk
  · exact hs.1

theorem index_of_lookup {m : CellMap} {k : CellRef} {c : Cell} (h : lookup m k = some c) :
    index m k = c := by
  simp [index, h]

theorem neighbourStep_step (n : Nat) (ref : CellRef) (x : Game) (d : Int × Int) (x' : Game)
    (h : neighbourStep (revealCellFuel n) ref x d = some x') : RevealStep x x' := by
  simp only [neighbourStep] at h
  split at h
  · rename_i c hc
    split at h
    · exact revealCellFuel_step n x _ x' (lookup_some_mem_keys hc) h
    · cases h
      exact revealStep_refl x
  · cases h
    exact revealStep_refl x

theorem changed_assign {g : Game} {ref k : CellRef} {v : Cell}
    (h : (index (assign g.Cells ref v) k).State ≠ (index g.Cells k).State) : k = ref := by
  by_contra hne
  exact h (by rw [index_assign_ne _ _ _ _ (fun e => hne e.symm)])

theorem revealCellFuel_sound (n : Nat) :
    ∀ (g : Game) (ref : CellRef) (g' : Game), ZeroSafe g.Cells → ref ∈ keys g.Cells →
      (index g.Cells ref).ContainsMine = false → (index g.Cells ref).State ≠ CellRevealed →
      revealCellFuel n g ref = some g' →
      ∀ k, (index g'.Cells k).State ≠ (index g.Cells k).State → Chain g ref k := by
  induction n with
  | zero =>
    intro g ref g' _ _ _ _ h
    simp [revealCellFuel] at h
  | succ n ih =>
    intro g ref g' hz hk hm hr h
    rw [revealCellFuel_succ, if_neg hr, if_neg (by simp [hm])] at h
    have hstart : Chain g ref ref := Chain.start _ (lookup_of_mem_keys hk) hr
    have h1 := revealStep_assign hk hm
    split at h
    · rename_i hnm
      have hinv := foldSteps_inv
        (fun x => RevealStep g x ∧ (index x.Cells ref).State = CellRevealed ∧
          ∀ k, (index x.Cells k).State ≠ (index g.Cells k).State → Chain g ref k)
        _ offsets ?_ _ g' ⟨h1, by simp only [index_assign_self], fun k hch => ?_⟩ h
      · exact hinv.2.2
      · intro x d x' hd hx hstep
        have hxx' := neighbourStep_step n ref x d x' hstep
        refine ⟨revealStep_trans hx.1 hxx', revealStep_revealed hxx' hx.2.1, ?_⟩
        intro k hch
        by_cases hgx : (index x.Cells k).State = (index g.Cells k).State
        · simp only [neighbourStep] at hstep
          split at hstep
          · rename_i c hc
            split at hstep
            · rename_i hs
              have hmem := lookup_some_mem_keys hc
              have hmine : (index x.Cells (ref.shift d)).ContainsMine = false := by
                rw [(mapRel_index cellStep_refl hx.1.1 _).1]
                exact hz ref hk d hd hm hnm
              have hunrev : (index x.Cells (ref.shift d)).State ≠ CellRevealed := by
                rw [index_of_lookup hc]
                exact hs
              have hne : ref.shift d ≠ ref := by
                intro e
                rw [e] at hunrev
                exact hunrev hx.2.1
              have hsub := ih x _ x' (zeroSafe_mapRel hx.1.1 hz) hmem hmine hunrev hstep k
                (by rw [hgx]; exact hch)
              obtain ⟨c0, hl0, hs0, _⟩ := revealStep_unrevealed hx.1 hc hs
              exact chain_trans
                (Chain.next ref _ _ c0 hstart (lookup_of_mem_keys hk) hnm
                  (shift_mem_neighbours ref d hd hne) hl0 hs0)
                (chain_mono hx.1 hsub)
            · cases hstep
              exact absurd hgx hch
          · cases hstep
            exact absurd hgx hch
        · exact hx.2.2 k hgx
      · rw [changed_assign hch]
        exact hstart
    · intro k hch
      rw [← Option.some.inj h] at hch
      rw [changed_assign hch]
      exact hstart

theorem foldSteps_inv_forall {α : Type} (I : Game → Prop) (Q : α → Game → Prop)
    (f : Game → α → Option Game) (l : List α)
    (hstep : ∀ g a g', a ∈ l → I g → f g a = some g' → I g' ∧ Q a g')
    (hQ : ∀ a g b g', b ∈ l → I g → Q a g → f g b = some g' → Q a g') :
    ∀ g g', I g → foldSteps f g l = some g' → I g' ∧ ∀ a ∈ l, Q a g' := by
  induction l with
  | nil =>
    intro g g' hI h
    simp only [foldSteps, Option.some.injEq] at h
    exact ⟨h ▸ hI, fun a ha => by simp at ha⟩
  | cons a t ih =>
    intro g g' hI h
    simp only [foldSteps] at h
    cases hf : f g a with
    | none => simp [hf] at h
    | some g1 =>
      simp only [hf] at h
      obtain ⟨hI1, hQ1⟩ := hstep g a g1 (List.mem_cons_self _ _) hI hf
      obtain ⟨hI', hall⟩ := ih
        (fun g b g' hb => hstep g b g' (List.mem_cons_of_mem _ hb))
        (fun c g b g' hb => hQ c g b g' (List.mem_cons_of_mem _ hb)) g1 g' hI1 h
      have hkeep := foldSteps_inv (fun x => I x ∧ Q a x) f t
        (fun x b x' hb hx hfx =>
          ⟨(hstep x b x' (List.mem_cons_of_mem _ hb) hx.1 hfx).1,
            hQ a x b x' (List.mem_cons_of_mem _ hb) hx.1 hx.2 hfx⟩)
        g1 g' ⟨hI1, hQ1⟩ h
      refine ⟨hI', fun b hb => ?_⟩
      rcases List.mem_cons.mp hb with hb | hb
      · rw [hb]
        exact hkeep.2
      · exact hall b hb

theorem revealCellFuel_closed (n : Nat) :
    ∀ (g : Game) (ref : CellRef) (g' : Game), ZeroSafe g.Cells → ref ∈ keys g.Cells →
      (index g.Cells ref).ContainsMine = false →
      revealCellFuel n g ref = some g' →
      (index g'.Cells ref).State = CellRevealed ∧ Closed g g' := by
  induction n with
  | zero =>
    intro g ref g' _ _ _ h
    simp [revealCellFuel] at h
  | succ n ih =>
    intro g ref g' hz hk hm h
    rw [revealCellFuel_succ] at h
    split at h
    · rename_i hr
      rw [← Option.some.inj h]
      exact ⟨hr, fun b hch => absurd rfl hch⟩
    · rw [if_neg (by simp [hm])] at h
      have h1 := revealStep_assign hk hm
      split at h
      · rename_i hnm
        have hfold := foldSteps_inv_forall
          (fun x => RevealStep g x ∧ (index x.Cells ref).State = CellRevealed ∧
            ∀ b, b ≠ ref → (index x.Cells b).State ≠ (index g.Cells b).State →
              (index g.Cells b).NeighbouringMines = 0 →
              ∀ nb ∈ neighbours b, nb ∈ keys g.Cells →
                (index x.Cells nb).State = CellRevealed)
          (fun d x => ref.shift d ∈ keys g.Cells →
            (index x.Cells (ref.shift d)).State = CellRevealed)
          _ offsets ?_ ?_ _ g'
          ⟨h1, by simp only [index_assign_self],
            fun b hb hch => absurd (changed_assign hch) hb⟩ h
        · obtain ⟨⟨hstep, hrev, hclosed⟩, hQ⟩ := hfold
          refine ⟨hrev, fun b hch hnb nb hmem hkeys => ?_⟩
          by_cases hb : b = ref
          · subst hb
            obtain ⟨d, hd, rfl⟩ := neighbours_eq_shift b nb hmem
            exact hQ d hd hkeys
          · exact hclosed b hb hch hnb nb hmem hkeys
        · intro x d x' hd hx hstep
          have hxx' := neighbourStep_step n ref x d x' hstep
          have hkeys : keys x.Cells = keys g.Cells := mapRel_keys_eq hx.1.1
          simp only [neighbourStep] at hstep
          split at hstep
          · rename_i c hc
            split at hstep
            · have hmem := lookup_some_mem_keys hc
              have hmine : (index x.Cells (ref.shift d)).ContainsMine = false := by
                rw [(mapRel_index cellStep_refl hx.1.1 _).1]
                exact hz ref hk d hd hm hnm
              obtain ⟨hr', hc'⟩ := ih x _ x' (zeroSafe_mapRel hx.1.1 hz) hmem hmine hstep
              refine ⟨⟨revealStep_trans hx.1 hxx', revealStep_revealed hxx' hx.2.1, ?_⟩,
                fun _ => hr'⟩
              intro b hb hch hnb nb hnbm hnbk
              by_cases hgx : (index x.Cells b).State = (index g.Cells b).State
              · refine hc' b (by rw [hgx]; exact hch) ?_ nb hnbm (hkeys ▸ hnbk)
                rw [(mapRel_index cellStep_refl hx.1.1 b).2.1]
                exact hnb
              · exact revealStep_revealed hxx' (hx.2.2 b hb hgx hnb nb hnbm hnbk)
            · rename_i hs
              cases hstep
              refine ⟨hx, fun _ => ?_⟩
              rw [index_of_lookup hc]
              simpa using hs
          · rename_i hnone
            cases hstep
            refine ⟨hx, fun hmem => ?_⟩
            rw [← hkeys] at hmem
            exact absurd hnone (by rw [lookup_of_mem_keys hmem]; simp)
        · intro d x b x' _ _ hq hstep hmem
          exact revealStep_revealed (neighbourStep_step n ref x b x' hstep) (hq hmem)
      · rename_i hnm
        rw [← Option.some.inj h]
        refine ⟨by simp only [index_assign_self], fun b hch hnb => ?_⟩
        rw [changed_assign hch] at hnb
        exact absurd hnb hnm

theorem cell_ext {c c' : Cell} (h1 : c'.ContainsMine = c.ContainsMine)
    (h2 : c'.NeighbouringMines = c.NeighbouringMines) (h3 : c'.State = c.State) : c' = c := by
  obtain ⟨a, b, s⟩ := c
  obtain ⟨a', b', s'⟩ := c'
  simp only at h1 h2 h3
  rw [h1, h2, h3]

/-- C2 (amended): on a game with one cell per board coordinate in which no mine-free cell
with `NeighbouringMines = 0` has a mined grid neighbour, `revealCell` on an in-bounds cell
that is not revealed and has no mine makes revealed exactly the cells reachable from it by
a chain of grid-adjacent, previously unrevealed cells in which every cell before the last
has `NeighbouringMines = 0`; a reachable cell changes in its state only, and every other
cell is left unchanged. -/
theorem revealCell_flood_fill (g : Game) (ref : CellRef) (h1 : OneCellPerCoordinate g)
    (hz : ZeroSafe g.Cells) (hb : g.checkBounds ref = true)
    (hr : (index g.Cells ref).State ≠ CellRevealed)
    (hm : (index g.Cells ref).ContainsMine = false) :
    (∀ k, Chain g ref k ↔
        (index g.Cells k).State ≠ CellRevealed ∧
          (index (g.revealCell ref).Cells k).State = CellRevealed) ∧
      (∀ k, Chain g ref k → ∃ c, lookup g.Cells k = some c ∧
        lookup (g.revealCell ref).Cells k = some { c with State := CellRevealed }) ∧
      (∀ k, ¬ Chain g ref k → lookup (g.revealCell ref).Cells k = lookup g.Cells k) := by
  have hk : ref ∈ keys g.Cells := (h1.2 ref).mpr hb
  have hfuel := revealCellFuel_enough g ref
  have hstep := revealCell_step g ref hk
  have hsound := revealCellFuel_sound _ g ref _ hz hk hm hr hfuel
  obtain ⟨hrev, hclosed⟩ := revealCellFuel_closed _ g ref _ hz hk hm hfuel
  have hreach : ∀ k, Chain g ref k →
      (index (g.revealCell ref).Cells k).State = CellRevealed := by
    intro k hc
    induction hc with
    | start c hl hs => exact hrev
    | next b x cb cx hch hlb hnm hadj hlx hs ih =>
      obtain ⟨c0, hl0, hs0⟩ := chain_unrevealed hch
      refine hclosed b ?_ ?_ x hadj (lookup_some_mem_keys hlx)
      · rw [ih, index_of_lookup hl0]
        exact fun e => hs0 e.symm
      · rw [index_of_lookup hlb]
        exact hnm
  have hiff : ∀ k, Chain g ref k ↔
      (index g.Cells k).State ≠ CellRevealed ∧
        (index (g.revealCell ref).Cells k).State = CellRevealed := by
    intro k
    constructor
    · intro hc
      obtain ⟨c0, hl0, hs0⟩ := chain_unrevealed hc
      exact ⟨by rw [index_of_lookup hl0]; exact hs0, hreach k hc⟩
    · rintro ⟨hbefore, hafter⟩
      exact hsound k (by rw [hafter]; exact fun e => hbefore e.symm)
  refine ⟨hiff, ?_, ?_⟩
  · intro k hc
    obtain ⟨c0, hl0, _⟩ := chain_unrevealed hc
    refine ⟨c0, hl0, ?_⟩
    rcases mapRel_lookup hstep.1 k with ⟨h0, _⟩ | ⟨c, c', hl, hl', hcs⟩
    · rw [h0] at hl0
      cases hl0
    · rw [hl] at hl0
      cases hl0
      rw [hl']
      congr 1
      have hst : c'.State = CellRevealed := by
        have := hreach k hc
        rwa [index_of_lookup hl'] at this
      exact cell_ext hcs.1 hcs.2.1 hst
  · intro k hnc
    rcases mapRel_lookup hstep.1 k with ⟨h0, h0'⟩ | ⟨c, c', hl, hl', hcs⟩
    · rw [h0, h0']
    · rw [hl, hl']
      congr 1
      refine cell_ext hcs.1 hcs.2.1 ?_
      by_contra hne
      apply hnc
      apply hsound k
      rw [index_of_lookup hl, index_of_lookup hl']
      exact hne

theorem mineFar_oneCell : OneCellPerCoordinate mineFar := by
  refine ⟨by decide, ?_⟩
  intro ref
  obtain ⟨r, c⟩ := ref
  simp only [mineFar, keys, List.map_cons, List.map_nil, List.mem_cons, CellRef.mk.injEq,
    List.mem_nil_iff, or_false, Game.checkBounds, Bool.and_eq_true, decide_eq_true_eq]
  omega

theorem revealCell_flood_fill_witness :
    OneCellPerCoordinate mineFar ∧ ZeroSafe mineFar.Cells ∧
      mineFar.checkBounds ⟨0, 0⟩ = true ∧
      (index mineFar.Cells ⟨0, 0⟩).State ≠ CellRevealed ∧
      (index mineFar.Cells ⟨0, 0⟩).ContainsMine = false ∧
      ((∀ k, Chain mineFar ⟨0, 0⟩ k ↔
          (index mineFar.Cells k).State ≠ CellRevealed ∧
            (index (mineFar.revealCell ⟨0, 0⟩).Cells k).State = CellRevealed) ∧
        (∀ k, Chain mineFar ⟨0, 0⟩ k → ∃ c, lookup mineFar.Cells k = some c ∧
          lookup (mineFar.revealCell ⟨0, 0⟩).Cells k = some { c with State := CellRevealed }) ∧
        (∀ k, ¬ Chain mineFar ⟨0, 0⟩ k →
          lookup (mineFar.revealCell ⟨0, 0⟩).Cells k = lookup mineFar.Cells k)) :=
  ⟨mineFar_oneCell, by unfold ZeroSafe; decide, by decide, by decide, by decide,
    revealCell_flood_fill mineFar ⟨0, 0⟩ mineFar_oneCell (by unfold ZeroSafe; decide)
      (by decide) (by decide) (by decide)⟩

theorem mineBetween_oneCell : OneCellPerCoordinate mineBetween := by
  refine ⟨by decide, ?_⟩
  intro ref
  obtain ⟨r, c⟩ := ref
  simp only [mineBetween, keys, List.map_cons, List.map_nil, List.mem_cons, CellRef.mk.injEq,
    List.mem_nil_iff, or_false, Game.checkBounds, Bool.and_eq_true, decide_eq_true_eq]
  omega

/-- C2 (as stated) fails: `mineBetween` has one cell per coordinate, (0,0) is in bounds, not
revealed and mine-free, and (0,2) is reachable from (0,0) by the chain (0,0), (0,1), (0,2) of
adjacent unrevealed cells whose cells before the last have `NeighbouringMines = 0`; yet
`revealCell((0,0))` stops at the mined cell (0,1) and leaves (0,2) in state `CellDefault`. -/
theorem revealCell_stops_at_mine :
    OneCellPerCoordinate mineBetween ∧ mineBetween.checkBounds ⟨0, 0⟩ = true ∧
      (index mineBetween.Cells ⟨0, 0⟩).State ≠ CellRevealed ∧
      (index mineBetween.Cells ⟨0, 0⟩).ContainsMine = false ∧
      Chain mineBetween ⟨0, 0⟩ ⟨0, 2⟩ ∧
      (index (mineBetween.revealCell ⟨0, 0⟩).Cells ⟨0, 2⟩).State = CellDefault ∧
      (index (mineBetween.revealCell ⟨0, 0⟩).Cells ⟨0, 2⟩).State ≠ CellRevealed := by
  refine ⟨mineBetween_oneCell, by decide, by decide, by decide, ?_, by decide, by decide⟩
  have c0 : Chain mineBetween ⟨0, 0⟩ ⟨0, 0⟩ :=
    Chain.start ⟨false, 0, CellDefault⟩ (by decide) (by decide)
  have c1 : Chain mineBetween ⟨0, 0⟩ ⟨0, 1⟩ :=
    Chain.next ⟨0, 0⟩ ⟨0, 1⟩ ⟨false, 0, CellDefault⟩ ⟨true, 0, CellDefault⟩ c0
      (by decide) (by decide) (by decide) (by decide) (by decide)
  exact Chain.next ⟨0, 1⟩ ⟨0, 2⟩ ⟨true, 0, CellDefault⟩ ⟨false, 1, CellDefault⟩ c1
    (by decide) (by decide) (by decide) (by decide) (by decide)

/-! ## Failed and successful cell actions -/

theorem end_ongoing {g : Game} (h : g.State = GameOngoing) :
    g.End = ({ g with State := GameResigned }, none) := by
  simp [Game.End, Game.finished, h]

theorem updateCell_error_unchanged (g : Game) (ref : CellRef) (s : CellState)
    (h : (g.UpdateCell ref s).2 ≠ none) : (g.UpdateCell ref s).1 = g := by
  by_cases hOn : g.State = GameOngoing
  · by_cases hb : g.checkBounds ref = true
    · by_cases hm : s = CellDefault ∨ s = CellFlagged ∨ s = CellQuestioned
      · rw [updateCell_mark hOn hb hm] at h ⊢
        by_cases hv : (index g.Cells ref).State = CellRevealed
        · rw [if_pos hv]
        · rw [if_neg hv] at h
          exact absurd rfl h
      · by_cases hr : s = CellRevealed
        · subst hr
          rw [updateCell_reveal hOn hb] at h ⊢
          by_cases hf : (index g.Cells ref).State = CellFlagged
          · rw [if_pos hf]
          · rw [if_neg hf] at h
            exact absurd rfl h
        · rw [updateCell_unknown hOn hb hm hr]
    · have hb' : g.checkBounds ref = false := by simpa using hb
      rw [updateCell_outOfBounds hOn hb' s]
  · rw [updateCell_finished hOn ref s]

/-- C11: a failed transition is never partially applied: whenever `UpdateCell(ref, s)`
returns an error (for any requested state `s`, also one outside the four defined ones) or
`End` returns an error, the game after the call, with its state, board and cells, is the
game before the call. -/
theorem failed_call_changes_nothing (g : Game) (ref : CellRef) (s : CellState) :
    ((g.UpdateCell ref s).2 ≠ none → (g.UpdateCell ref s).1 = g) ∧
      (g.End.2 ≠ none → g.End.1 = g) := by
  refine ⟨updateCell_error_unchanged g ref s, fun h => ?_⟩
  by_cases hOn : g.State = GameOngoing
  · rw [end_ongoing hOn] at h
    exact absurd rfl h
  · rw [end_finished hOn]

theorem failed_call_changes_nothing_witness :
    (mineLeft.UpdateCell ⟨0, 1⟩ 9).2 = some Error.unknownAction ∧
      (mineLeft.UpdateCell ⟨0, 1⟩ 9).2 ≠ none ∧ (mineLeft.UpdateCell ⟨0, 1⟩ 9).1 = mineLeft ∧
      lostGame.End.2 ≠ none ∧ lostGame.End.1 = lostGame :=
  ⟨by decide, by decide, (failed_call_changes_nothing mineLeft ⟨0, 1⟩ 9).1 (by decide),
    by decide, (failed_call_changes_nothing lostGame ⟨0, 1⟩ 9).2 (by decide)⟩

/-- C12: on an ongoing game, `UpdateCell(ref, s)` with `s` one of `Default`, `Flagged`,
`Questioned` on an in-bounds cell that is not revealed returns no error, sets the state of
the cell at `ref` to `s` (mine and neighbour count kept) and leaves every other cell
unchanged. -/
theorem updateCell_mark_cell (g : Game) (ref : CellRef) (s : CellState)
    (hOn : g.State = GameOngoing) (hb : g.checkBounds ref = true)
    (hr : (index g.Cells ref).State ≠ CellRevealed)
    (hs : s = CellDefault ∨ s = CellFlagged ∨ s = CellQuestioned) :
    (g.UpdateCell ref s).2 = none ∧
      lookup (g.UpdateCell ref s).1.Cells ref = some { index g.Cells ref with State := s } ∧
      (index (g.UpdateCell ref s).1.Cells ref).State = s ∧
      ∀ k, k ≠ ref → lookup (g.UpdateCell ref s).1.Cells k = lookup g.Cells k := by
  rw [updateCell_mark hOn hb hs, if_neg hr]
  simp only [tryWin_cells]
  refine ⟨trivial, lookup_assign_self _ _ _, ?_, fun k hk => ?_⟩
  · rw [index_assign_self]
  · exact lookup_assign_ne _ _ _ _ (fun e => hk e.symm)

theorem updateCell_mark_cell_witness :
    mineLeft.State = GameOngoing ∧ mineLeft.checkBounds ⟨0, 1⟩ = true ∧
      (index mineLeft.Cells ⟨0, 1⟩).State ≠ CellRevealed ∧
      (mineLeft.UpdateCell ⟨0, 1⟩ CellQuestioned).2 = none ∧
      lookup (mineLeft.UpdateCell ⟨0, 1⟩ CellQuestioned).1.Cells ⟨0, 1⟩ =
        some { index mineLeft.Cells ⟨0, 1⟩ with State := CellQuestioned } ∧
      (index (mineLeft.UpdateCell ⟨0, 1⟩ CellQuestioned).1.Cells ⟨0, 1⟩).State =
        CellQuestioned ∧
      ∀ k, k ≠ ⟨0, 1⟩ →
        lookup (mineLeft.UpdateCell ⟨0, 1⟩ CellQuestioned).1.Cells k = lookup mineLeft.Cells k :=
  ⟨by decide, by decide, by decide,
    updateCell_mark_cell mineLeft ⟨0, 1⟩ CellQuestioned (by decide) (by decide) (by decide)
      (by decide)⟩

/-- C17: `End` returns `ErrGameFinished` exactly when the state is not `GameOngoing`; on an
ongoing game it returns no error, sets the state to `GameResigned` and leaves the
identifier, the board and every cell unchanged. -/
theorem end_resigns (g : Game) :
    (g.End.2 = some Error.ErrGameFinished ↔ g.State ≠ GameOngoing) ∧
      (g.State = GameOngoing →
        g.End.2 = none ∧ g.End.1.State = GameResigned ∧ g.End.1.Board = g.Board ∧
          g.End.1.Cells = g.Cells ∧ g.End.1.ID = g.ID) := by
  by_cases hOn : g.State = GameOngoing
  · rw [end_ongoing hOn]
    simp [hOn]
  · rw [end_finished hOn]
    simp [hOn]

theorem end_resigns_witness :
    mineLeft.State = GameOngoing ∧
      mineLeft.End.2 = none ∧ mineLeft.End.1.State = GameResigned ∧
      mineLeft.End.1.Board = mineLeft.Board ∧ mineLeft.End.1.Cells = mineLeft.Cells ∧
      mineLeft.End.1.ID = mineLeft.ID :=
  ⟨by decide, (end_resigns mineLeft).2 (by decide)⟩

/-! ## Frame of the cell actions -/

theorem assign_append_new {m : CellMap} {ref : CellRef} (c v : Cell) (h : ref ∉ keys m) :
    assign (m ++ [(ref, c)]) ref v = m ++ [(ref, v)] := by
  induction m with
  | nil => simp [assign]
  | cons e t ih =>
    obtain ⟨k0, v0⟩ := e
    simp only [keys, List.map_cons, List.mem_cons, not_or] at h
    have h0 : ¬ k0 = ref := fun e => h.1 e.symm
    simp only [List.cons_append, assign, h0, if_false, List.cons.injEq, true_and]
    exact ih h.2

theorem mem_keys_withKey (m : CellMap) (ref : CellRef) : ref ∈ keys (withKey m ref) := by
  unfold withKey
  split
  · assumption
  · simp [keys]

theorem lookup_withKey_of_some {m : CellMap} {ref k : CellRef} {c : Cell}
    (h : lookup m k = some c) : lookup (withKey m ref) k = some c := by
  unfold withKey
  split
  · exact h
  · induction m with
    | nil => simp [lookup] at h
    | cons e t ih =>
      obtain ⟨k0, v0⟩ := e
      by_cases h0 : k0 = k
      · simp only [lookup, h0, if_true] at h
        simp [lookup, h0, h]
      · rename_i hn
        simp only [lookup, h0, if_false] at h
        simp only [List.cons_append, lookup, h0, if_false]
        refine ih h ?_
        simp only [keys, List.map_cons, List.mem_cons, not_or] at hn
        exact hn.2

theorem index_withKey (m : CellMap) (ref k : CellRef) :
    index (withKey m ref) k = index m k := by
  cases hl : lookup m k with
  | some c => simp [index, hl, lookup_withKey_of_some hl]
  | none =>
    have hk : k ∉ keys m := (lookup_eq_none_iff m k).mp hl
    unfold withKey
    split
    · rfl
    · rename_i hn
      by_cases hkr : ref = k
      · subst hkr
        rw [← @assign_append_new m ref Cell.zero Cell.zero hn, index_assign_self]
        simp [index, hl]
      · have : lookup (m ++ [(ref, Cell.zero)]) k = none := by
          rw [lookup_eq_none_iff]
          simp only [keys, List.map_append, List.map_cons, List.map_nil, List.mem_append,
            List.mem_singleton, not_or]
          exact ⟨hk, fun e => hkr e.symm⟩
        simp [index, hl, this]

theorem assign_withKey (m : CellMap) (ref : CellRef) (v : Cell) :
    assign (withKey m ref) ref v = assign m ref v := by
  unfold withKey
  split
  · rfl
  · rename_i hn
    rw [assign_append_new _ _ hn, keys_assign_of_not_mem _ hn]

theorem revealCellFuel_withKey (n : Nat) (g : Game) (ref : CellRef) :
    revealCellFuel n { g with Cells := withKey g.Cells ref } ref = revealCellFuel n g ref := by
  by_cases hk : ref ∈ keys g.Cells
  · simp [withKey, hk]
  · cases n with
    | zero => simp [revealCellFuel]
    | succ n =>
      have hz : index g.Cells ref = Cell.zero := by
        simp [index, (lookup_eq_none_iff g.Cells ref).mpr hk]
      rw [revealCellFuel_succ, revealCellFuel_succ]
      simp only [index_withKey, assign_withKey, hz]
      simp [Cell.zero, CellDefault, CellRevealed]

/-- The frame of `revealCell` on any game, also when the key `ref` is missing. -/
theorem revealCell_step_any (g : Game) (ref : CellRef) :
    RevealStep { g with Cells := withKey g.Cells ref } (g.revealCell ref) := by
  have h := revealCellFuel_enough g ref
  rw [← revealCellFuel_withKey] at h
  exact revealCellFuel_step _ _ ref _ (mem_keys_withKey g.Cells ref) h

theorem revealCell_keeps_revealed (g : Game) (ref k : CellRef) (c : Cell)
    (hl : lookup g.Cells k = some c) (hr : c.State = CellRevealed) :
    ∃ c', lookup (g.revealCell ref).Cells k = some c' ∧ c'.State = CellRevealed := by
  have hstep := revealCell_step_any g ref
  have hl' : lookup (withKey g.Cells ref) k = some c := lookup_withKey_of_some hl
  rcases mapRel_lookup hstep.1 k with ⟨h1, _⟩ | ⟨c0, c', h1, h2, hcs⟩
  · simp only at h1
    rw [hl'] at h1
    cases h1
  · simp only at h1
    rw [hl'] at h1
    cases h1
    refine ⟨c', h2, ?_⟩
    rcases hcs.2.2 with hs | hs
    · exact hs.trans hr
    · exact hs.1

/-- C15: no call un-reveals a cell: a cell that is revealed before an `UpdateCell` or `End`
call (successful or failing, on any game) is still revealed after it. -/
theorem revealed_stays_revealed (g : Game) (ref : CellRef) (s : CellState) (k : CellRef)
    (c : Cell) (hl : lookup g.Cells k = some c) (hr : c.State = CellRevealed) :
    (∃ c', lookup (g.UpdateCell ref s).1.Cells k = some c' ∧ c'.State = CellRevealed) ∧
      (∃ c', lookup g.End.1.Cells k = some c' ∧ c'.State = CellRevealed) := by
  constructor
  · by_cases herr : (g.UpdateCell ref s).2 = none
    · have hOn : g.State = GameOngoing := by
        by_contra hOn
        rw [updateCell_finished hOn] at herr
        cases herr
      have hb : g.checkBounds ref = true := by
        by_contra hb
        have hb' : g.checkBounds ref = false := by simpa using hb
        rw [updateCell_outOfBounds hOn hb'] at herr
        cases herr
      by_cases hm : s = CellDefault ∨ s = CellFlagged ∨ s = CellQuestioned
      · rw [updateCell_mark hOn hb hm] at herr ⊢
        by_cases hv : (index g.Cells ref).State = CellRevealed
        · rw [if_pos hv] at herr
          cases herr
        · rw [if_neg hv]
          simp only [tryWin_cells]
          have hne : ref ≠ k := by
            intro e
            subst e
            rw [index_of_lookup hl] at hv
            exact hv hr
          exact ⟨c, (lookup_assign_ne _ _ _ _ hne).trans hl, hr⟩
      · by_cases hrv : s = CellRevealed
        · subst hrv
          rw [updateCell_reveal hOn hb] at herr ⊢
          by_cases hf : (index g.Cells ref).State = CellFlagged
          · rw [if_pos hf] at herr
            cases herr
          · rw [if_neg hf]
            simp only [tryWin_cells]
            exact revealCell_keeps_revealed g ref k c hl hr
        · rw [updateCell_unknown hOn hb hm hrv] at herr
          cases herr
    · rw [updateCell_error_unchanged g ref s herr]
      exact ⟨c, hl, hr⟩
  · by_cases hOn : g.State = GameOngoing
    · rw [end_ongoing hOn]
      exact ⟨c, hl, hr⟩
    · rw [end_finished hOn]
      exact ⟨c, hl, hr⟩

theorem revealed_stays_revealed_witness :
    lookup newGameExample.Cells ⟨1, 1⟩ = some ⟨false, 1, CellRevealed⟩ ∧
      (∃ c', lookup (newGameExample.UpdateCell ⟨0, 1⟩ CellRevealed).1.Cells ⟨1, 1⟩ = some c' ∧
        c'.State = CellRevealed) ∧
      (∃ c', lookup newGameExample.End.1.Cells ⟨1, 1⟩ = some c' ∧ c'.State = CellRevealed) :=
  ⟨by decide,
    revealed_stays_revealed newGameExample ⟨0, 1⟩ CellRevealed ⟨1, 1⟩ ⟨false, 1, CellRevealed⟩
      (by decide) (by decide)⟩

theorem fieldStep_refl (c : Cell) : FieldStep c c := ⟨rfl, rfl⟩

theorem tryWin_id (g : Game) : g.tryWin.ID = g.ID := by
  unfold Game.tryWin
  split
  · rfl
  · simp only
    split
    · rfl
    · split <;> rfl

theorem updateCell_fields (g : Game) (ref : CellRef) (s : CellState)
    (hkeys : ∀ k, g.checkBounds k = true → k ∈ keys g.Cells) :
    MapRel FieldStep g.Cells (g.UpdateCell ref s).1.Cells ∧
      (g.UpdateCell ref s).1.Board = g.Board ∧ (g.UpdateCell ref s).1.ID = g.ID := by
  by_cases herr : (g.UpdateCell ref s).2 = none
  · have hOn : g.State = GameOngoing := by
      by_contra hOn
      rw [updateCell_finished hOn] at herr
      cases herr
    obtain ⟨hb, _⟩ := updateCell_ok_cases hOn hkeys herr
    have hk := hkeys ref hb
    by_cases hm : s = CellDefault ∨ s = CellFlagged ∨ s = CellQuestioned
    · rw [updateCell_mark hOn hb hm] at herr ⊢
      by_cases hv : (index g.Cells ref).State = CellRevealed
      · rw [if_pos hv] at herr
        cases herr
      · rw [if_neg hv]
        refine ⟨?_, ?_, ?_⟩
        · rw [tryWin_cells]
          exact mapRel_assign fieldStep_refl hk ⟨rfl, rfl⟩
        · rw [tryWin_board]
        · rw [tryWin_id]
    · by_cases hrv : s = CellRevealed
      · subst hrv
        rw [updateCell_reveal hOn hb] at herr ⊢
        by_cases hf : (index g.Cells ref).State = CellFlagged
        · rw [if_pos hf] at herr
          cases herr
        · rw [if_neg hf]
          have hstep := revealCell_step g ref hk
          refine ⟨?_, ?_, ?_⟩
          · rw [tryWin_cells]
            exact mapRel_mono (fun c c' h => ⟨h.1, h.2.1⟩) hstep.1
          · rw [tryWin_board]
            exact hstep.2.1
          · rw [tryWin_id]
            exact hstep.2.2.1
      · rw [updateCell_unknown hOn hb hm hrv] at herr
        cases herr
  · rw [updateCell_error_unchanged g ref s herr]
    exact ⟨mapRel_refl fieldStep_refl _, rfl, rfl⟩

/-- C16: on a game with one cell per board coordinate, every `UpdateCell` call and every
`End` call (successful or failing) leaves the board, the identifier, the set of cell
coordinates and every cell's `ContainsMine` and `NeighbouringMines` unchanged. -/
theorem calls_keep_layout (g : Game) (ref : CellRef) (s : CellState)
    (h1 : OneCellPerCoordinate g) :
    ((g.UpdateCell ref s).1.Board = g.Board ∧ (g.UpdateCell ref s).1.ID = g.ID ∧
        keys (g.UpdateCell ref s).1.Cells = keys g.Cells ∧
        OneCellPerCoordinate (g.UpdateCell ref s).1 ∧
        ∀ k, (index (g.UpdateCell ref s).1.Cells k).ContainsMine =
              (index g.Cells k).ContainsMine ∧
            (index (g.UpdateCell ref s).1.Cells k).NeighbouringMines =
              (index g.Cells k).NeighbouringMines) ∧
      (g.End.1.Board = g.Board ∧ g.End.1.ID = g.ID ∧ g.End.1.Cells = g.Cells) := by
  constructor
  · obtain ⟨hrel, hbd, hid⟩ := updateCell_fields g ref s (fun k hk => (h1.2 k).mpr hk)
    have hkeys := mapRel_keys_eq hrel
    refine ⟨hbd, hid, hkeys, ⟨hkeys ▸ h1.1, fun k => ?_⟩,
      fun k => mapRel_index fieldStep_refl hrel k⟩
    rw [hkeys, h1.2 k]
    simp only [Game.checkBounds, hbd]
  · by_cases hOn : g.State = GameOngoing
    · rw [end_ongoing hOn]
      exact ⟨rfl, rfl, rfl⟩
    · rw [end_finished hOn]
      exact ⟨rfl, rfl, rfl⟩

theorem newGameExample_oneCell : OneCellPerCoordinate newGameExample := by
  refine ⟨by decide, ?_⟩
  intro ref
  obtain ⟨r, c⟩ := ref
  simp only [newGameExample, keys, List.map_cons, List.map_nil, List.mem_cons,
    CellRef.mk.injEq, List.mem_nil_iff, or_false, Game.checkBounds, Bool.and_eq_true,
    decide_eq_true_eq]
  omega

theorem calls_keep_layout_witness :
    OneCellPerCoordinate newGameExample ∧
      (((newGameExample.UpdateCell ⟨0, 1⟩ CellRevealed).1.Board = newGameExample.Board ∧
          (newGameExample.UpdateCell ⟨0, 1⟩ CellRevealed).1.ID = newGameExample.ID ∧
          keys (newGameExample.UpdateCell ⟨0, 1⟩ CellRevealed).1.Cells =
            keys newGameExample.Cells ∧
          OneCellPerCoordinate (newGameExample.UpdateCell ⟨0, 1⟩ CellRevealed).1 ∧
          ∀ k, (index (newGameExample.UpdateCell ⟨0, 1⟩ CellRevealed).1.Cells k).ContainsMine =
                (index newGameExample.Cells k).ContainsMine ∧
              (index (newGameExample.UpdateCell ⟨0, 1⟩ CellRevealed).1.Cells k).NeighbouringMines =
                (index newGameExample.Cells k).NeighbouringMines) ∧
        (newGameExample.End.1.Board = newGameExample.Board ∧
          newGameExample.End.1.ID = newGameExample.ID ∧
          newGameExample.End.1.Cells = newGameExample.Cells)) :=
  ⟨newGameExample_oneCell,
    calls_keep_layout newGameExample ⟨0, 1⟩ CellRevealed newGameExample_oneCell⟩

/-! ## Flags -/

theorem tryWin_state_cases (g : Game) :
    g.tryWin.State = g.State ∨ g.tryWin.State = GameWon := by
  unfold Game.tryWin
  split
  · exact Or.inl rfl
  · simp only
    split
    · exact Or.inr rfl
    · split
      · exact Or.inr rfl
      · exact Or.inl rfl

/-- C13 (amended): on an ongoing game, revealing an in-bounds flagged cell fails with
`ErrFlagged` and changes nothing; unflagging it with `UpdateCell(ref, CellDefault)` returns
no error; and the following `UpdateCell(ref, CellRevealed)` returns no error if the game is
still ongoing after the unflagging, and `ErrGameFinished` if the unflagging won the game. -/
theorem unflag_then_reveal (g : Game) (ref : CellRef) (hOn : g.State = GameOngoing)
    (hb : g.checkBounds ref = true) (hf : (index g.Cells ref).State = CellFlagged) :
    g.UpdateCell ref CellRevealed = (g, some Error.ErrFlagged) ∧
      (g.UpdateCell ref CellDefault).2 = none ∧
      ((g.UpdateCell ref CellDefault).1.State = GameOngoing →
        ((g.UpdateCell ref CellDefault).1.UpdateCell ref CellRevealed).2 = none) ∧
      ((g.UpdateCell ref CellDefault).1.State ≠ GameOngoing →
        (g.UpdateCell ref CellDefault).1.State = GameWon ∧
        ((g.UpdateCell ref CellDefault).1.UpdateCell ref CellRevealed).2 =
          some Error.ErrGameFinished) := by
  have hnr : (index g.Cells ref).State ≠ CellRevealed := by
    rw [hf]
    decide
  have hmark := updateCell_mark hOn hb (Or.inl rfl : CellDefault = CellDefault ∨
    CellDefault = CellFlagged ∨ CellDefault = CellQuestioned)
  rw [if_neg hnr] at hmark
  refine ⟨by rw [updateCell_reveal hOn hb, if_pos hf], by rw [hmark], ?_, ?_⟩
  · intro hOn2
    have hb2 : (g.UpdateCell ref CellDefault).1.checkBounds ref = true := by
      rw [hmark]
      simp only [Game.checkBounds, tryWin_board]
      exact hb
    rw [updateCell_reveal hOn2 hb2]
    have hst : (index (g.UpdateCell ref CellDefault).1.Cells ref).State ≠ CellFlagged := by
      rw [hmark]
      simp only [tryWin_cells, index_assign_self]
      decide
    rw [if_neg hst]
  · intro hfin
    refine ⟨?_, by rw [updateCell_finished hfin]⟩
    rw [hmark] at hfin ⊢
    rcases tryWin_state_cases
      { g with Cells := assign g.Cells ref { index g.Cells ref with State := CellDefault } }
      with h | h
    · exact absurd (h.trans hOn) hfin
    · exact h

theorem unflag_then_reveal_witness :
    twoFlags.State = GameOngoing ∧ twoFlags.checkBounds ⟨0, 0⟩ = true ∧
      (index twoFlags.Cells ⟨0, 0⟩).State = CellFlagged ∧
      (twoFlags.UpdateCell ⟨0, 0⟩ CellDefault).1.State = GameOngoing ∧
      ((twoFlags.UpdateCell ⟨0, 0⟩ CellDefault).1.UpdateCell ⟨0, 0⟩ CellRevealed).2 = none ∧
      (twoFlags.UpdateCell ⟨0, 0⟩ CellRevealed = (twoFlags, some Error.ErrFlagged) ∧
        (twoFlags.UpdateCell ⟨0, 0⟩ CellDefault).2 = none ∧
        ((twoFlags.UpdateCell ⟨0, 0⟩ CellDefault).1.State = GameOngoing →
          ((twoFlags.UpdateCell ⟨0, 0⟩ CellDefault).1.UpdateCell ⟨0, 0⟩ CellRevealed).2 =
            none) ∧
        ((twoFlags.UpdateCell ⟨0, 0⟩ CellDefault).1.State ≠ GameOngoing →
          (twoFlags.UpdateCell ⟨0, 0⟩ CellDefault).1.State = GameWon ∧
          ((twoFlags.UpdateCell ⟨0, 0⟩ CellDefault).1.UpdateCell ⟨0, 0⟩ CellRevealed).2 =
            some Error.ErrGameFinished)) :=
  ⟨by decide, by decide, by decide, by decide, by decide,
    unflag_then_reveal twoFlags ⟨0, 0⟩ (by decide) (by decide) (by decide)⟩

/-- C13 (as stated) fails: `twoFlags` is the ongoing game reached from the `NewGame` result
`newGameExample` by flagging the safe cell (0,1) and the mine (0,0).  Revealing the flagged
cell (0,1) fails with `ErrFlagged`; unflagging it succeeds and leaves exactly the mine
flagged, so `tryWin` sets `GameWon`; the following reveal of (0,1) does not succeed, it
returns `ErrGameFinished`. -/
theorem reveal_after_unflag_fails :
    runCalls newGameExample [.updateCell ⟨0, 1⟩ CellFlagged, .updateCell ⟨0, 0⟩ CellFlagged] =
        twoFlags ∧
      twoFlags.State = GameOngoing ∧ twoFlags.checkBounds ⟨0, 1⟩ = true ∧
      (index twoFlags.Cells ⟨0, 1⟩).State = CellFlagged ∧
      (twoFlags.UpdateCell ⟨0, 1⟩ CellRevealed).2 = some Error.ErrFlagged ∧
      (twoFlags.UpdateCell ⟨0, 1⟩ CellRevealed).1 = twoFlags ∧
      (twoFlags.UpdateCell ⟨0, 1⟩ CellDefault).2 = none ∧
      (twoFlags.UpdateCell ⟨0, 1⟩ CellDefault).1.State = GameWon ∧
      ((twoFlags.UpdateCell ⟨0, 1⟩ CellDefault).1.UpdateCell ⟨0, 1⟩ CellRevealed).2 =
        some Error.ErrGameFinished ∧
      ((twoFlags.UpdateCell ⟨0, 1⟩ CellDefault).1.UpdateCell ⟨0, 1⟩ CellRevealed).2 ≠ none := by
  refine ⟨by decide, by decide, by decide, by decide, by decide, by decide, by decide,
    by decide, by decide, by decide⟩

/-- C14: evaluation at the failing input.  `rowGame` is the game `NewGame` returns for a 1x4
board with one mine.  After flagging the safe cell (0,3) the game is still ongoing and (0,3)
is flagged; revealing its neighbour (0,2), whose neighbour count is 0, returns no error and
the cascade opens the flagged cell: (0,3) is revealed after the call. -/
theorem cascade_opens_flagged_cell :
    NewGame 64 5 (fun _ => false) (fun _ => 7) stepGen ⟨4, 1, 1⟩ 0 = some (.ok rowGame) ∧
      (rowGame.UpdateCell ⟨0, 3⟩ CellFlagged).2 = none ∧
      (rowGame.UpdateCell ⟨0, 3⟩ CellFlagged).1.State = GameOngoing ∧
      (index (rowGame.UpdateCell ⟨0, 3⟩ CellFlagged).1.Cells ⟨0, 3⟩).State = CellFlagged ∧
      ((rowGame.UpdateCell ⟨0, 3⟩ CellFlagged).1.UpdateCell ⟨0, 2⟩ CellRevealed).2 = none ∧
      (index ((rowGame.UpdateCell ⟨0, 3⟩ CellFlagged).1.UpdateCell ⟨0, 2⟩ CellRevealed).1.Cells
        ⟨0, 3⟩).State = CellRevealed ∧
      (rowGame.UpdateCell ⟨0, 3⟩ CellRevealed).2 = none ∧
      ((rowGame.UpdateCell ⟨0, 3⟩ CellFlagged).1.UpdateCell ⟨0, 3⟩ CellRevealed).2 =
        some Error.ErrFlagged :=
  ⟨rfl, by decide, by decide, by decide, by decide, by decide, by decide, by decide⟩

/-! ## The 3x3 scenario -/

/-- C18 (as stated) fails: in the ongoing 3x3 game with mines at (0,0) and (2,2) and counts
computed by `countNeighbouringMines`, both mines are neighbours of (1,1), so its
`NeighbouringMines` is 2, not 0; revealing (1,1) therefore does not cascade, and for example
the safe cell (0,1) is still in state `CellDefault` afterwards. -/
theorem centre_count_is_not_zero :
    cornerGame.State = GameOngoing ∧ cornerGame.Board = ⟨3, 3, 2⟩ ∧
      (∀ e ∈ cornerGame.Cells,
        (e.2.ContainsMine = true ↔ e.1 = ⟨0, 0⟩ ∨ e.1 = ⟨2, 2⟩) ∧
          e.2.NeighbouringMines = cornerGame.countNeighbouringMines e.1) ∧
      (index cornerGame.Cells ⟨1, 1⟩).NeighbouringMines = 2 ∧
      (index cornerGame.Cells ⟨1, 1⟩).NeighbouringMines ≠ 0 ∧
      (cornerGame.UpdateCell ⟨1, 1⟩ CellRevealed).2 = none ∧
      (index cornerGame.Cells ⟨0, 1⟩).ContainsMine = false ∧
      (index (cornerGame.UpdateCell ⟨1, 1⟩ CellRevealed).1.Cells ⟨0, 1⟩).State = CellDefault ∧
      (index (cornerGame.UpdateCell ⟨1, 1⟩ CellRevealed).1.Cells ⟨0, 1⟩).State ≠
        CellRevealed := by
  refine ⟨by decide, by decide, by decide, by decide, by decide, by decide, by decide,
    by decide, by decide⟩

/-- C18 (amended): in the ongoing 3x3 game with 2 mines at (0,0) and (2,2) and neighbour
counts computed by `countNeighbouringMines`, the cell (1,1) has `NeighbouringMines = 2`;
revealing (1,1) returns no error, reveals that cell only, leaves the other eight cells (the
two mines among them) in state `CellDefault` and the game ongoing; flagging both mines
afterwards yields `GameWon` (the game is still ongoing after the first flag). -/
theorem corner_scenario :
    cornerGame.State = GameOngoing ∧
      (index cornerGame.Cells ⟨1, 1⟩).NeighbouringMines = 2 ∧
      (cornerGame.UpdateCell ⟨1, 1⟩ CellRevealed).2 = none ∧
      (cornerGame.UpdateCell ⟨1, 1⟩ CellRevealed).1.State = GameOngoing ∧
      keys (cornerGame.UpdateCell ⟨1, 1⟩ CellRevealed).1.Cells = keys cornerGame.Cells ∧
      (∀ e ∈ (cornerGame.UpdateCell ⟨1, 1⟩ CellRevealed).1.Cells,
        (e.1 = ⟨1, 1⟩ → e.2.State = CellRevealed) ∧
          (e.1 ≠ ⟨1, 1⟩ → e.2.State = CellDefault)) ∧
      (runCalls cornerGame [.updateCell ⟨1, 1⟩ CellRevealed,
        .updateCell ⟨0, 0⟩ CellFlagged]).State = GameOngoing ∧
      (runCalls cornerGame [.updateCell ⟨1, 1⟩ CellRevealed, .updateCell ⟨0, 0⟩ CellFlagged,
        .updateCell ⟨2, 2⟩ CellFlagged]).State = GameWon ∧
      ((runCalls cornerGame [.updateCell ⟨1, 1⟩ CellRevealed,
        .updateCell ⟨0, 0⟩ CellFlagged]).UpdateCell ⟨2, 2⟩ CellFlagged).2 = none := by
  refine ⟨by decide, by decide, by decide, by decide, by decide, by decide, by decide,
    by decide, by decide⟩

/-! ## The store -/

theorem readMap_writeMap_self (h : Maps) (r : MapRef) (m : CellMap) :
    readMap (writeMap h r m) r = m := by
  induction h with
  | nil => simp [writeMap, readMap]
  | cons e t ih =>
    obtain ⟨r0, m0⟩ := e
    by_cases h0 : r0 = r
    · simp [writeMap, readMap, h0]
    · simp [writeMap, readMap, h0, ih]

theorem readMap_writeMap_ne (h : Maps) (r r' : MapRef) (m : CellMap) (hne : r ≠ r') :
    readMap (writeMap h r m) r' = readMap h r' := by
  induction h with
  | nil => simp [writeMap, readMap, hne]
  | cons e t ih =>
    obtain ⟨r0, m0⟩ := e
    by_cases h0 : r0 = r
    · subst h0
      simp [writeMap, readMap, hne]
    · by_cases h1 : r0 = r'
      · subst h1
        simp [writeMap, readMap, h0]
      · simp [writeMap, readMap, h0, h1, ih]

theorem readMap_writeMap_same (h : Maps) (r r' : MapRef) :
    readMap (writeMap h r (readMap h r)) r' = readMap h r' := by
  by_cases hne : r = r'
  · subst hne
    rw [readMap_writeMap_self]
  · exact readMap_writeMap_ne h r r' _ hne

theorem tableFind_tableAssign_self (t : List (UUID × GameValue)) (k : UUID) (v : GameValue) :
    tableFind (tableAssign t k v) k = some v := by
  induction t with
  | nil => simp [tableAssign, tableFind]
  | cons e t ih =>
    obtain ⟨k0, v0⟩ := e
    by_cases h0 : k0 = k
    · simp [tableAssign, tableFind, h0]
    · simp [tableAssign, tableFind, h0, ih]

theorem tableFind_tableAssign_ne (t : List (UUID × GameValue)) (k k' : UUID) (v : GameValue)
    (hne : k ≠ k') : tableFind (tableAssign t k v) k' = tableFind t k' := by
  induction t with
  | nil => simp [tableAssign, tableFind, hne]
  | cons e t ih =>
    obtain ⟨k0, v0⟩ := e
    by_cases h0 : k0 = k
    · subst h0
      simp [tableAssign, tableFind, hne]
    · by_cases h1 : k0 = k'
      · subst h1
        simp [tableAssign, tableFind, h0]
      · simp [tableAssign, tableFind, h0, h1, ih]

theorem error_is_self (e : Error) : e.Is e = true := by
  cases e <;> simp [Error.Is]

/-- An unknown id: `MutateGame` returns `ErrGameNotFound`, does not run the mutator and
leaves the store as it is. -/
theorem mutateGame_notFound (st : Store) (gameID : UUID) (mutator : GameMutator)
    (h : tableFind st.s gameID = none) :
    st.MutateGame gameID mutator = (st, .error Error.ErrGameNotFound) := by
  simp [Store.MutateGame, Store.getGame, h]

/-- A failing mutator: the error wraps the mutator's error and the table `s` is not
written; the map objects are as the mutator left them. -/
theorem mutateGame_failure (st : Store) (gameID : UUID) (mutator : GameMutator)
    (g g' : GameValue) (maps' : Maps) (err : Error) (h : tableFind st.s gameID = some g)
    (hm : mutator g st.maps = (g', maps', some err)) :
    st.MutateGame gameID mutator =
        ({ st with maps := maps' }, .error (.wrap "error in mutator" err)) ∧
      (Error.wrap "error in mutator" err).Is err = true := by
  constructor
  · simp [Store.MutateGame, Store.getGame, h, hm]
  · simp [Error.Is, error_is_self]

/-- A succeeding mutator: the returned value is stored under the id, so `GetGame` shows
the mutated game afterwards. -/
theorem mutateGame_success (st : Store) (gameID : UUID) (mutator : GameMutator)
    (g g' : GameValue) (maps' : Maps) (h : tableFind st.s gameID = some g)
    (hm : mutator g st.maps = (g', maps', none)) :
    st.MutateGame gameID mutator =
        ({ s := tableAssign st.s gameID g', maps := maps' }, .ok g') ∧
      (st.MutateGame gameID mutator).1.shown gameID =
        some ((st.MutateGame gameID mutator).1.deref g') := by
  have h1 : st.MutateGame gameID mutator =
      ({ s := tableAssign st.s gameID g', maps := maps' }, .ok g') := by
    simp [Store.MutateGame, Store.getGame, h, hm]
  refine ⟨h1, ?_⟩
  rw [h1]
  simp [Store.shown, Store.GetGame, Store.getGame, tableFind_tableAssign_self]

/-- The mutators of the service write nothing before they fail, so a failed `MakeMove` or
`EndGame` leaves every game shown by the store as it was. -/
theorem inPlace_failure_keeps_shown (st : Store) (gameID : UUID)
    (f : Game → Game × Option Error) (hf : ∀ g, (f g).2 ≠ none → (f g).1 = g)
    (herr : ∀ v, (st.MutateGame gameID (inPlace f)).2 ≠ .ok v) (k : UUID) :
    (st.MutateGame gameID (inPlace f)).1.shown k = st.shown k := by
  cases hfind : tableFind st.s gameID with
  | none => rw [mutateGame_notFound st gameID _ hfind]
  | some g =>
    cases he : (f ⟨g.ID, g.State, g.Board, readMap st.maps g.Cells⟩).2 with
    | none =>
      exfalso
      have hm : inPlace f g st.maps =
          (⟨(f ⟨g.ID, g.State, g.Board, readMap st.maps g.Cells⟩).1.ID,
            (f ⟨g.ID, g.State, g.Board, readMap st.maps g.Cells⟩).1.State,
            (f ⟨g.ID, g.State, g.Board, readMap st.maps g.Cells⟩).1.Board, g.Cells⟩,
            writeMap st.maps g.Cells (f ⟨g.ID, g.State, g.Board, readMap st.maps g.Cells⟩).1.Cells,
            none) := by
        simp only [inPlace, he]
      exact herr _ (by rw [(mutateGame_success st gameID _ g _ _ hfind hm).1])
    | some err =>
      have hsame := hf ⟨g.ID, g.State, g.Board, readMap st.maps g.Cells⟩ (by rw [he]; simp)
      have hm : inPlace f g st.maps =
          (g, writeMap st.maps g.Cells (readMap st.maps g.Cells), some err) := by
        simp only [inPlace, he, hsame]
      rw [(mutateGame_failure st gameID _ g _ _ err hfind hm).1]
      simp only [Store.shown, Store.GetGame, Store.getGame]
      cases tableFind st.s k with
      | none => rfl
      | some v => simp [Store.deref, readMap_writeMap_same]

/-- C19: evaluation at the failing input.  The store `storeExample` holds the game
`newGameExample` under id 7.  `MutateGame(7, flagThenFail)` returns an error that wraps the
mutator's error and does not write the table, but the mutator wrote the map object that the
stored value shares with the copy it was handed: `GetGame(7)` afterwards shows the cell
(0,1) flagged, not the game as it was before the call. -/
theorem failed_mutator_writes_through :
    storeExample.shown 7 = some newGameExample ∧
      (storeExample.MutateGame 7 flagThenFail).2 =
        .error (.wrap "error in mutator" .ErrFlagged) ∧
      (Error.wrap "error in mutator" .ErrFlagged).Is .ErrFlagged = true ∧
      (storeExample.MutateGame 7 flagThenFail).1.s = storeExample.s ∧
      (storeExample.MutateGame 7 flagThenFail).1.shown 7 ≠ storeExample.shown 7 ∧
      (storeExample.MutateGame 7 flagThenFail).1.shown 7 =
        some { newGameExample with
          Cells := assign newGameExample.Cells ⟨0, 1⟩ ⟨false, 1, CellFlagged⟩ } := by
  refine ⟨by decide, rfl, by decide, by decide, by decide, by decide⟩

/-! ## Termination of the reveal -/

theorem foldSteps_mono {α : Type} (f f' : Game → α → Option Game)
    (hf : ∀ g a g', f g a = some g' → f' g a = some g') (l : List α) :
    ∀ g g', foldSteps f g l = some g' → foldSteps f' g l = some g' := by
  induction l with
  | nil =>
    intro g g' h
    exact h
  | cons a t ih =>
    intro g g' h
    simp only [foldSteps] at h ⊢
    cases hfa : f g a with
    | none => simp [hfa] at h
    | some g1 =>
      simp only [hfa] at h
      rw [hf g a g1 hfa]
      exact ih g1 g' h

theorem revealCellFuel_succ_mono (n : Nat) :
    ∀ (g : Game) (ref : CellRef) (g' : Game),
      revealCellFuel n g ref = some g' → revealCellFuel (n + 1) g ref = some g' := by
  induction n with
  | zero =>
    intro g ref g' h
    simp [revealCellFuel] at h
  | succ n ih =>
    intro g ref g' h
    rw [revealCellFuel_succ] at h ⊢
    split
    · rename_i hr
      rw [if_pos hr] at h
      exact h
    · rename_i hr
      rw [if_neg hr] at h
      split
      · rename_i hm
        rw [if_pos hm] at h
        exact h
      · rename_i hm
        rw [if_neg hm] at h
        split
        · rename_i hz
          rw [if_pos hz] at h
          refine foldSteps_mono _ _ ?_ offsets _ _ h
          intro x d x' hx
          simp only [neighbourStep] at hx ⊢
          split
          · rename_i c hc
            rw [hc] at hx
            simp only at hx
            split
            · rename_i hs
              rw [if_pos hs] at hx
              exact ih _ _ _ hx
            · rename_i hs
              rw [if_neg hs] at hx
              exact hx
          · rename_i hc
            rw [hc] at hx
            exact hx
        · rename_i hz
          rw [if_neg hz] at h
          exact h

theorem revealCellFuel_mono {n m : Nat} (hnm : n ≤ m) (g : Game) (ref : CellRef) (g' : Game)
    (h : revealCellFuel n g ref = some g') : revealCellFuel m g ref = some g' := by
  induction hnm with
  | refl => exact h
  | step _ ih => exact revealCellFuel_succ_mono _ g ref g' ih

theorem unrevealed_append_revealed (m : CellMap) (k : CellRef) (v : Cell)
    (hv : v.State = CellRevealed) : unrevealed (m ++ [(k, v)]) = unrevealed m := by
  simp [unrevealed, List.countP_append, hv]

theorem revealCell_unrevealed_le (g : Game) (ref : CellRef) :
    unrevealed (g.revealCell ref).Cells ≤ unrevealed g.Cells := by
  by_cases hk : ref ∈ keys g.Cells
  · exact revealStep_unrevealed_le (revealCell_step g ref hk)
  · have h := revealCellFuel_enough g ref
    have hz : index g.Cells ref = Cell.zero := by
      simp [index, (lookup_eq_none_iff g.Cells ref).mpr hk]
    rw [revealCellFuel_succ, hz] at h
    have h1 : ¬ Cell.zero.State = CellRevealed := by decide
    have h2 : ¬ Cell.zero.ContainsMine = true := by decide
    have h3 : Cell.zero.NeighbouringMines = 0 := by decide
    rw [if_neg h1, if_neg h2, if_pos h3] at h
    have hstep := neighbourFold_step _ _ _ _ h
    have hle := revealStep_unrevealed_le hstep
    simp only [keys_assign_of_not_mem _ hk] at hle
    rw [unrevealed_append_revealed _ _ _ rfl] at hle
    exact hle

/-- C22: on every game (any board, mines, neighbour counts and cell states) and for every
reference the recursion of `revealCell` terminates: there is one result that every recursion
depth of at least the number of unrevealed cells plus 2 yields, it is the game
`Game.revealCell` returns, and the number of unrevealed cells does not grow; a call on a
revealed cell or on a mined cell returns at once. -/
theorem revealCell_terminates (g : Game) (ref : CellRef) :
    (∃ g', ∀ n, unrevealed g.Cells + 2 ≤ n → revealCellFuel n g ref = some g') ∧
      (∀ n, unrevealed g.Cells + 2 ≤ n → revealCellFuel n g ref = some (g.revealCell ref)) ∧
      unrevealed (g.revealCell ref).Cells ≤ unrevealed g.Cells ∧
      ((index g.Cells ref).State = CellRevealed → ∀ n, revealCellFuel (n + 1) g ref = some g) ∧
      ((index g.Cells ref).State ≠ CellRevealed → (index g.Cells ref).ContainsMine = true →
        ∀ n, revealCellFuel (n + 1) g ref = some { g with State := GameLost }) := by
  have hall : ∀ n, unrevealed g.Cells + 2 ≤ n →
      revealCellFuel n g ref = some (g.revealCell ref) := by
    intro n hn
    obtain ⟨g', hg'⟩ := revealCellFuel_total n g ref hn
    have hle : unrevealed g.Cells ≤ g.Cells.length := List.countP_le_length _
    have hbig := revealCellFuel_mono (Nat.le_max_left n (g.Cells.length + 2)) g ref g' hg'
    have henough := revealCellFuel_mono (Nat.le_max_right n (g.Cells.length + 2)) g ref _
      (revealCellFuel_enough g ref)
    rw [hbig] at henough
    rw [hg', henough]
  refine ⟨⟨g.revealCell ref, hall⟩, hall, revealCell_unrevealed_le g ref, ?_, ?_⟩
  · intro hr n
    rw [revealCellFuel_succ, if_pos hr]
  · intro hr hm n
    rw [revealCellFuel_succ, if_neg hr, if_pos hm]

theorem revealCell_terminates_witness :
    (index newGameExample.Cells ⟨1, 1⟩).State = CellRevealed ∧
      (∀ n, revealCellFuel (n + 1) newGameExample ⟨1, 1⟩ = some newGameExample) ∧
      (index newGameExample.Cells ⟨0, 0⟩).State ≠ CellRevealed ∧
      (index newGameExample.Cells ⟨0, 0⟩).ContainsMine = true ∧
      (∀ n, revealCellFuel (n + 1) newGameExample ⟨0, 0⟩ =
        some { newGameExample with State := GameLost }) ∧
      (∀ n, unrevealed cornerGame.Cells + 2 ≤ n →
        revealCellFuel n cornerGame ⟨0, 2⟩ = some (cornerGame.revealCell ⟨0, 2⟩)) :=
  ⟨by decide, (revealCell_terminates newGameExample ⟨1, 1⟩).2.2.2.1 (by decide), by decide,
    by decide, (revealCell_terminates newGameExample ⟨0, 0⟩).2.2.2.2 (by decide) (by decide),
    (revealCell_terminates cornerGame ⟨0, 2⟩).2.1⟩

/-! ## The flood fill never visits a mine -/

theorem countNeighbouringMines_eq_minedNeighbours (g : Game) (ref : CellRef) :
    g.countNeighbouringMines ref = (minedNeighbours g.Cells ref : Nat) := by
  rw [countNeighbouringMines_eq_neighbours, minedNeighbours, List.countP_eq_length_filter]
  congr 3
  funext k
  rw [index_mine_eq_hasMine]

theorem zeroSafe_of_trueCounts {g : Game} (h : TrueCounts g) : ZeroSafe g.Cells := by
  apply zeroSafe_of_counts
  intro k hk
  rw [countNeighbouringMines_eq_minedNeighbours]
  exact h k _ (lookup_of_mem_keys hk)

/-- C23: on an ongoing game whose neighbour counts are the true numbers of adjacent mined
cells, `UpdateCell(ref, CellRevealed)` on an in-bounds cell without a mine never sets the
state to `GameLost`, and leaves every mined cell exactly as it was. -/
theorem reveal_safe_cell_never_loses (g : Game) (ref : CellRef) (c : Cell)
    (hOn : g.State = GameOngoing) (htrue : TrueCounts g) (hb : g.checkBounds ref = true)
    (hl : lookup g.Cells ref = some c) (hm : c.ContainsMine = false) :
    (g.UpdateCell ref CellRevealed).1.State ≠ GameLost ∧
      ∀ k ck, lookup g.Cells k = some ck → ck.ContainsMine = true →
        lookup (g.UpdateCell ref CellRevealed).1.Cells k = some ck := by
  rw [updateCell_reveal hOn hb]
  by_cases hf : (index g.Cells ref).State = CellFlagged
  · rw [if_pos hf]
    exact ⟨by rw [hOn]; decide, fun k ck hk _ => hk⟩
  · rw [if_neg hf]
    have hk : ref ∈ keys g.Cells := lookup_some_mem_keys hl
    have hm' : (index g.Cells ref).ContainsMine = false := by
      rw [index_of_lookup hl]
      exact hm
    have hst : (g.revealCell ref).State = GameOngoing :=
      (revealCellFuel_safe _ g ref _ (zeroSafe_of_trueCounts htrue) hk hm'
        (revealCellFuel_enough g ref)).trans hOn
    have hstep := revealCell_step g ref hk
    constructor
    · rcases tryWin_state_cases (g.revealCell ref) with h | h
      · simp only
        rw [h, hst]
        decide
      · simp only
        rw [h]
        decide
    · intro k ck hlk hmk
      simp only [tryWin_cells]
      rcases mapRel_lookup hstep.1 k with ⟨h1, _⟩ | ⟨c0, c', h1, h2, hcs⟩
      · rw [hlk] at h1
        cases h1
      · rw [hlk] at h1
        cases h1
        rw [h2]
        congr 1
        refine cell_ext hcs.1 hcs.2.1 ?_
        rcases hcs.2.2 with hs | hs
        · exact hs
        · rw [hmk] at hs
          cases hs.2

theorem forall_mem_iff_lookup' (m : CellMap) (hn : (keys m).Nodup)
    (P : CellRef → Cell → Prop) :
    (∀ e ∈ m, P e.1 e.2) ↔ ∀ k c, lookup m k = some c → P k c := by
  constructor
  · intro h k c hl
    exact h (k, c) (lookup_mem hl)
  · intro h e he
    exact h e.1 e.2 (mem_lookup_of_nodup hn he)

theorem newGameExample_trueCounts : TrueCounts newGameExample := by
  unfold TrueCounts
  exact (forall_mem_iff_lookup' newGameExample.Cells (by decide)
    (fun k c => c.NeighbouringMines = (minedNeighbours newGameExample.Cells k : Nat))).mp
    (by decide)

theorem reveal_safe_cell_never_loses_witness :
    newGameExample.State = GameOngoing ∧ TrueCounts newGameExample ∧
      newGameExample.checkBounds ⟨0, 1⟩ = true ∧
      lookup newGameExample.Cells ⟨0, 1⟩ = some ⟨false, 1, CellDefault⟩ ∧
      ((newGameExample.UpdateCell ⟨0, 1⟩ CellRevealed).1.State ≠ GameLost ∧
        ∀ k ck, lookup newGameExample.Cells k = some ck → ck.ContainsMine = true →
          lookup (newGameExample.UpdateCell ⟨0, 1⟩ CellRevealed).1.Cells k = some ck) :=
  ⟨by decide, newGameExample_trueCounts, by decide, by decide,
    reveal_safe_cell_never_loses newGameExample ⟨0, 1⟩ ⟨false, 1, CellDefault⟩ (by decide)
      newGameExample_trueCounts (by decide) (by decide) (by decide)⟩

/-! ## A new game with every safe cell revealed -/

theorem winStep_refl (c : Cell) : WinStep c c := ⟨rfl, fun h => Or.inl h, fun h => h⟩

theorem winStep_of_cellStep (c c' : Cell) (h : CellStep c c') : WinStep c c' := by
  refine ⟨h.1, fun hr => ?_, fun hr => ?_⟩
  · rcases h.2.2 with hs | ⟨_, hm⟩
    · exact Or.inl (hs ▸ hr)
    · exact Or.inr hm
  · rcases h.2.2 with hs | ⟨hs, _⟩
    · exact hs.trans hr
    · exact hs

theorem updateCell_ok_winStep {g : Game} {ref : CellRef} {s : CellState}
    (hOn : g.State = GameOngoing)
    (hkeys : ∀ k, g.checkBounds k = true → k ∈ keys g.Cells)
    (hok : (g.UpdateCell ref s).2 = none) :
    ∃ g1 : Game, (g.UpdateCell ref s).1 = g1.tryWin ∧ MapRel WinStep g.Cells g1.Cells ∧
      g1.Board = g.Board ∧ (g1.State = GameOngoing ∨ g1.State = GameLost) := by
  obtain ⟨hb, _⟩ := updateCell_ok_cases hOn hkeys hok
  have hk := hkeys ref hb
  by_cases hm : s = CellDefault ∨ s = CellFlagged ∨ s = CellQuestioned
  · rw [updateCell_mark hOn hb hm] at hok ⊢
    by_cases hv : (index g.Cells ref).State = CellRevealed
    · simp [hv] at hok
    · rw [if_neg hv]
      refine ⟨_, rfl, ?_, rfl, Or.inl hOn⟩
      refine mapRel_assign winStep_refl hk ⟨rfl, fun hr => ?_, fun hr => absurd hr hv⟩
      simp only at hr
      rcases hm with h | h | h <;> rw [h] at hr <;> exact absurd hr (by decide)
  · by_cases hr : s = CellRevealed
    · subst hr
      rw [updateCell_reveal hOn hb] at hok ⊢
      by_cases hf : (index g.Cells ref).State = CellFlagged
      · simp [hf] at hok
      · rw [if_neg hf]
        have hstep := revealCell_step g ref hk
        refine ⟨_, rfl, mapRel_mono winStep_of_cellStep hstep.1, hstep.2.1, ?_⟩
        rcases hstep.2.2.2 with h | h
        · exact Or.inl (h.trans hOn)
        · exact Or.inr h
    · rw [updateCell_unknown hOn hb hm hr] at hok
      simp at hok

/-- With every safe cell revealed, a successful call that does not lose wins. -/
theorem updateCell_allSafe_wins (g : Game) (ref : CellRef) (s : CellState)
    (hOn : g.State = GameOngoing) (hwf : WellFormed g) (hsafe : AllSafeRevealed g)
    (hpos : 0 ≤ g.Board.Width ∧ 0 ≤ g.Board.Height)
    (hok : (g.UpdateCell ref s).2 = none)
    (hnl : (g.UpdateCell ref s).1.State ≠ GameLost) :
    (g.UpdateCell ref s).1.State = GameWon := by
  obtain ⟨⟨hnodup, hmem⟩, hmines, hrm⟩ := hwf
  obtain ⟨g1, hg1, hrel, hboard, hstate⟩ :=
    updateCell_ok_winStep hOn (fun k hk => (hmem k).mpr hk) hok
  have hOn1 : g1.State = GameOngoing := by
    rcases hstate with h | h
    · exact h
    · exfalso
      apply hnl
      rw [hg1, tryWin_of_finished (by rw [h]; decide), h]
  have hkeys1 : keys g1.Cells = keys g.Cells := mapRel_keys_eq hrel
  have hnodup1 : (keys g1.Cells).Nodup := hkeys1 ▸ hnodup
  have hlen1 : (g1.Cells.length : Int) = g1.Board.Width * g1.Board.Height := by
    rw [mapRel_length_eq hrel, hboard]
    have := length_eq_of_box hnodup (fun k => (hmem k).trans (checkBounds_iff g k))
      hpos.2 hpos.1
    simpa [keys] using this
  have hmines1 : (mineCount g1.Cells : Int) = g1.Board.Mines := by
    rw [hboard, ← hmines]
    unfold mineCount
    rw [mapRel_countP_eq (fun c => c.ContainsMine) (fun c c' h => h.1) hrel]
  have hrm1 : ∀ k c, lookup g1.Cells k = some c → c.ContainsMine = true →
      c.State ≠ CellRevealed := by
    intro k c' hl hm hr
    rcases mapRel_lookup hrel k with ⟨_, h2⟩ | ⟨c, c'', h1, h2, hstep⟩
    · rw [h2] at hl
      cases hl
    · rw [h2] at hl
      cases hl
      rcases hstep.2.1 hr with h | h
      · exact hrm k c h1 (hstep.1 ▸ hm) h
      · rw [← hstep.1, hm] at h
        cases h
  have hsafe1 : AllSafeRevealed g1 := by
    intro k c' hl hm
    rcases mapRel_lookup hrel k with ⟨_, h2⟩ | ⟨c, c'', h1, h2, hstep⟩
    · rw [h2] at hl
      cases hl
    · rw [h2] at hl
      cases hl
      exact hstep.2.2 (hsafe k c h1 (hstep.1 ▸ hm))
  have hB := (revealed_count_iff hnodup1 hlen1 hmines1 hrm1).mpr hsafe1
  rw [hg1, tryWin_state_ongoing g1 hOn1, if_pos (Or.inr hB)]

/-- A game returned by `NewGame` is ongoing and well formed, on the board it was asked
for, and has a revealed cell. -/
theorem newGame_wellFormed {ω : Type} {bits fuel : Nat} {ctxDone : ω → Bool} {idGen : IDGenerator}
    {numberGen : NumberGenerator ω} {board : Board} {w : ω} {g' : Game}
    (hr : InRange numberGen)
    (h : NewGame bits fuel ctxDone idGen numberGen board w = some (.ok g')) :
    g'.State = GameOngoing ∧ WellFormed g' ∧ g'.Board = board ∧
      (0 < board.Width ∧ 0 < board.Height) ∧
      ∃ ref c, lookup g'.Cells ref = some c ∧ c.State = CellRevealed := by
  obtain ⟨⟨hH, hW, _, _⟩, g2, ref0, hg, hb, hm0, ⟨hst, hbd, _⟩, hn, hk, hmc, hdef, hnm⟩ :=
    newGame_ok hr h
  have hmem0 : ref0 ∈ keys g2.Cells := (hk ref0).mpr hb
  have hstep : RevealStep g2 g' := hg ▸ revealCell_step g2 ref0 hmem0
  have hkeys := mapRel_keys_eq hstep.1
  have hboard : g'.Board = board := hstep.2.1.trans hbd
  refine ⟨?_, ⟨⟨hkeys ▸ hn, fun k => ?_⟩, ?_, ?_⟩, hboard, ⟨hW, hH⟩, ?_⟩
  · rw [hg, ← hst]
    exact revealCellFuel_safe _ g2 ref0 _ (zeroSafe_of_counts g2 hnm) hmem0 hm0
      (revealCellFuel_enough g2 ref0)
  · rw [hkeys, hk k, checkBounds_iff, hboard]
  · rw [hboard, ← hmc]
    unfold mineCount
    rw [mapRel_countP_eq (fun c => c.ContainsMine) (fun c c' h => h.1) hstep.1]
  · intro ref c' hl hmine hrev
    rcases mapRel_lookup hstep.1 ref with ⟨_, h2⟩ | ⟨c, c'', h1, h2, hcs⟩
    · rw [h2] at hl
      cases hl
    · rw [h2] at hl
      cases hl
      rcases hcs.2.2 with hs | hs
      · have hd := hdef _ (lookup_mem h1)
        simp only at hd
        rw [hs, hd] at hrev
        exact absurd hrev (by decide)
      · rw [hcs.1, hs.2] at hmine
        cases hmine
  · refine ⟨ref0, index g'.Cells ref0, lookup_of_mem_keys (hkeys ▸ hmem0), ?_⟩
    rw [hg]
    exact revealCell_target g2 ref0 hm0

theorem allSafeRevealed_of_one_safe {g : Game} (hwf : WellFormed g)
    (hpos : 0 < g.Board.Width ∧ 0 < g.Board.Height)
    (hsize : g.Board.Width * g.Board.Height = 2) (hmines : g.Board.Mines = 1)
    (hrev : ∃ ref c, lookup g.Cells ref = some c ∧ c.State = CellRevealed) :
    AllSafeRevealed g := by
  obtain ⟨⟨hnodup, hmem⟩, hmc, hrm⟩ := hwf
  have hlen : (g.Cells.length : Int) = 2 := by
    have := length_eq_of_box hnodup (fun k => (hmem k).trans (checkBounds_iff g k))
      (le_of_lt hpos.2) (le_of_lt hpos.1)
    rw [hsize] at this
    simpa [keys] using this
  have hsplit := List.length_eq_countP_add_countP (fun e : CellRef × Cell => e.2.ContainsMine)
    g.Cells
  have hnot : List.countP (fun e : CellRef × Cell => !e.2.ContainsMine) g.Cells =
      List.countP (fun e => ¬ (e.2.ContainsMine = true)) g.Cells := by
    congr 1
    funext e
    simp
  have hsafeCount : List.countP (fun e : CellRef × Cell => !e.2.ContainsMine) g.Cells = 1 := by
    rw [hnot]
    unfold mineCount at hmc
    rw [hmines] at hmc
    have h1 : List.countP (fun e : CellRef × Cell => e.2.ContainsMine) g.Cells = 1 := by
      exact_mod_cast hmc
    have h2 : g.Cells.length = 2 := by exact_mod_cast hlen
    omega
  have himp : ∀ e ∈ g.Cells, decide (e.2.State = CellRevealed) = true →
      (!e.2.ContainsMine) = true := by
    intro e he hr
    have hr' : e.2.State = CellRevealed := by simpa using hr
    cases hm : e.2.ContainsMine with
    | false => rfl
    | true => exact absurd hr' ((forall_mem_iff_lookup hnodup
        (fun c => c.ContainsMine = true → c.State ≠ CellRevealed)).mpr hrm e he hm)
  have hle := countP_le_of_imp g.Cells (fun e => decide (e.2.State = CellRevealed))
    (fun e => !e.2.ContainsMine) himp
  have hge : 0 < List.countP (fun e : CellRef × Cell => decide (e.2.State = CellRevealed))
      g.Cells := by
    obtain ⟨ref, c, hl, hs⟩ := hrev
    exact List.countP_pos_iff.mpr ⟨(ref, c), lookup_mem hl, by simpa using hs⟩
  have heq : List.countP (fun e : CellRef × Cell => decide (e.2.State = CellRevealed))
      g.Cells = List.countP (fun e => !e.2.ContainsMine) g.Cells := by omega
  have hall := (countP_eq_iff_of_imp g.Cells (fun e => decide (e.2.State = CellRevealed))
    (fun e => !e.2.ContainsMine) himp).mp heq
  unfold AllSafeRevealed
  rw [← forall_mem_iff_lookup hnodup (fun c => c.ContainsMine = false → c.State = CellRevealed)]
  intro e he hm
  simpa using hall e he (by simp [hm])

theorem pairGame_example :
    NewGame 64 5 (fun _ => false) (fun _ => 7) stepGen ⟨2, 1, 1⟩ 0 = some (.ok pairGame) := by
  rfl

/-- C24: `NewGame` never evaluates the win condition.  On every board with
`Width*Height = 2` and `Mines = 1` (for example 1x2) and with every in-range number
generator, the game it returns has all its safe cells revealed and is still `GameOngoing`;
every following `UpdateCell` that returns no error and does not reveal the mine (does not
end in `GameLost`) turns the state to `GameWon`, for example marking the mine cell
`Questioned`. -/
theorem newGame_skips_win_check {ω : Type} (bits fuel : Nat) (ctxDone : ω → Bool)
    (idGen : IDGenerator) (numberGen : NumberGenerator ω) (board : Board) (w : ω) (g' : Game)
    (hr : InRange numberGen) (hsize : board.Width * board.Height = 2)
    (hmines : board.Mines = 1)
    (h : NewGame bits fuel ctxDone idGen numberGen board w = some (.ok g')) :
    g'.State = GameOngoing ∧ AllSafeRevealed g' ∧
      (∀ ref s, (g'.UpdateCell ref s).2 = none → (g'.UpdateCell ref s).1.State ≠ GameLost →
        (g'.UpdateCell ref s).1.State = GameWon) ∧
      (∀ ref c, lookup g'.Cells ref = some c → c.ContainsMine = true →
        (g'.UpdateCell ref CellQuestioned).2 = none ∧
          (g'.UpdateCell ref CellQuestioned).1.State = GameWon) := by
  obtain ⟨hOn, hwf, hboard, hpos, hrev⟩ := newGame_wellFormed hr h
  have hpos' : 0 < g'.Board.Width ∧ 0 < g'.Board.Height := by
    rw [hboard]
    exact hpos
  have hsafe : AllSafeRevealed g' :=
    allSafeRevealed_of_one_safe hwf hpos' (by rw [hboard]; exact hsize)
      (by rw [hboard]; exact hmines) hrev
  have hwin : ∀ ref s, (g'.UpdateCell ref s).2 = none →
      (g'.UpdateCell ref s).1.State ≠ GameLost → (g'.UpdateCell ref s).1.State = GameWon :=
    fun ref s hok hnl => updateCell_allSafe_wins g' ref s hOn hwf hsafe
      ⟨le_of_lt hpos'.1, le_of_lt hpos'.2⟩ hok hnl
  refine ⟨hOn, hsafe, hwin, ?_⟩
  intro ref c hl hm
  have hb : g'.checkBounds ref = true := (hwf.1.2 ref).mp (lookup_some_mem_keys hl)
  have hnr : (index g'.Cells ref).State ≠ CellRevealed := by
    rw [index_of_lookup hl]
    exact hwf.2.2 ref c hl hm
  have hq : CellQuestioned = CellDefault ∨ CellQuestioned = CellFlagged ∨
      CellQuestioned = CellQuestioned := Or.inr (Or.inr rfl)
  have hmark := updateCell_mark hOn hb hq
  rw [if_neg hnr] at hmark
  have hok : (g'.UpdateCell ref CellQuestioned).2 = none := by rw [hmark]
  refine ⟨hok, hwin ref CellQuestioned hok ?_⟩
  rw [hmark]
  rcases tryWin_state_cases
    { g' with Cells := assign g'.Cells ref { index g'.Cells ref with State := CellQuestioned } }
    with hs | hs
  · simp only
    rw [hs]
    simp only
    rw [hOn]
    decide
  · simp only
    rw [hs]
    decide

theorem newGame_skips_win_check_witness :
    InRange stepGen ∧ (⟨2, 1, 1⟩ : Board).Width * (⟨2, 1, 1⟩ : Board).Height = 2 ∧
      (⟨2, 1, 1⟩ : Board).Mines = 1 ∧
      NewGame 64 5 (fun _ => false) (fun _ => 7) stepGen ⟨2, 1, 1⟩ 0 = some (.ok pairGame) ∧
      (pairGame.UpdateCell ⟨0, 0⟩ CellQuestioned).1.State = GameWon ∧
      (pairGame.State = GameOngoing ∧ AllSafeRevealed pairGame ∧
        (∀ ref s, (pairGame.UpdateCell ref s).2 = none →
          (pairGame.UpdateCell ref s).1.State ≠ GameLost →
          (pairGame.UpdateCell ref s).1.State = GameWon) ∧
        (∀ ref c, lookup pairGame.Cells ref = some c → c.ContainsMine = true →
          (pairGame.UpdateCell ref CellQuestioned).2 = none ∧
            (pairGame.UpdateCell ref CellQuestioned).1.State = GameWon)) :=
  ⟨stepGen_inRange, by decide, by decide, pairGame_example, by decide,
    newGame_skips_win_check 64 5 (fun _ => false) (fun _ => 7) stepGen ⟨2, 1, 1⟩ 0 pairGame
      stepGen_inRange (by decide) (by decide) pairGame_example⟩

/-! ## The text view -/

/-- The header call prints the state text, a tab and `flagged/mines`; nothing stands
between the tab and the number. -/
theorem headerText_lines (g : sweeperv1.Game) (flaggedCells : Int) :
    headerText g flaggedCells =
      unlines ["Game '" ++ g.Id ++ "'",
        gameStateToString g.State ++ "\t" ++ Itoa flaggedCells ++ "/" ++ Itoa g.Board.Mines] := by
  simp [headerText, unlines, String.append_assoc]

/-- The loop of `pad` ends by its own test when it may run `l` rounds. -/
theorem padLoop_done (n : Nat) (s : String) (l : Int) (h : l ≤ len s + n) :
    ¬ len (padLoop n s l) < l := by
  induction n generalizing s with
  | zero =>
    simp only [padLoop]
    simp only [Nat.cast_zero, add_zero] at h
    omega
  | succ n ih =>
    simp only [padLoop]
    split_ifs with hlt
    · apply ih
      have : len (" " ++ s) = len s + 1 := by
        cases s
        rfl
      rw [this]
      push_cast at h
      omega
    · exact hlt

/-- The text `pad` returns has at least `l` bytes. -/
theorem pad_len (s : String) (l : Int) : l ≤ len (pad s l) := by
  have h := padLoop_done l.toNat s l (by
    have : 0 ≤ len s := by simp [len]
    omega)
  unfold pad
  omega

/-- C21: evaluation at the failing input, the game of `Example_renderGame` written to a
writer that never fails. `renderGame` returns no error and writes nine lines whose second
line is the state text, a tab and `1/2`, without the bullet of the example's `Output`
comment; the lines of the second and third board row end in two blanks the comment does
not have. The written text differs from the comment's text, also after `TrimSpace` on
both sides. -/
theorem renderGame_example_differs :
    (renderGame (fun _ => false) Stdout exampleGame).map (fun r => (r.1.out, r.2)) =
        some (unlines exampleRenderedLines, none) ∧
      exampleRenderedLines.get? 1 = some "You lost.\t1/2" ∧
      exampleOutputLines.get? 1 = some "You lost.\t• 1/2" ∧
      exampleRenderedLines.get? 6 = some (" 2 │ 1 ╎ ? ╎" ++ "  ") ∧
      exampleOutputLines.get? 6 = some " 2 │ 1 ╎ ? ╎" ∧
      unlines exampleRenderedLines ≠ unlines exampleOutputLines ∧
      TrimSpace (unlines exampleRenderedLines) ≠ TrimSpace (unlines exampleOutputLines) := by
  refine ⟨by rfl, by decide, by decide, by decide, by decide, by decide, by decide⟩

theorem write_ok (w : Writer) (s : String) (hf : ∀ k, w.fault k = none) :
    w.Write s = ({ w with out := w.out ++ s, calls := w.calls + 1 }, none) := by
  simp [Writer.Write, hf]

/-- On a writer that never fails the print calls append their texts and return no error. -/
theorem writeAll_ok (l : List String) (w : Writer) (hf : ∀ k, w.fault k = none) :
    ∃ rest, (w.writeAll l).1.out = w.out ++ rest ∧ (w.writeAll l).2 = none := by
  induction l generalizing w with
  | nil => exact ⟨"", by simp [Writer.writeAll], rfl⟩
  | cons s l ih =>
    obtain ⟨rest, h1, h2⟩ := ih { w with out := w.out ++ s, calls := w.calls + 1 } hf
    refine ⟨s ++ rest, ?_, ?_⟩
    · simp only [Writer.writeAll, write_ok w s hf]
      rw [h1, String.append_assoc]
    · simp only [Writer.writeAll, write_ok w s hf]
      exact h2

theorem writeAll_cons_ok (s : String) (l : List String) (w : Writer)
    (hf : ∀ k, w.fault k = none) :
    ∃ rest, (w.writeAll (s :: l)).1.out = w.out ++ s ++ rest := by
  obtain ⟨rest, h1, _⟩ := writeAll_ok l { w with out := w.out ++ s, calls := w.calls + 1 } hf
  refine ⟨rest, ?_⟩
  simp only [Writer.writeAll, write_ok w s hf]
  exact h1

/-- The counter `flaggedCells` after the loop is the number of flagged cells. -/
theorem accumulate_flagged (ctxDone : Nat → Bool) (cs : List sweeperv1.Cell) (k : Nat)
    (cells cells' : List (List Char)) (f f' : Int)
    (h : accumulate ctxDone cs k cells f = some (.ok (cells', f'))) :
    f' = f + ((cs.filter (fun c => decide (c.State = .Flagged))).length : Nat) := by
  induction cs generalizing k cells f with
  | nil =>
    simp only [accumulate, Option.some.injEq, Except.ok.injEq, Prod.mk.injEq] at h
    simp [h.2]
  | cons c rest ih =>
    simp only [accumulate] at h
    by_cases hd : ctxDone k = true
    · simp [hd] at h
    · simp only [hd, Bool.false_eq_true, if_false] at h
      cases hs : setCell cells c.Row c.Column (cellRune c) with
      | none => simp [hs] at h
      | some cells1 =>
        simp only [hs] at h
        have h' := ih _ _ _ h
        by_cases hfl : c.State = .Flagged
        · simp only [hfl, if_true] at h'
          simp only [List.filter_cons, hfl, decide_True, if_true, List.length_cons]
          push_cast
          omega
        · simp only [hfl, if_false] at h'
          simp only [List.filter_cons, hfl, decide_False]
          simpa using h'

/-- For every game: when `renderGame` returns without error on a writer that never
fails, the text it appends starts with the line `Game '<id>'` and the status line, which
is the state text, a tab and `<flagged cells>/<mines>`. -/
theorem renderGame_header (ctxDone : Nat → Bool) (w w' : Writer) (g : sweeperv1.Game)
    (hf : ∀ k, w.fault k = none) (h : renderGame ctxDone w g = some (w', none)) :
    ∃ rest, w'.out = w.out ++
      unlines ["Game '" ++ g.Id ++ "'",
        gameStateToString g.State ++ "\t" ++
          Itoa ((g.Cells.filter (fun c => decide (c.State = .Flagged))).length : Nat) ++ "/" ++
          Itoa g.Board.Mines] ++ rest := by
  unfold renderGame at h
  cases hm : makeCells g.Board with
  | none => simp [hm] at h
  | some cells0 =>
    simp only [hm] at h
    cases ha : accumulate ctxDone g.Cells 0 cells0 0 with
    | none => simp [ha] at h
    | some r =>
      cases r with
      | error e => simp [ha] at h
      | ok p =>
        obtain ⟨cells, flaggedCells⟩ := p
        simp only [ha, Option.some.injEq] at h
        have hfl := accumulate_flagged _ _ _ _ _ _ _ ha
        simp only [zero_add] at hfl
        have hc : headerText g flaggedCells :: (renderChunks g cells flaggedCells).tail =
            renderChunks g cells flaggedCells := rfl
        obtain ⟨rest, h1⟩ := writeAll_cons_ok (headerText g flaggedCells)
          (renderChunks g cells flaggedCells).tail w hf
        rw [hc, h] at h1
        exact ⟨rest, by rw [h1, headerText_lines, hfl]⟩

end Sweeper
